import Mathlib

/-!
# Sokoban: movement and topology engine

A shallow embedding of `src/sokoban.c`.

* The map is a `List Int` of character codes, its length is passed along as
  the C code does (`n`); cell indices are `Int`, as the C `int` indices are,
  with `-1` the "no neighbour" value.
* A read at an index outside the buffer returns whatever the memory there
  holds. The embedding takes those values from a `Stray` environment, so
  that a theorem quantified over the environment holds for every value such
  a read may deliver. A write outside the buffer is dropped; no statement
  below depends on such a write.
* `char` arithmetic (`+= CHANGECASE`, `-= CHANGECASE`) wraps to eight signed
  bits (`toChar`); on letters it never wraps.
* The undo log (`move_t *head`) is a `List move_t`, most recent record first.
* The `while` loop of `CheckPathExists` runs on fuel; `CheckPathExists_total`
  shows that the fuel it is given is always enough, so the loop ends by its
  own test.
-/

namespace Sokoban

/-! ## Constants -/

/-- Difference between the codes of a lower and an upper case letter. -/
def CHANGECASE : Int := 32

/-- Direction token `'8'`. -/
def UP : Int := 56
/-- Direction token `'2'`. -/
def DOWN : Int := 50
/-- Direction token `'4'`. -/
def LEFT : Int := 52
/-- Direction token `'6'`. -/
def RIGHT : Int := 54

def UNCHECKED : Int := 0
def UNCHECKEDAROUND : Int := 1
def REACHABLE : Int := 2
def UNREACHABLE : Int := 3

/-- Character `'\n'`. -/
def NEWLINE : Int := 10
/-- Character `'@'`. -/
def AT : Int := 64
/-- Character `'*'`. -/
def STAR : Int := 42
/-- Character `'-'`. -/
def MINUS : Int := 45
/-- Character `'+'`. -/
def PLUS : Int := 43
/-- Value of `EOF`. -/
def EOF : Int := -1

/-- Record of the undo list (`struct move`); the `next` pointer is the tail of
the list that holds the record. -/
structure move_t where
  playerPos : Int
  boxChar : Int
  direction : Int
  deriving DecidableEq, Repr

/-- Values delivered by reads outside the two buffers: `cell i` for `map[i]`,
`mark i` for `path[i]`. -/
structure Stray where
  cell : Int → Int
  mark : Int → Int

/-! ## Memory access -/

/-- Read `a[i]`; outside the buffer the value comes from `s`. -/
def rd (s : Int → Int) (a : List Int) (i : Int) : Int :=
  if 0 ≤ i ∧ i < a.length then a.getD i.toNat 0 else s i

/-- Write `a[i] = v`; a write outside the buffer is dropped. -/
def wr (a : List Int) (i : Int) (v : Int) : List Int :=
  if 0 ≤ i then a.set i.toNat v else a

/-- Conversion of an `int` value to `char` (signed, 8 bits). -/
def toChar (x : Int) : Int := (x + 128) % 256 - 128

/-! ## Searching the buffer -/

/-- Loop of `FindSymbol`: `while (i < n && map[i] != symbol) i++`. The fuel is
the distance to `n`, so the loop always ends by its own test. -/
def FindSymbolLoop (g : Stray) (map : List Int) (n symbol : Int) : Nat → Int → Int
  | 0, i => i
  | k + 1, i =>
    if i < n ∧ rd g.cell map i ≠ symbol then FindSymbolLoop g map n symbol k (i + 1) else i

/-- Index of the first element equal to `symbol`, or `n`. -/
def FindSymbol (g : Stray) (map : List Int) (n symbol : Int) : Int :=
  FindSymbolLoop g map n symbol n.toNat 0

/-- Index of the player character. -/
def FindPlayer (g : Stray) (map : List Int) (n : Int) : Int :=
  if FindSymbol g map n AT < n then FindSymbol g map n AT else FindSymbol g map n STAR

/-- Loop of `FindNextNewline`: `while (origin < n && map[origin] != '\n') origin++`. -/
def FindNextNewlineLoop (g : Stray) (map : List Int) (n : Int) : Nat → Int → Int
  | 0, origin => origin
  | k + 1, origin =>
    if origin < n ∧ rd g.cell map origin ≠ NEWLINE then FindNextNewlineLoop g map n k (origin + 1)
    else origin

/-- Index of the next `'\n'` at or after `origin`, or `n`. -/
def FindNextNewline (g : Stray) (map : List Int) (n origin : Int) : Int :=
  FindNextNewlineLoop g map n (n - origin).toNat origin

/-- Loop of `FindPrevNewline`: `while (origin > -1 && map[origin] != '\n') origin--`. -/
def FindPrevNewlineLoop (g : Stray) (map : List Int) : Nat → Int → Int
  | 0, origin => origin
  | k + 1, origin =>
    if origin > -1 ∧ rd g.cell map origin ≠ NEWLINE then FindPrevNewlineLoop g map k (origin - 1)
    else origin

/-- Index of the previous `'\n'` at or before `origin`, or `-1` (or `origin`
itself when it is below `-1`). -/
def FindPrevNewline (g : Stray) (map : List Int) (origin : Int) : Int :=
  FindPrevNewlineLoop g map (origin + 1).toNat origin

/-! ## Neighbours -/

def BottomElement (g : Stray) (map : List Int) (n origin : Int) : Int :=
  let column := origin - FindPrevNewline g map origin
  let newline_1 := FindNextNewline g map n origin
  let newline_2 := FindNextNewline g map n (newline_1 + 1)
  if newline_1 + column < newline_2 then newline_1 + column else -1

def TopElement (g : Stray) (map : List Int) (origin : Int) : Int :=
  let newline_2 := FindPrevNewline g map origin
  let newline_1 := FindPrevNewline g map (newline_2 - 1)
  let column := origin - newline_2
  if newline_1 ≥ -1 ∧ newline_1 + column < newline_2 then newline_1 + column else -1

def RightElement (g : Stray) (map : List Int) (n origin : Int) : Int :=
  if origin + 1 < n ∧ rd g.cell map (origin + 1) ≠ NEWLINE then origin + 1 else -1

def LeftElement (g : Stray) (map : List Int) (origin : Int) : Int :=
  if origin - 1 > -1 ∧ rd g.cell map (origin - 1) ≠ NEWLINE then origin - 1 else -1

def FindOppositePos (g : Stray) (map : List Int) (n origin direction : Int) : Int :=
  if direction = UP then BottomElement g map n origin
  else if direction = RIGHT then LeftElement g map origin
  else if direction = LEFT then RightElement g map n origin
  else if direction = DOWN then TopElement g map origin
  else 0

def FindDestination (g : Stray) (map : List Int) (n origin direction : Int) : Int :=
  if direction = UP then TopElement g map origin
  else if direction = RIGHT then RightElement g map n origin
  else if direction = LEFT then LeftElement g map origin
  else if direction = DOWN then BottomElement g map n origin
  else 0

/-! ## Moving a box -/

/-- Moves the box from `origin` to `destination`, together with the player. -/
def MoveBox (g : Stray) (map : List Int) (n origin destination : Int) : List Int :=
  let m1 :=
    if rd g.cell map (FindPlayer g map n) = AT then wr map (FindPlayer g map n) MINUS
    else wr map (FindPlayer g map n) PLUS
  let goal := rd g.cell m1 destination
  let m2 := wr m1 destination (rd g.cell m1 origin)
  if rd g.cell m2 origin ≥ 65 ∧ rd g.cell m2 origin ≤ 90 then
    let m3 := wr m2 origin STAR
    if goal = MINUS ∨ goal = AT then
      wr m3 destination (toChar (rd g.cell m3 destination + CHANGECASE))
    else m3
  else
    let m3 := wr m2 origin AT
    if goal = PLUS ∨ goal = STAR then
      wr m3 destination (toChar (rd g.cell m3 destination - CHANGECASE))
    else m3

/-- Adds a move to the list for undoing. -/
def AddMoveToStack (head : List move_t) (player_pos box_char direction : Int) : List move_t :=
  { playerPos := player_pos, boxChar := box_char, direction := direction } :: head

/-- Undoes the move recorded in `head`, the first record of the list; `next` is
the rest of the list. Returns the new head and the buffer. -/
def UndoMove (g : Stray) (head : move_t) (next : List move_t) (map : List Int) (n : Int) :
    List move_t × List Int :=
  let symbol := if FindSymbol g map n head.boxChar ≥ n then head.boxChar - CHANGECASE
    else head.boxChar
  let origin := FindSymbol g map n symbol
  let destination := FindOppositePos g map n origin head.direction
  let m1 := MoveBox g map n origin destination
  let m2 :=
    if rd g.cell m1 (FindPlayer g m1 n) = AT then wr m1 (FindPlayer g m1 n) MINUS
    else wr m1 (FindPlayer g m1 n) PLUS
  let m3 := if rd g.cell m2 head.playerPos = MINUS then wr m2 head.playerPos AT
    else wr m2 head.playerPos STAR
  (next, m3)

/-! ## Reachability -/

/-- Checks if a box can be moved to a square holding `symbol`. -/
def IsSymbolValid (symbol : Int) : Bool :=
  if symbol = MINUS ∨ symbol = PLUS ∨ symbol = AT ∨ symbol = STAR then true else false

/-- Body of the inner `for (j ...)` loop for one neighbour `a = Adjacent[j]`. -/
def markAdjacent (g : Stray) (map path : List Int) (a : Int) : List Int :=
  if a ≠ -1 ∧ rd g.mark path a = 0 then
    if IsSymbolValid (rd g.cell map a) = true then wr path a UNCHECKEDAROUND
    else wr path a UNREACHABLE
  else path

/-- Body of the `for (i ...)` loop; the state is `path` and `checked_all`. -/
def scanCell (g : Stray) (map : List Int) (n : Int) (st : List Int × Bool) (i : Int) :
    List Int × Bool :=
  if rd g.mark st.1 i = UNCHECKEDAROUND then
    let a0 := TopElement g map i
    let a1 := RightElement g map n i
    let a2 := BottomElement g map n i
    let a3 := LeftElement g map i
    let p := markAdjacent g map (markAdjacent g map (markAdjacent g map
      (markAdjacent g map st.1 a0) a1) a2) a3
    (wr p i REACHABLE, false)
  else st

/-- One pass `for (int i = 0; i < n; i++)` started with `checked_all = true`. -/
def scanPass (g : Stray) (map : List Int) (n : Int) (path : List Int) : List Int × Bool :=
  (List.range n.toNat).foldl
    (fun (st : List Int × Bool) (i : Nat) => scanCell g map n st (i : Int)) (path, true)

/-- The loop `while (!checked_all && !reachable)`, on fuel: `none` when the
fuel is used up before the loop ends. -/
def pathLoop (g : Stray) (map : List Int) (n destination : Int) :
    Nat → List Int → Bool → Bool → Option Bool
  | fuel, path, checked_all, reachable =>
    if checked_all = false ∧ reachable = false then
      match fuel with
      | 0 => none
      | k + 1 =>
        let reachable1 := if rd g.mark path destination = REACHABLE then true else reachable
        let st := scanPass g map n path
        pathLoop g map n destination k st.1 st.2 reachable1
    else some reachable

/-- Number of passes that is always enough for a buffer of `n` cells. -/
def pathFuel (n : Int) : Nat := 2 * n.toNat + 2

/-- Checks if the player can move from `origin` to `destination`. -/
def CheckPathExists (g : Stray) (map : List Int) (n origin destination : Int) : Bool :=
  let path := wr (List.replicate n.toNat 0) origin UNCHECKEDAROUND
  (pathLoop g map n destination (pathFuel n) path false false).getD false

/-! ## Commands -/

/-- The last branch of `ReadMove`: a push command with box character `c` and
direction token `direction`. Returns the buffer and the undo list. -/
def ReadMove_push (g : Stray) (map : List Int) (n : Int) (head : List move_t)
    (c direction : Int) : List Int × List move_t :=
  let symbol := if FindSymbol g map n c ≥ n then c - CHANGECASE else c
  let origin := FindSymbol g map n symbol
  let player_destin := FindOppositePos g map n origin direction
  let destin := FindDestination g map n origin direction
  if destin ≠ -1 ∧ player_destin ≠ -1 ∧
      CheckPathExists g map n (FindPlayer g map n) player_destin = true ∧
      IsSymbolValid (rd g.cell map destin) = true then
    (MoveBox g map n origin destin, AddMoveToStack head (FindPlayer g map n) c direction)
  else (map, head)

/-- The undo branch of `ReadMove`: `UndoMove` when the list is not empty. -/
def ReadMove_undo (g : Stray) (map : List Int) (n : Int) (head : List move_t) :
    List Int × List move_t :=
  match head with
  | [] => (map, [])
  | r :: next => ((UndoMove g r next map n).2, (UndoMove g r next map n).1)

/-- Session state seen by `ReadMove`: buffer, undo list, pending input and the
characters printed so far. -/
structure Session where
  map : List Int
  head : List move_t
  input : List Int
  output : List Int

/-- Model of `getchar`: next character of the input, `EOF` when it is used up. -/
def getchar (input : List Int) : Int × List Int :=
  match input with
  | [] => (EOF, [])
  | c :: rest => (c, rest)

/-- Reads one command and performs it; the Boolean is `true` after `'.'` or
at the end of the input. -/
def ReadMove (g : Stray) (n : Int) (s : Session) : Bool × Session :=
  let c := (getchar s.input).1
  let rest := (getchar s.input).2
  if c = 46 ∨ c = EOF then (true, { s with input := rest })
  else if c = NEWLINE then
    (false, { s with input := rest, output := s.output ++ s.map.take n.toNat })
  else if c = 48 then
    (false, { s with input := rest, map := (ReadMove_undo g s.map n s.head).1,
                     head := (ReadMove_undo g s.map n s.head).2 })
  else
    let direction := (getchar rest).1
    let rest2 := (getchar rest).2
    (false, { s with input := rest2, map := (ReadMove_push g s.map n s.head c direction).1,
                     head := (ReadMove_push g s.map n s.head c direction).2 })

/-! ## Board vocabulary used by the statements -/

/-- Upper case letter. -/
def isUpper (x : Int) : Prop := 65 ≤ x ∧ x ≤ 90

/-- Lower case letter. -/
def isLower (x : Int) : Prop := 97 ≤ x ∧ x ≤ 122

instance (x : Int) : Decidable (isUpper x) := by unfold isUpper; infer_instance
instance (x : Int) : Decidable (isLower x) := by unfold isLower; infer_instance

/-- The lower case forms of the twenty-six box letters. -/
def boxLetters : List Int := (List.range 26).map (fun (k : Nat) => (97 : Int) + (k : Int))

/-- Number of player markers, `'@'` plus `'*'`. -/
def playerCount (map : List Int) : Nat := map.count AT + map.count STAR

/-- Number of cells holding the box whose lower case letter is `l`, in either case. -/
def boxCount (map : List Int) (l : Int) : Nat := map.count l + map.count (l - CHANGECASE)

/-- No box letter occurs twice on the board, the two cases taken together. -/
def BoxesDistinct (map : List Int) : Prop := ∀ l ∈ boxLetters, boxCount map l ≤ 1

instance (map : List Int) : Decidable (BoxesDistinct map) := by
  unfold BoxesDistinct; infer_instance

/-- A board with exactly one player marker on which no box letter occurs twice. -/
def WellFormed (map : List Int) : Prop := playerCount map = 1 ∧ BoxesDistinct map

instance (map : List Int) : Decidable (WellFormed map) := by unfold WellFormed; infer_instance

/-- What the player leaves behind on a cell that held the player marker `x`. -/
def floorUnder (x : Int) : Int := if x = AT then MINUS else PLUS

/-- Player marker written on the cell that a box with character `b` leaves. -/
def playerOver (b : Int) : Int := if isUpper b then STAR else AT

/-- Character written for a moved character `b` on a cell that held `t`. -/
def boxOver (b t : Int) : Int :=
  if isUpper b then (if t = MINUS ∨ t = AT then toChar (b + CHANGECASE) else b)
  else (if t = PLUS ∨ t = STAR then toChar (b - CHANGECASE) else b)

/-- The character `ReadMove` searches for: `c` itself, or `c - 32` when `c` is
not on the board. -/
def resolveSymbol (g : Stray) (map : List Int) (n c : Int) : Int :=
  if FindSymbol g map n c ≥ n then c - CHANGECASE else c

/-- The cell `ReadMove` takes for the box named `c` (`origin`). -/
def pushOrigin (g : Stray) (map : List Int) (n c : Int) : Int :=
  FindSymbol g map n (resolveSymbol g map n c)

/-- The test of the `if` in the push branch of `ReadMove`. -/
def pushGuard (g : Stray) (map : List Int) (n c direction : Int) : Prop :=
  FindDestination g map n (pushOrigin g map n c) direction ≠ -1 ∧
  FindOppositePos g map n (pushOrigin g map n c) direction ≠ -1 ∧
  CheckPathExists g map n (FindPlayer g map n)
    (FindOppositePos g map n (pushOrigin g map n c) direction) = true ∧
  IsSymbolValid (rd g.cell map (FindDestination g map n (pushOrigin g map n c) direction)) = true

instance (g : Stray) (map : List Int) (n c direction : Int) :
    Decidable (pushGuard g map n c direction) := by unfold pushGuard; infer_instance

/-- One of the four direction tokens. -/
def isDirection (d : Int) : Prop := d = UP ∨ d = DOWN ∨ d = LEFT ∨ d = RIGHT

instance (d : Int) : Decidable (isDirection d) := by unfold isDirection; infer_instance

/-! ## Vocabulary of the specification -/

/-- Environment in which every read outside the buffers delivers `0`. -/
def quiet : Stray := { cell := fun _ => 0, mark := fun _ => 0 }

/-- Lower case form of a letter. -/
def lowerOf (c : Int) : Int := if isUpper c then c + CHANGECASE else c

/-- Upper case form of a letter. -/
def upperOf (c : Int) : Int := if isLower c then c - CHANGECASE else c

/-- The cell of the box named by the letter `c`, whichever of its two forms the
box has: the first cell that holds the letter in either case, `n` when there is
none. -/
def boxCell (g : Stray) (map : List Int) (n c : Int) : Int :=
  min (FindSymbol g map n (lowerOf c)) (FindSymbol g map n (upperOf c))

/-- Acceptance criterion of a push as the specification words it: the named box
exists, its neighbour in the push direction exists and holds a walkable symbol,
its neighbour in the opposite direction exists and is reachable from the
player's cell. -/
def pushCriterion (g : Stray) (map : List Int) (n c direction : Int) : Prop :=
  boxCell g map n c < n ∧
  FindDestination g map n (boxCell g map n c) direction ≠ -1 ∧
  IsSymbolValid (rd g.cell map (FindDestination g map n (boxCell g map n c) direction)) = true ∧
  FindOppositePos g map n (boxCell g map n c) direction ≠ -1 ∧
  CheckPathExists g map n (FindPlayer g map n)
    (FindOppositePos g map n (boxCell g map n c) direction) = true

instance (g : Stray) (map : List Int) (n c direction : Int) :
    Decidable (pushCriterion g map n c direction) := by unfold pushCriterion; infer_instance

/-- A goal cell without a box on it: the empty goal marker `'+'`, or `'*'`, the
player standing on a goal (`'@'` is the player on plain floor and leaves `'-'`,
`'*'` leaves `'+'`). -/
def isGoalCell (x : Int) : Prop := x = PLUS ∨ x = STAR

instance (x : Int) : Decidable (isGoalCell x) := by unfold isGoalCell; infer_instance

/-- Goal tile in the words of the specification: the symbol is an on-goal form,
a box in on-goal case being a lower case letter. -/
def specGoalTile (x : Int) : Prop := x = PLUS ∨ x = STAR ∨ isLower x

instance (x : Int) : Decidable (specGoalTile x) := by unfold specGoalTile; infer_instance

/-- Goal tile as `MoveBox` encodes it: `'+'`, `'*'` or an upper case letter. -/
def codeGoalTile (x : Int) : Prop := x = PLUS ∨ x = STAR ∨ isUpper x

instance (x : Int) : Decidable (codeGoalTile x) := by unfold codeGoalTile; infer_instance

/-- A sequence of push commands (box character, direction token) processed by
the push branch of `ReadMove`, one after the other. -/
def pushAll (g : Stray) (n : Int) :
    List Int × List move_t → List (Int × Int) → List Int × List move_t
  | st, [] => st
  | st, cmd :: rest => pushAll g n (ReadMove_push g st.1 n st.2 cmd.1 cmd.2) rest

/-- The undo command `'0'` processed `k` times. -/
def undoTimes (g : Stray) (n : Int) : Nat → List Int × List move_t → List Int × List move_t
  | 0, st => st
  | k + 1, st => undoTimes g n k (ReadMove_undo g st.1 n st.2)

/-- Work left for the flood fill: twice the number of `UNCHECKED` cells plus
the number of `UNCHECKEDAROUND` cells of `path`. -/
def pathWork (path : List Int) : Nat := 2 * path.count UNCHECKED + path.count UNCHECKEDAROUND

/-! ## Walks of the player -/

/-- The cell `b` is the Top, Right, Bottom or Left neighbour of the cell `a`
(`-1`, the value for "no neighbour", is no cell). -/
def isStep (g : Stray) (map : List Int) (n a b : Int) : Prop :=
  b ≠ -1 ∧ (TopElement g map a = b ∨ RightElement g map n a = b ∨
    BottomElement g map n a = b ∨ LeftElement g map a = b)

instance (g : Stray) (map : List Int) (n a b : Int) : Decidable (isStep g map n a b) := by
  unfold isStep; infer_instance

/-- The cells `cs = c1, ..., ck` continue `c0` to a walk that ends in `d`: each
cell is a neighbour of the one before it and holds a walkable symbol, and the
last one is `d` (`c0 = d` when `cs` is empty). -/
def isWalk (g : Stray) (map : List Int) (n : Int) : Int → List Int → Int → Prop
  | c0, [], d => c0 = d
  | c0, c1 :: rest, d =>
    isStep g map n c0 c1 ∧ IsSymbolValid (rd g.cell map c1) = true ∧ isWalk g map n c1 rest d

instance isWalkDecidable (g : Stray) (map : List Int) (n : Int) :
    (c0 : Int) → (cs : List Int) → (d : Int) → Decidable (isWalk g map n c0 cs d)
  | c0, [], d => by unfold isWalk; infer_instance
  | c0, c1 :: rest, d => by
    unfold isWalk
    have := isWalkDecidable g map n c1 rest d
    infer_instance

/-- Invariant of the label array in the loop of `CheckPathExists` started at
`o`: labels are among the four values, `o` has been found, a found cell is the
end of a walk from `o`, every neighbour of a `REACHABLE` cell has a label, and
an `UNREACHABLE` cell holds no walkable symbol. -/
def pathInv (g : Stray) (map : List Int) (n o : Int) (path : List Int) : Prop :=
  path.length = n.toNat ∧
  (∀ j, 0 ≤ j → j < n →
    rd g.mark path j = 0 ∨ rd g.mark path j = 1 ∨ rd g.mark path j = 2 ∨ rd g.mark path j = 3) ∧
  (rd g.mark path o = 1 ∨ rd g.mark path o = 2) ∧
  (∀ i, 0 ≤ i → i < n → (rd g.mark path i = 1 ∨ rd g.mark path i = 2) →
    ∃ cs, isWalk g map n o cs i) ∧
  (∀ i j, 0 ≤ i → i < n → rd g.mark path i = 2 → isStep g map n i j → rd g.mark path j ≠ 0) ∧
  (∀ j, 0 ≤ j → j < n → rd g.mark path j = 3 → IsSymbolValid (rd g.cell map j) = false)

/-! ## Rows and columns of the buffer

The vocabulary of the specification for the vertical neighbours: these
definitions follow its wording (rows split at `'\n'`), not the code. -/

/-- Row of the index `k` when the buffer is split into rows at `'\n'`: the
number of row terminators before `k`. -/
def rowOf (map : List Int) : Nat → Nat
  | 0 => 0
  | k + 1 => if map.getD k 0 = NEWLINE then rowOf map k + 1 else rowOf map k

/-- Column of the index `k` in its row, counted from 0: the number of cells
between the nearest preceding row terminator (or the buffer start) and `k`. -/
def colOf (map : List Int) : Nat → Nat
  | 0 => 0
  | k + 1 => if map.getD k 0 = NEWLINE then 0 else colOf map k + 1

/-- Index of the cell at column `c` of row `r`; `-1` when there is no row `r`
or row `r` is too short to have a column `c`. -/
def cellAt (map : List Int) (r c : Nat) : Int :=
  match (List.range map.length).find?
      (fun j => decide (map.getD j 0 ≠ NEWLINE ∧ rowOf map j = r ∧ colOf map j = c)) with
  | some j => (j : Int)
  | none => -1

/-! # Lemmas -/

set_option maxRecDepth 100000

/-! ## Memory access lemmas -/

theorem length_wr (a : List Int) (i v : Int) : (wr a i v).length = a.length := by
  unfold wr; split <;> simp

theorem rd_inside (s : Int → Int) (a : List Int) (i : Int) (h0 : 0 ≤ i) (h1 : i < a.length) :
    rd s a i = a.getD i.toNat 0 := by
  unfold rd; rw [if_pos ⟨h0, h1⟩]

theorem rd_outside (s : Int → Int) (a : List Int) (i : Int) (h : ¬ (0 ≤ i ∧ i < a.length)) :
    rd s a i = s i := by
  unfold rd; rw [if_neg h]

theorem rd_wr (s : Int → Int) (a : List Int) (i v j : Int) :
    rd s (wr a i v) j = if j = i ∧ 0 ≤ i ∧ i < a.length then v else rd s a j := by
  unfold rd wr
  by_cases hi : 0 ≤ i
  · simp only [hi, if_true, List.length_set, true_and]
    by_cases hj : 0 ≤ j ∧ j < a.length
    · rw [if_pos hj]
      by_cases hji : j = i
      · subst hji
        have hlt : j.toNat < a.length := by omega
        simp [hj.2, List.getD_eq_getElem?_getD, List.getElem?_set, hlt]
      · have hne : i.toNat ≠ j.toNat := by omega
        simp [hji, List.getD_eq_getElem?_getD, List.getElem?_set, hne, hj]
    · rw [if_neg hj]
      have : ¬ (j = i ∧ i < a.length) := by
        rintro ⟨rfl, h⟩; exact hj ⟨hi, h⟩
      simp [this, hj]
  · simp only [hi, if_false, false_and, and_false]

theorem rd_wr_same (s : Int → Int) (a : List Int) (i v : Int) (h0 : 0 ≤ i) (h1 : i < a.length) :
    rd s (wr a i v) i = v := by
  rw [rd_wr]; simp [h0, h1]

theorem rd_wr_other (s : Int → Int) (a : List Int) (i v j : Int) (h : j ≠ i) :
    rd s (wr a i v) j = rd s a j := by
  rw [rd_wr]; simp [h]

theorem ext_rd (s : Int → Int) (a b : List Int) (hl : a.length = b.length)
    (h : ∀ j : Int, 0 ≤ j → j < a.length → rd s a j = rd s b j) : a = b := by
  apply List.ext_getElem hl
  intro k h1 h2
  have := h (k : Int) (by omega) (by omega)
  rw [rd_inside s a k (by omega) (by omega), rd_inside s b k (by omega) (by omega)] at this
  simpa [List.getD_eq_getElem?_getD, h1, h2] using this

theorem count_wr (s : Int → Int) (a : List Int) (i v x : Int) (h0 : 0 ≤ i) (h1 : i < a.length) :
    (wr a i v).count x + (if rd s a i = x then 1 else 0) =
      a.count x + (if v = x then 1 else 0) := by
  have hlt : i.toNat < a.length := by omega
  rw [rd_inside s a i h0 h1]
  unfold wr
  rw [if_pos h0, List.count_set v x a i.toNat hlt]
  have hpos : (if a[i.toNat] = x then 1 else 0) ≤ a.count x := by
    split
    · rename_i he
      have : x ∈ a := by rw [← he]; exact List.getElem_mem _
      exact List.count_pos_iff.mpr this
    · omega
  simp only [List.getD_eq_getElem?_getD, List.getElem?_eq_getElem hlt, Option.getD_some, beq_iff_eq]
  omega

/-! ## The search loops -/

theorem FindSymbolLoop_spec (g : Stray) (map : List Int) (n symbol : Int) :
    ∀ (k : Nat) (i : Int), (n - i).toNat ≤ k →
      i ≤ FindSymbolLoop g map n symbol k i ∧
      (i ≤ n → FindSymbolLoop g map n symbol k i ≤ n) ∧
      (∀ j, i ≤ j → j < FindSymbolLoop g map n symbol k i → rd g.cell map j ≠ symbol) ∧
      (FindSymbolLoop g map n symbol k i < n →
        rd g.cell map (FindSymbolLoop g map n symbol k i) = symbol) := by
  intro k
  induction k with
  | zero =>
    intro i hk
    simp only [FindSymbolLoop]
    refine ⟨le_refl _, fun h => h, fun j h1 h2 => by omega, fun h => by omega⟩
  | succ k ih =>
    intro i hk
    simp only [FindSymbolLoop]
    by_cases hc : i < n ∧ rd g.cell map i ≠ symbol
    · rw [if_pos hc]
      obtain ⟨h1, h2, h3, h4⟩ := ih (i + 1) (by omega)
      refine ⟨by omega, fun _ => h2 (by omega), ?_, h4⟩
      intro j hj1 hj2
      by_cases hji : j = i
      · subst hji; exact hc.2
      · exact h3 j (by omega) hj2
    · rw [if_neg hc]
      refine ⟨le_refl _, fun h => h, fun j h1 h2 => by omega, fun h => ?_⟩
      by_contra hne
      exact hc ⟨h, hne⟩

theorem FindSymbol_spec (g : Stray) (map : List Int) (n symbol : Int) (hn : 0 ≤ n) :
    0 ≤ FindSymbol g map n symbol ∧ FindSymbol g map n symbol ≤ n ∧
      (∀ j, 0 ≤ j → j < FindSymbol g map n symbol → rd g.cell map j ≠ symbol) ∧
      (FindSymbol g map n symbol < n → rd g.cell map (FindSymbol g map n symbol) = symbol) := by
  obtain ⟨h1, h2, h3, h4⟩ := FindSymbolLoop_spec g map n symbol n.toNat 0 (by simp)
  exact ⟨h1, h2 hn, h3, h4⟩

theorem FindSymbol_unique (g : Stray) (map : List Int) (n symbol r : Int) (hn : 0 ≤ n)
    (h0 : 0 ≤ r) (h1 : r ≤ n) (h2 : ∀ j, 0 ≤ j → j < r → rd g.cell map j ≠ symbol)
    (h3 : r < n → rd g.cell map r = symbol) : FindSymbol g map n symbol = r := by
  obtain ⟨k0, k1, k2, k3⟩ := FindSymbol_spec g map n symbol hn
  rcases lt_trichotomy (FindSymbol g map n symbol) r with h | h | h
  · exact absurd (k3 (by omega)) (h2 _ k0 h)
  · exact h
  · exact absurd (h3 (by omega)) (k2 _ h0 h)

theorem FindSymbol_eq_n_iff (g : Stray) (map : List Int) (n symbol : Int) (hn : 0 ≤ n) :
    FindSymbol g map n symbol = n ↔ ∀ j, 0 ≤ j → j < n → rd g.cell map j ≠ symbol := by
  constructor
  · intro h j hj0 hj1
    exact (FindSymbol_spec g map n symbol hn).2.2.1 j hj0 (by omega)
  · intro h
    exact FindSymbol_unique g map n symbol n hn hn (le_refl _) h (fun h => absurd h (lt_irrefl _))

theorem FindNextNewlineLoop_spec (g : Stray) (map : List Int) (n : Int) :
    ∀ (k : Nat) (i : Int), (n - i).toNat ≤ k →
      i ≤ FindNextNewlineLoop g map n k i ∧
      (i ≤ n → FindNextNewlineLoop g map n k i ≤ n) ∧
      (n ≤ i → FindNextNewlineLoop g map n k i = i) ∧
      (∀ j, i ≤ j → j < FindNextNewlineLoop g map n k i → rd g.cell map j ≠ NEWLINE) ∧
      (FindNextNewlineLoop g map n k i < n →
        rd g.cell map (FindNextNewlineLoop g map n k i) = NEWLINE) := by
  intro k
  induction k with
  | zero =>
    intro i hk
    simp only [FindNextNewlineLoop]
    refine ⟨le_refl _, fun h => h, fun _ => trivial, fun j h1 h2 => by omega, fun h => by omega⟩
  | succ k ih =>
    intro i hk
    simp only [FindNextNewlineLoop]
    by_cases hc : i < n ∧ rd g.cell map i ≠ NEWLINE
    · rw [if_pos hc]
      obtain ⟨h1, h2, _, h3, h4⟩ := ih (i + 1) (by omega)
      refine ⟨by omega, fun _ => h2 (by omega), fun h => by omega, ?_, h4⟩
      intro j hj1 hj2
      by_cases hji : j = i
      · subst hji; exact hc.2
      · exact h3 j (by omega) hj2
    · rw [if_neg hc]
      refine ⟨le_refl _, fun h => h, fun _ => rfl, fun j h1 h2 => by omega, fun h => ?_⟩
      by_contra hne
      exact hc ⟨h, hne⟩

theorem FindNextNewline_spec (g : Stray) (map : List Int) (n origin : Int) :
    origin ≤ FindNextNewline g map n origin ∧
      (origin ≤ n → FindNextNewline g map n origin ≤ n) ∧
      (n ≤ origin → FindNextNewline g map n origin = origin) ∧
      (∀ j, origin ≤ j → j < FindNextNewline g map n origin → rd g.cell map j ≠ NEWLINE) ∧
      (FindNextNewline g map n origin < n →
        rd g.cell map (FindNextNewline g map n origin) = NEWLINE) :=
  FindNextNewlineLoop_spec g map n (n - origin).toNat origin (le_refl _)

theorem FindNextNewline_unique (g : Stray) (map : List Int) (n origin r : Int)
    (h0 : origin ≤ r) (h1 : r ≤ n)
    (h2 : ∀ j, origin ≤ j → j < r → rd g.cell map j ≠ NEWLINE)
    (h3 : r < n → rd g.cell map r = NEWLINE) : FindNextNewline g map n origin = r := by
  obtain ⟨k0, k1, _, k2, k3⟩ := FindNextNewline_spec g map n origin
  rcases lt_trichotomy (FindNextNewline g map n origin) r with h | h | h
  · exact absurd (k3 (by omega)) (h2 _ k0 h)
  · exact h
  · exact absurd (h3 (by have := k1 (by omega); omega)) (k2 _ h0 h)

theorem FindPrevNewlineLoop_spec (g : Stray) (map : List Int) :
    ∀ (k : Nat) (i : Int), (i + 1).toNat ≤ k →
      FindPrevNewlineLoop g map k i ≤ i ∧
      (-1 ≤ i → -1 ≤ FindPrevNewlineLoop g map k i) ∧
      (i ≤ -1 → FindPrevNewlineLoop g map k i = i) ∧
      (∀ j, FindPrevNewlineLoop g map k i < j → j ≤ i → rd g.cell map j ≠ NEWLINE) ∧
      (-1 < FindPrevNewlineLoop g map k i →
        rd g.cell map (FindPrevNewlineLoop g map k i) = NEWLINE) := by
  intro k
  induction k with
  | zero =>
    intro i hk
    simp only [FindPrevNewlineLoop]
    refine ⟨le_refl _, fun h => h, fun _ => trivial, fun j h1 h2 => by omega, fun h => by omega⟩
  | succ k ih =>
    intro i hk
    simp only [FindPrevNewlineLoop]
    by_cases hc : i > -1 ∧ rd g.cell map i ≠ NEWLINE
    · rw [if_pos hc]
      obtain ⟨h1, h2, _, h3, h4⟩ := ih (i - 1) (by omega)
      refine ⟨by omega, fun _ => h2 (by omega), fun h => by omega, ?_, h4⟩
      intro j hj1 hj2
      by_cases hji : j = i
      · subst hji; exact hc.2
      · exact h3 j hj1 (by omega)
    · rw [if_neg hc]
      refine ⟨le_refl _, fun h => h, fun _ => rfl, fun j h1 h2 => by omega, fun h => ?_⟩
      by_contra hne
      exact hc ⟨h, hne⟩

theorem FindPrevNewline_spec (g : Stray) (map : List Int) (origin : Int) :
    FindPrevNewline g map origin ≤ origin ∧
      (-1 ≤ origin → -1 ≤ FindPrevNewline g map origin) ∧
      (origin ≤ -1 → FindPrevNewline g map origin = origin) ∧
      (∀ j, FindPrevNewline g map origin < j → j ≤ origin → rd g.cell map j ≠ NEWLINE) ∧
      (-1 < FindPrevNewline g map origin →
        rd g.cell map (FindPrevNewline g map origin) = NEWLINE) :=
  FindPrevNewlineLoop_spec g map (origin + 1).toNat origin (le_refl _)

theorem FindPrevNewline_unique (g : Stray) (map : List Int) (origin r : Int)
    (h0 : r ≤ origin) (h1 : -1 ≤ r)
    (h2 : ∀ j, r < j → j ≤ origin → rd g.cell map j ≠ NEWLINE)
    (h3 : -1 < r → rd g.cell map r = NEWLINE) : FindPrevNewline g map origin = r := by
  obtain ⟨k0, k1, _, k2, k3⟩ := FindPrevNewline_spec g map origin
  rcases lt_trichotomy (FindPrevNewline g map origin) r with h | h | h
  · exact absurd (h3 (by have := k1 (by omega); omega)) (k2 _ h h0)
  · exact h
  · exact absurd (k3 (by omega)) (h2 _ h k0)

/-! ## Neighbours depend only on where the row terminators are -/

theorem FindPrevNewlineLoop_congr (g : Stray) (m1 m2 : List Int)
    (h : ∀ j, rd g.cell m1 j = NEWLINE ↔ rd g.cell m2 j = NEWLINE) :
    ∀ (k : Nat) (i : Int), FindPrevNewlineLoop g m1 k i = FindPrevNewlineLoop g m2 k i := by
  intro k
  induction k with
  | zero => intro i; rfl
  | succ k ih =>
    intro i
    simp only [FindPrevNewlineLoop, ih, ne_eq, h i]

theorem FindNextNewlineLoop_congr (g : Stray) (m1 m2 : List Int) (n : Int)
    (h : ∀ j, rd g.cell m1 j = NEWLINE ↔ rd g.cell m2 j = NEWLINE) :
    ∀ (k : Nat) (i : Int), FindNextNewlineLoop g m1 n k i = FindNextNewlineLoop g m2 n k i := by
  intro k
  induction k with
  | zero => intro i; rfl
  | succ k ih =>
    intro i
    simp only [FindNextNewlineLoop, ih, ne_eq, h i]

theorem FindPrevNewline_congr (g : Stray) (m1 m2 : List Int)
    (h : ∀ j, rd g.cell m1 j = NEWLINE ↔ rd g.cell m2 j = NEWLINE) (i : Int) :
    FindPrevNewline g m1 i = FindPrevNewline g m2 i :=
  FindPrevNewlineLoop_congr g m1 m2 h _ _

theorem FindNextNewline_congr (g : Stray) (m1 m2 : List Int) (n : Int)
    (h : ∀ j, rd g.cell m1 j = NEWLINE ↔ rd g.cell m2 j = NEWLINE) (i : Int) :
    FindNextNewline g m1 n i = FindNextNewline g m2 n i :=
  FindNextNewlineLoop_congr g m1 m2 n h _ _

theorem BottomElement_congr (g : Stray) (m1 m2 : List Int) (n : Int)
    (h : ∀ j, rd g.cell m1 j = NEWLINE ↔ rd g.cell m2 j = NEWLINE) (i : Int) :
    BottomElement g m1 n i = BottomElement g m2 n i := by
  simp only [BottomElement, FindPrevNewline_congr g m1 m2 h, FindNextNewline_congr g m1 m2 n h]

theorem TopElement_congr (g : Stray) (m1 m2 : List Int)
    (h : ∀ j, rd g.cell m1 j = NEWLINE ↔ rd g.cell m2 j = NEWLINE) (i : Int) :
    TopElement g m1 i = TopElement g m2 i := by
  simp only [TopElement, FindPrevNewline_congr g m1 m2 h]

theorem RightElement_congr (g : Stray) (m1 m2 : List Int) (n : Int)
    (h : ∀ j, rd g.cell m1 j = NEWLINE ↔ rd g.cell m2 j = NEWLINE) (i : Int) :
    RightElement g m1 n i = RightElement g m2 n i := by
  simp only [RightElement, ne_eq, h (i + 1)]

theorem LeftElement_congr (g : Stray) (m1 m2 : List Int)
    (h : ∀ j, rd g.cell m1 j = NEWLINE ↔ rd g.cell m2 j = NEWLINE) (i : Int) :
    LeftElement g m1 i = LeftElement g m2 i := by
  simp only [LeftElement, ne_eq, h (i - 1)]

theorem FindOppositePos_congr (g : Stray) (m1 m2 : List Int) (n : Int)
    (h : ∀ j, rd g.cell m1 j = NEWLINE ↔ rd g.cell m2 j = NEWLINE) (i d : Int) :
    FindOppositePos g m1 n i d = FindOppositePos g m2 n i d := by
  simp only [FindOppositePos, BottomElement_congr g m1 m2 n h, TopElement_congr g m1 m2 h,
    RightElement_congr g m1 m2 n h, LeftElement_congr g m1 m2 h]

theorem FindDestination_congr (g : Stray) (m1 m2 : List Int) (n : Int)
    (h : ∀ j, rd g.cell m1 j = NEWLINE ↔ rd g.cell m2 j = NEWLINE) (i d : Int) :
    FindDestination g m1 n i d = FindDestination g m2 n i d := by
  simp only [FindDestination, BottomElement_congr g m1 m2 n h, TopElement_congr g m1 m2 h,
    RightElement_congr g m1 m2 n h, LeftElement_congr g m1 m2 h]

/-! ## Range of the neighbours and their inverses -/

theorem RightElement_range (g : Stray) (map : List Int) (n o : Int)
    (h : RightElement g map n o ≠ -1) :
    RightElement g map n o = o + 1 ∧ o + 1 < n ∧ rd g.cell map (o + 1) ≠ NEWLINE := by
  unfold RightElement at h ⊢
  split at h
  · rename_i hc; rw [if_pos hc]; exact ⟨rfl, hc.1, hc.2⟩
  · exact absurd rfl h

theorem LeftElement_range (g : Stray) (map : List Int) (o : Int)
    (h : LeftElement g map o ≠ -1) :
    LeftElement g map o = o - 1 ∧ 0 ≤ o - 1 ∧ rd g.cell map (o - 1) ≠ NEWLINE := by
  unfold LeftElement at h ⊢
  split at h
  · rename_i hc; rw [if_pos hc]; exact ⟨rfl, by omega, hc.2⟩
  · exact absurd rfl h

theorem BottomElement_range (g : Stray) (map : List Int) (n o : Int) (h0 : 0 ≤ o)
    (hnl : rd g.cell map o ≠ NEWLINE) (h : BottomElement g map n o ≠ -1) :
    o < BottomElement g map n o ∧ BottomElement g map n o < n ∧
      rd g.cell map (BottomElement g map n o) ≠ NEWLINE ∧
      TopElement g map (BottomElement g map n o) = o := by
  obtain ⟨p1, p2, _, p3, p4⟩ := FindPrevNewline_spec g map o
  obtain ⟨a1, a2, _, a3, a4⟩ := FindNextNewline_spec g map n o
  obtain ⟨b1, b2, b5, b3, b4⟩ :=
    FindNextNewline_spec g map n (FindNextNewline g map n o + 1)
  have hP : FindPrevNewline g map o < o := by
    rcases lt_or_eq_of_le p1 with hlt | heq
    · exact hlt
    · exact absurd (p4 (by omega)) (by rw [heq]; exact hnl)
  have hval : BottomElement g map n o =
      FindNextNewline g map n o + (o - FindPrevNewline g map o) ∧
      FindNextNewline g map n o + (o - FindPrevNewline g map o) <
        FindNextNewline g map n (FindNextNewline g map n o + 1) := by
    unfold BottomElement at h ⊢
    simp only at h ⊢
    split at h
    · rename_i hc; rw [if_pos hc]; exact ⟨rfl, hc⟩
    · exact absurd rfl h
  obtain ⟨hv, hlt⟩ := hval
  have hN1 : FindNextNewline g map n o < n := by
    by_contra hge
    have := b5 (by omega)
    omega
  have hN1nl := a4 hN1
  have hoN1 : o < FindNextNewline g map n o := by
    rcases lt_or_eq_of_le a1 with hlt2 | heq
    · exact hlt2
    · exact absurd hN1nl (by rw [← heq]; exact hnl)
  have hN2 := b2 (by omega)
  have hprev1 : FindPrevNewline g map (BottomElement g map n o) = FindNextNewline g map n o := by
    apply FindPrevNewline_unique
    · omega
    · omega
    · intro j hj1 hj2; exact b3 j (by omega) (by omega)
    · intro _; exact hN1nl
  have hprev2 : FindPrevNewline g map (FindNextNewline g map n o - 1) =
      FindPrevNewline g map o := by
    apply FindPrevNewline_unique
    · omega
    · exact p2 (by omega)
    · intro j hj1 hj2
      by_cases hjo : j ≤ o
      · exact p3 j hj1 hjo
      · exact a3 j (by omega) (by omega)
    · exact p4
  refine ⟨by omega, by omega, b3 _ (by omega) (by omega), ?_⟩
  unfold TopElement
  simp only [hprev1, hprev2]
  have := p2 (by omega)
  rw [if_pos ⟨by omega, by omega⟩]
  omega

theorem TopElement_range (g : Stray) (map : List Int) (n o : Int) (h0 : 0 ≤ o) (h1 : o < n)
    (hnl : rd g.cell map o ≠ NEWLINE) (h : TopElement g map o ≠ -1) :
    0 ≤ TopElement g map o ∧ TopElement g map o < o ∧
      rd g.cell map (TopElement g map o) ≠ NEWLINE ∧
      BottomElement g map n (TopElement g map o) = o := by
  obtain ⟨p1, p2, _, p3, p4⟩ := FindPrevNewline_spec g map o
  obtain ⟨q1, q2, q5, q3, q4⟩ := FindPrevNewline_spec g map (FindPrevNewline g map o - 1)
  have hP : FindPrevNewline g map o < o := by
    rcases lt_or_eq_of_le p1 with hlt | heq
    · exact hlt
    · exact absurd (p4 (by omega)) (by rw [heq]; exact hnl)
  have hval : TopElement g map o =
      FindPrevNewline g map (FindPrevNewline g map o - 1) + (o - FindPrevNewline g map o) ∧
      FindPrevNewline g map (FindPrevNewline g map o - 1) ≥ -1 ∧
      FindPrevNewline g map (FindPrevNewline g map o - 1) + (o - FindPrevNewline g map o) <
        FindPrevNewline g map o := by
    unfold TopElement at h ⊢
    simp only at h ⊢
    split at h
    · rename_i hc; rw [if_pos hc]; exact ⟨rfl, hc.1, hc.2⟩
    · exact absurd rfl h
  obtain ⟨hv, hge, hlt⟩ := hval
  have hP0 : 0 ≤ FindPrevNewline g map o := by
    by_contra hneg
    have := q5 (by omega)
    have := p2 (by omega)
    omega
  have hPnl := p4 (by omega)
  have hprev : FindPrevNewline g map (TopElement g map o) =
      FindPrevNewline g map (FindPrevNewline g map o - 1) := by
    apply FindPrevNewline_unique
    · omega
    · omega
    · intro j hj1 hj2; exact q3 j hj1 (by omega)
    · exact q4
  have hnext1 : FindNextNewline g map n (TopElement g map o) = FindPrevNewline g map o := by
    apply FindNextNewline_unique
    · omega
    · omega
    · intro j hj1 hj2; exact q3 j (by omega) (by omega)
    · intro _; exact hPnl
  obtain ⟨b1, b2, _, b3, b4⟩ := FindNextNewline_spec g map n (FindPrevNewline g map o + 1)
  have hN2 : o < FindNextNewline g map n (FindPrevNewline g map o + 1) := by
    by_contra hle
    have hle2 : FindNextNewline g map n (FindPrevNewline g map o + 1) ≤ o := by omega
    exact p3 _ (by omega) hle2 (b4 (by omega))
  refine ⟨by omega, by omega, q3 _ (by omega) (by omega), ?_⟩
  unfold BottomElement
  simp only [hprev, hnext1]
  rw [if_pos (by omega)]
  omega

/-! ## Effect of `MoveBox` -/

theorem toChar_id (x : Int) (h0 : -128 ≤ x) (h1 : x ≤ 127) : toChar x = x := by
  unfold toChar; omega

theorem MoveBox_length (g : Stray) (map : List Int) (n o d : Int) :
    (MoveBox g map n o d).length = map.length := by
  unfold MoveBox
  simp only
  split_ifs <;> simp [length_wr]

/-- Cell by cell description of `MoveBox` when the player, the origin and the
destination are cells of the buffer and origin and destination differ. -/
theorem MoveBox_rd (g : Stray) (map : List Int) (n o d p : Int)
    (hp : FindPlayer g map n = p) (hp0 : 0 ≤ p) (hp1 : p < map.length)
    (ho0 : 0 ≤ o) (ho1 : o < map.length) (hd0 : 0 ≤ d) (hd1 : d < map.length)
    (hod : o ≠ d) (j : Int) :
    rd g.cell (MoveBox g map n o d) j =
      if j = o then
        playerOver (if o = p then floorUnder (rd g.cell map p) else rd g.cell map o)
      else if j = d then
        boxOver (if o = p then floorUnder (rd g.cell map p) else rd g.cell map o)
          (if d = p then floorUnder (rd g.cell map p) else rd g.cell map d)
      else if j = p then floorUnder (rd g.cell map p)
      else rd g.cell map j := by
  have hm1 : (if rd g.cell map p = AT then wr map p MINUS else wr map p PLUS) =
      wr map p (floorUnder (rd g.cell map p)) := by
    unfold floorUnder; split <;> rfl
  have hdo : d ≠ o := fun h => hod h.symm
  unfold MoveBox
  simp only [hp, hm1]
  have e1 : rd g.cell (wr map p (floorUnder (rd g.cell map p))) o =
      if o = p then floorUnder (rd g.cell map p) else rd g.cell map o := by
    rw [rd_wr]; simp [hp0, hp1]
  have e2 : rd g.cell (wr map p (floorUnder (rd g.cell map p))) d =
      if d = p then floorUnder (rd g.cell map p) else rd g.cell map d := by
    rw [rd_wr]; simp [hp0, hp1]
  rw [e1, e2]
  generalize (if o = p then floorUnder (rd g.cell map p) else rd g.cell map o) = b at e1 ⊢
  generalize (if d = p then floorUnder (rd g.cell map p) else rd g.cell map d) = t at e2 ⊢
  have e3 : rd g.cell (wr (wr map p (floorUnder (rd g.cell map p))) d b) o = b := by
    rw [rd_wr_other _ _ _ _ _ hod, e1]
  have e4 : ∀ x, rd g.cell (wr (wr (wr map p (floorUnder (rd g.cell map p))) d b) o x) d = b := by
    intro x
    rw [rd_wr_other _ _ _ _ _ hdo, rd_wr_same _ _ _ _ hd0 (by rw [length_wr]; exact hd1)]
  rw [e3]
  by_cases hu : isUpper b
  · have hu2 : b ≥ 65 ∧ b ≤ 90 := hu
    rw [if_pos hu2]
    simp only [playerOver, boxOver, if_pos hu]
    by_cases ht : t = MINUS ∨ t = AT
    · simp only [if_pos ht, e4]
      simp only [rd_wr, length_wr]
      by_cases hjo : j = o
      · simp [hjo, ho0, ho1, hod]
      · by_cases hjd : j = d
        · simp [hjd, hdo, hd0, hd1]
        · simp [hjo, hjd, hp0, hp1]
    · simp only [if_neg ht]
      simp only [rd_wr, length_wr]
      by_cases hjo : j = o
      · simp [hjo, ho0, ho1]
      · by_cases hjd : j = d
        · simp [hjd, hdo, hd0, hd1]
        · simp [hjo, hjd, hp0, hp1]
  · have hu2 : ¬ (b ≥ 65 ∧ b ≤ 90) := hu
    rw [if_neg hu2]
    simp only [playerOver, boxOver, if_neg hu]
    by_cases ht : t = PLUS ∨ t = STAR
    · simp only [if_pos ht, e4]
      simp only [rd_wr, length_wr]
      by_cases hjo : j = o
      · simp [hjo, ho0, ho1, hod]
      · by_cases hjd : j = d
        · simp [hjd, hdo, hd0, hd1]
        · simp [hjo, hjd, hp0, hp1]
    · simp only [if_neg ht]
      simp only [rd_wr, length_wr]
      by_cases hjo : j = o
      · simp [hjo, ho0, ho1]
      · by_cases hjd : j = d
        · simp [hjd, hdo, hd0, hd1]
        · simp [hjo, hjd, hp0, hp1]

/-- Closed form of `MoveBox`: three writes. -/
theorem MoveBox_eq (g : Stray) (map : List Int) (n o d p : Int)
    (hp : FindPlayer g map n = p) (hp0 : 0 ≤ p) (hp1 : p < map.length)
    (ho0 : 0 ≤ o) (ho1 : o < map.length) (hd0 : 0 ≤ d) (hd1 : d < map.length)
    (hod : o ≠ d) :
    MoveBox g map n o d =
      wr (wr (wr map p (floorUnder (rd g.cell map p))) d
        (boxOver (if o = p then floorUnder (rd g.cell map p) else rd g.cell map o)
          (if d = p then floorUnder (rd g.cell map p) else rd g.cell map d))) o
        (playerOver (if o = p then floorUnder (rd g.cell map p) else rd g.cell map o)) := by
  apply ext_rd g.cell
  · rw [MoveBox_length]; simp [length_wr]
  · intro j hj0 hj1
    rw [MoveBox_rd g map n o d p hp hp0 hp1 ho0 ho1 hd0 hd1 hod j]
    simp only [rd_wr, length_wr]
    by_cases hjo : j = o
    · simp [hjo, ho0, ho1]
    · by_cases hjd : j = d
      · have hdo : d ≠ o := fun h => hod h.symm
        simp [hjd, hdo, hd0, hd1]
      · simp [hjo, hjd, hp0, hp1]

/-! ## The push branch -/

theorem ReadMove_push_eq (g : Stray) (map : List Int) (n : Int) (head : List move_t)
    (c direction : Int) :
    ReadMove_push g map n head c direction =
      if pushGuard g map n c direction then
        (MoveBox g map n (pushOrigin g map n c)
            (FindDestination g map n (pushOrigin g map n c) direction),
          AddMoveToStack head (FindPlayer g map n) c direction)
      else (map, head) := rfl

theorem IsSymbolValid_iff (x : Int) :
    IsSymbolValid x = true ↔ (x = MINUS ∨ x = PLUS ∨ x = AT ∨ x = STAR) := by
  unfold IsSymbolValid; split <;> simp_all

theorem RightElement_end (g : Stray) (map : List Int) (n : Int) :
    RightElement g map n n = -1 := by
  unfold RightElement; rw [if_neg]; omega

theorem BottomElement_end (g : Stray) (map : List Int) (n : Int) (hn : n = map.length) :
    BottomElement g map n n = if g.cell n = NEWLINE then n else -1 := by
  have hrd : rd g.cell map n = g.cell n := rd_outside _ _ _ (by omega)
  obtain ⟨p1, p2, _, p3, p4⟩ := FindPrevNewline_spec g map n
  have a1 : FindNextNewline g map n n = n := (FindNextNewline_spec g map n n).2.2.1 (le_refl _)
  have a2 : FindNextNewline g map n (n + 1) = n + 1 :=
    (FindNextNewline_spec g map n (n + 1)).2.2.1 (by omega)
  unfold BottomElement
  simp only [a1, a2]
  by_cases hv : g.cell n = NEWLINE
  · have : FindPrevNewline g map n = n :=
      FindPrevNewline_unique g map n n (le_refl _) (by omega) (fun j h1 h2 => by omega)
        (fun _ => by rw [hrd]; exact hv)
    rw [this, if_pos hv, if_pos (by omega)]; omega
  · have : FindPrevNewline g map n < n := by
      rcases lt_or_eq_of_le p1 with h | h
      · exact h
      · exact absurd (by rw [← hrd, ← h]; exact p4 (by omega)) hv
    rw [if_neg hv, if_neg (by omega)]

theorem TopElement_end (g : Stray) (map : List Int) (n : Int) (hn : n = map.length)
    (hv : g.cell n = NEWLINE) :
    TopElement g map n = -1 ∨ rd g.cell map (TopElement g map n) = NEWLINE := by
  have hrd : rd g.cell map n = g.cell n := rd_outside _ _ _ (by omega)
  have h2 : FindPrevNewline g map n = n :=
    FindPrevNewline_unique g map n n (le_refl _) (by omega) (fun j h1 h2 => by omega)
      (fun _ => by rw [hrd]; exact hv)
  obtain ⟨q1, q2, _, q3, q4⟩ := FindPrevNewline_spec g map (n - 1)
  have := q2 (by omega)
  unfold TopElement
  simp only [h2]
  rw [if_pos ⟨by omega, by omega⟩]
  by_cases hq : FindPrevNewline g map (n - 1) = -1
  · left; omega
  · right
    have e : FindPrevNewline g map (n - 1) + (n - n) = FindPrevNewline g map (n - 1) := by omega
    rw [e]; exact q4 (by omega)

/-- With the origin at `n` (the named character is nowhere on the board) the
test of the push branch fails, whatever the read of `map[n]` delivers. -/
theorem no_push_at_end (g : Stray) (map : List Int) (n direction : Int) (hn : n = map.length)
    (hdir : isDirection direction) :
    ¬ (FindDestination g map n n direction ≠ -1 ∧ FindOppositePos g map n n direction ≠ -1 ∧
      IsSymbolValid (rd g.cell map (FindDestination g map n n direction)) = true) := by
  have hrd : rd g.cell map n = g.cell n := rd_outside _ _ _ (by omega)
  have hnv : IsSymbolValid NEWLINE = false := by decide
  rintro ⟨h1, h2, h3⟩
  rcases hdir with rfl | rfl | rfl | rfl
  · -- UP
    have e1 : FindDestination g map n n UP = TopElement g map n := rfl
    have e2 : FindOppositePos g map n n UP = BottomElement g map n n := rfl
    rw [e1] at h1 h3; rw [e2, BottomElement_end g map n hn] at h2
    by_cases hv : g.cell n = NEWLINE
    · rcases TopElement_end g map n hn hv with h | h
      · exact h1 h
      · rw [h, hnv] at h3; exact Bool.noConfusion h3
    · rw [if_neg hv] at h2; exact h2 rfl
  · -- DOWN
    have e1 : FindDestination g map n n DOWN = BottomElement g map n n := rfl
    rw [e1, BottomElement_end g map n hn] at h1 h3
    by_cases hv : g.cell n = NEWLINE
    · rw [if_pos hv, hrd, hv, hnv] at h3; exact Bool.noConfusion h3
    · rw [if_neg hv] at h1; exact h1 rfl
  · -- LEFT
    have e2 : FindOppositePos g map n n LEFT = RightElement g map n n := rfl
    rw [e2, RightElement_end] at h2; exact h2 rfl
  · -- RIGHT
    have e1 : FindDestination g map n n RIGHT = RightElement g map n n := rfl
    rw [e1, RightElement_end] at h1; exact h1 rfl

/-! ## Counting and uniqueness -/

theorem mem_of_rd (s : Int → Int) (a : List Int) (j x : Int) (h0 : 0 ≤ j) (h1 : j < a.length)
    (h : rd s a j = x) : x ∈ a := by
  rw [rd_inside s a j h0 h1] at h
  have hlt : j.toNat < a.length := by omega
  rw [List.getD_eq_getElem _ _ hlt] at h
  rw [← h]; exact List.getElem_mem _

theorem rd_of_mem (s : Int → Int) (a : List Int) (x : Int) (h : x ∈ a) :
    ∃ j : Int, 0 ≤ j ∧ j < a.length ∧ rd s a j = x := by
  obtain ⟨k, hk, hx⟩ := List.getElem_of_mem h
  refine ⟨(k : Int), by omega, by omega, ?_⟩
  rw [rd_inside s a k (by omega) (by omega)]
  simp only [Int.toNat_ofNat]
  rw [List.getD_eq_getElem _ _ hk]; exact hx

theorem count_two_unique (s : Int → Int) (a : List Int) (x y : Int)
    (h : a.count x + a.count y ≤ 1) (i j : Int) (hi0 : 0 ≤ i) (hi1 : i < a.length)
    (hj0 : 0 ≤ j) (hj1 : j < a.length) (hi : rd s a i = x ∨ rd s a i = y)
    (hj : rd s a j = x ∨ rd s a j = y) : i = j := by
  by_contra hne
  have hz1 : max x y + 1 ≠ x := by have := le_max_left x y; omega
  have hz2 : max x y + 1 ≠ y := by have := le_max_right x y; omega
  have cx := count_wr s a i (max x y + 1) x hi0 hi1
  have cy := count_wr s a i (max x y + 1) y hi0 hi1
  rw [if_neg hz1] at cx
  rw [if_neg hz2] at cy
  have hmem : x ∈ wr a i (max x y + 1) ∨ y ∈ wr a i (max x y + 1) := by
    have hr : rd s (wr a i (max x y + 1)) j = rd s a j :=
      rd_wr_other s a i _ j (fun h => hne h.symm)
    rcases hj with hj | hj
    · left; exact mem_of_rd s _ j x hj0 (by rw [length_wr]; exact hj1) (by rw [hr, hj])
    · right; exact mem_of_rd s _ j y hj0 (by rw [length_wr]; exact hj1) (by rw [hr, hj])
  have hpos : 0 < (wr a i (max x y + 1)).count x + (wr a i (max x y + 1)).count y := by
    rcases hmem with hm | hm
    · have := List.count_pos_iff.mpr hm; omega
    · have := List.count_pos_iff.mpr hm; omega
  have hone : 1 ≤ (if rd s a i = x then 1 else 0) + (if rd s a i = y then 1 else 0) := by
    rcases hi with hi | hi
    · rw [if_pos hi]; omega
    · rw [if_pos hi]; omega
  omega

theorem FindSymbol_lt_iff (g : Stray) (map : List Int) (n symbol : Int) (hn : n = map.length) :
    FindSymbol g map n symbol < n ↔ symbol ∈ map := by
  have hn0 : 0 ≤ n := by omega
  obtain ⟨k0, k1, k2, k3⟩ := FindSymbol_spec g map n symbol hn0
  constructor
  · intro h
    exact mem_of_rd g.cell map _ symbol k0 (by omega) (k3 h)
  · intro h
    obtain ⟨j, hj0, hj1, hj⟩ := rd_of_mem g.cell map symbol h
    by_contra hge
    exact k2 j hj0 (by omega) hj

theorem mem_boxLetters (l : Int) : l ∈ boxLetters ↔ isLower l := by
  unfold boxLetters isLower
  simp only [List.mem_map, List.mem_range]
  constructor
  · rintro ⟨k, hk, rfl⟩; omega
  · intro h; exact ⟨(l - 97).toNat, by omega, by omega⟩

/-- On a board with one player marker `FindPlayer` returns its cell, and no
other cell holds a player marker. -/
theorem FindPlayer_spec (g : Stray) (map : List Int) (n : Int) (hn : n = map.length)
    (h1 : playerCount map = 1) :
    0 ≤ FindPlayer g map n ∧ FindPlayer g map n < n ∧
      (rd g.cell map (FindPlayer g map n) = AT ∨ rd g.cell map (FindPlayer g map n) = STAR) ∧
      ∀ j, 0 ≤ j → j < n → (rd g.cell map j = AT ∨ rd g.cell map j = STAR) →
        j = FindPlayer g map n := by
  have hn0 : 0 ≤ n := by omega
  unfold playerCount at h1
  have key : 0 ≤ FindPlayer g map n ∧ FindPlayer g map n < n ∧
      (rd g.cell map (FindPlayer g map n) = AT ∨ rd g.cell map (FindPlayer g map n) = STAR) := by
    unfold FindPlayer
    by_cases h : FindSymbol g map n AT < n
    · rw [if_pos h]
      exact ⟨(FindSymbol_spec g map n AT hn0).1, h,
        Or.inl ((FindSymbol_spec g map n AT hn0).2.2.2 h)⟩
    · rw [if_neg h]
      have hat : ¬ AT ∈ map := fun hm => h ((FindSymbol_lt_iff g map n AT hn).mpr hm)
      have hc : map.count AT = 0 := List.count_eq_zero.mpr hat
      have hs : STAR ∈ map := List.count_pos_iff.mp (by omega)
      have hlt := (FindSymbol_lt_iff g map n STAR hn).mpr hs
      exact ⟨(FindSymbol_spec g map n STAR hn0).1, hlt,
        Or.inr ((FindSymbol_spec g map n STAR hn0).2.2.2 hlt)⟩
  refine ⟨key.1, key.2.1, key.2.2, ?_⟩
  intro j hj0 hj1 hj
  exact count_two_unique g.cell map AT STAR (by omega) j _ hj0 (by omega) key.1 (by omega)
    hj key.2.2

/-- The cell that holds a given player marker on a board where no other cell
holds one is what `FindPlayer` returns. -/
theorem FindPlayer_unique (g : Stray) (map : List Int) (n q : Int) (hn : n = map.length)
    (hq0 : 0 ≤ q) (hq1 : q < n) (hq : rd g.cell map q = AT ∨ rd g.cell map q = STAR)
    (hu : ∀ j, 0 ≤ j → j < n → j ≠ q → rd g.cell map j ≠ AT ∧ rd g.cell map j ≠ STAR) :
    FindPlayer g map n = q := by
  have hn0 : 0 ≤ n := by omega
  unfold FindPlayer
  rcases hq with hq | hq
  · have : FindSymbol g map n AT = q :=
      FindSymbol_unique g map n AT q hn0 hq0 (by omega)
        (fun j h0 h1 => (hu j h0 (by omega) (by omega)).1) (fun _ => hq)
    rw [this, if_pos hq1]
  · have hne : rd g.cell map q ≠ AT := by rw [hq]; decide
    have : FindSymbol g map n AT = n := by
      rw [FindSymbol_eq_n_iff g map n AT hn0]
      intro j h0 h1
      by_cases hjq : j = q
      · rw [hjq]; exact hne
      · exact (hu j h0 h1 hjq).1
    rw [this, if_neg (lt_irrefl _)]
    exact FindSymbol_unique g map n STAR q hn0 hq0 (by omega)
        (fun j h0 h1 => (hu j h0 (by omega) (by omega)).2) (fun _ => hq)

/-! ## Geometry of an accepted push -/

theorem resolveSymbol_cases (g : Stray) (map : List Int) (n c : Int) :
    resolveSymbol g map n c = c ∨ resolveSymbol g map n c = c - 32 := by
  unfold resolveSymbol CHANGECASE; split
  · right; rfl
  · left; rfl

/-- Neighbour in the push direction and back: for a cell of the buffer that is
not a row terminator, a destination other than `-1` is a cell of the buffer,
differs from the origin, and its opposite neighbour is the origin. -/
theorem FindDestination_range (g : Stray) (map : List Int) (n o direction : Int)
    (h0 : 0 ≤ o) (h1 : o < n) (hnl : rd g.cell map o ≠ NEWLINE) (hdir : isDirection direction)
    (h : FindDestination g map n o direction ≠ -1) :
    0 ≤ FindDestination g map n o direction ∧ FindDestination g map n o direction < n ∧
      FindDestination g map n o direction ≠ o ∧
      FindOppositePos g map n (FindDestination g map n o direction) direction = o := by
  rcases hdir with rfl | rfl | rfl | rfl
  · have e1 : ∀ x, FindDestination g map n x UP = TopElement g map x := fun _ => rfl
    have e2 : ∀ x, FindOppositePos g map n x UP = BottomElement g map n x := fun _ => rfl
    rw [e1] at h ⊢; rw [e2]
    obtain ⟨a, b, _, e⟩ := TopElement_range g map n o h0 h1 hnl h
    exact ⟨a, by omega, by omega, e⟩
  · have e1 : ∀ x, FindDestination g map n x DOWN = BottomElement g map n x := fun _ => rfl
    have e2 : ∀ x, FindOppositePos g map n x DOWN = TopElement g map x := fun _ => rfl
    rw [e1] at h ⊢; rw [e2]
    obtain ⟨a, b, _, e⟩ := BottomElement_range g map n o h0 hnl h
    exact ⟨by omega, b, by omega, e⟩
  · have e1 : ∀ x, FindDestination g map n x LEFT = LeftElement g map x := fun _ => rfl
    have e2 : ∀ x, FindOppositePos g map n x LEFT = RightElement g map n x := fun _ => rfl
    rw [e1] at h ⊢; rw [e2]
    obtain ⟨a, b, _⟩ := LeftElement_range g map o h
    rw [a]
    refine ⟨b, by omega, by omega, ?_⟩
    unfold RightElement
    have e : o - 1 + 1 = o := by omega
    rw [e, if_pos ⟨h1, hnl⟩]
  · have e1 : ∀ x, FindDestination g map n x RIGHT = RightElement g map n x := fun _ => rfl
    have e2 : ∀ x, FindOppositePos g map n x RIGHT = LeftElement g map x := fun _ => rfl
    rw [e1] at h ⊢; rw [e2]
    obtain ⟨a, b, _⟩ := RightElement_range g map n o h
    rw [a]
    refine ⟨by omega, b, by omega, ?_⟩
    unfold LeftElement
    have e : o + 1 - 1 = o := by omega
    rw [e, if_pos ⟨by omega, hnl⟩]

/-- What an accepted push command (a letter and one of the four direction
tokens) implies about origin and destination. -/
theorem pushGuard_facts (g : Stray) (map : List Int) (n c direction : Int)
    (hn : n = map.length) (hc : isUpper c ∨ isLower c) (hdir : isDirection direction)
    (hg : pushGuard g map n c direction) :
    0 ≤ pushOrigin g map n c ∧ pushOrigin g map n c < n ∧
      rd g.cell map (pushOrigin g map n c) = resolveSymbol g map n c ∧
      0 ≤ FindDestination g map n (pushOrigin g map n c) direction ∧
      FindDestination g map n (pushOrigin g map n c) direction < n ∧
      FindDestination g map n (pushOrigin g map n c) direction ≠ pushOrigin g map n c ∧
      FindOppositePos g map n (FindDestination g map n (pushOrigin g map n c) direction)
        direction = pushOrigin g map n c := by
  have hn0 : 0 ≤ n := by omega
  obtain ⟨g1, g2, _, g4⟩ := hg
  obtain ⟨k0, k1, _, k3⟩ := FindSymbol_spec g map n (resolveSymbol g map n c) hn0
  have ho : pushOrigin g map n c < n := by
    rcases lt_or_eq_of_le k1 with h | h
    · exact h
    · exfalso
      have e : pushOrigin g map n c = n := h
      rw [e] at g1 g2 g4
      exact no_push_at_end g map n direction hn hdir ⟨g1, g2, g4⟩
  have hsym := k3 ho
  have hnl : rd g.cell map (pushOrigin g map n c) ≠ NEWLINE := by
    have e : rd g.cell map (pushOrigin g map n c) = resolveSymbol g map n c := hsym
    rw [e]
    unfold isUpper isLower at hc
    unfold NEWLINE
    rcases resolveSymbol_cases g map n c with h | h <;> rw [h] <;> omega
  obtain ⟨d0, d1, d2, d3⟩ :=
    FindDestination_range g map n (pushOrigin g map n c) direction k0 ho hnl hdir g1
  exact ⟨k0, ho, hsym, d0, d1, d2, d3⟩

/-! ## Counting through `MoveBox` -/

theorem MoveBox_count (g : Stray) (map : List Int) (n o d p : Int)
    (hp : FindPlayer g map n = p) (hp0 : 0 ≤ p) (hp1 : p < map.length)
    (ho0 : 0 ≤ o) (ho1 : o < map.length) (hd0 : 0 ≤ d) (hd1 : d < map.length)
    (hod : o ≠ d) (x t : Int)
    (hx : x = if o = p then floorUnder (rd g.cell map p) else rd g.cell map o)
    (ht : t = if d = p then floorUnder (rd g.cell map p) else rd g.cell map d) (v : Int) :
    (MoveBox g map n o d).count v +
        ((if x = v then 1 else 0) + (if t = v then 1 else 0) +
          (if rd g.cell map p = v then 1 else 0)) =
      map.count v +
        ((if floorUnder (rd g.cell map p) = v then 1 else 0) +
          (if boxOver x t = v then 1 else 0) + (if playerOver x = v then 1 else 0)) := by
  rw [MoveBox_eq g map n o d p hp hp0 hp1 ho0 ho1 hd0 hd1 hod, ← hx, ← ht]
  have c1 := count_wr g.cell map p (floorUnder (rd g.cell map p)) v hp0 hp1
  have c2 := count_wr g.cell (wr map p (floorUnder (rd g.cell map p))) d (boxOver x t) v hd0
    (by rw [length_wr]; exact hd1)
  have c3 := count_wr g.cell (wr (wr map p (floorUnder (rd g.cell map p))) d (boxOver x t)) o
    (playerOver x) v ho0 (by rw [length_wr, length_wr]; exact ho1)
  have e2 : rd g.cell (wr map p (floorUnder (rd g.cell map p))) d = t := by
    rw [rd_wr, ht]; simp [hp0, hp1]
  have e3 : rd g.cell (wr (wr map p (floorUnder (rd g.cell map p))) d (boxOver x t)) o = x := by
    rw [rd_wr_other _ _ _ _ _ hod, rd_wr, hx]; simp [hp0, hp1]
  rw [e2] at c2
  rw [e3] at c3
  omega

theorem boxOver_cases (x t : Int) (hx : -96 ≤ x ∧ x ≤ 127) :
    boxOver x t = x ∨ ((65 ≤ x ∧ x ≤ 90) ∧ boxOver x t = x + 32) ∨
      (¬ (65 ≤ x ∧ x ≤ 90) ∧ boxOver x t = x - 32) := by
  unfold boxOver CHANGECASE
  by_cases hu : isUpper x
  · rw [if_pos hu]
    have hu2 : 65 ≤ x ∧ x ≤ 90 := hu
    split
    · right; left; exact ⟨hu, toChar_id _ (by omega) (by omega)⟩
    · left; rfl
  · rw [if_neg hu]
    split
    · right; right; exact ⟨hu, toChar_id _ (by omega) (by omega)⟩
    · left; rfl

theorem floorUnder_cases (m : Int) : floorUnder m = 45 ∨ floorUnder m = 43 := by
  unfold floorUnder; split
  · left; rfl
  · right; rfl

theorem playerOver_cases (x : Int) : playerOver x = 64 ∨ playerOver x = 42 := by
  unfold playerOver; split
  · right; rfl
  · left; rfl

theorem moved_char_range (c s : Int) (hc : isUpper c ∨ isLower c) (hs : s = c ∨ s = c - 32)
    (hnm : s ≠ 64 ∧ s ≠ 42) :
    ((65 ≤ s ∧ s ≤ 90) ∨ (97 ≤ s ∧ s ≤ 122) ∨ (33 ≤ s ∧ s ≤ 63)) ∧ s ≠ 64 ∧ s ≠ 42 := by
  unfold isUpper isLower at hc
  omega

theorem floor_char_range (s : Int) (hs : s = 45 ∨ s = 43) :
    ((65 ≤ s ∧ s ≤ 90) ∨ (97 ≤ s ∧ s ≤ 122) ∨ (33 ≤ s ∧ s ≤ 63)) ∧ s ≠ 64 ∧ s ≠ 42 := by
  omega

theorem boxOver_not_player (x t : Int)
    (hx : ((65 ≤ x ∧ x ≤ 90) ∨ (97 ≤ x ∧ x ≤ 122) ∨ (33 ≤ x ∧ x ≤ 63)) ∧ x ≠ 64 ∧ x ≠ 42) :
    boxOver x t ≠ 64 ∧ boxOver x t ≠ 42 := by
  have h := boxOver_cases x t (by omega)
  omega

theorem player_balance (a64 a42 b64 b42 : Nat) (x t m fl bx pl : Int)
    (e1 : b64 + ((if x = 64 then 1 else 0) + (if t = 64 then 1 else 0) +
        (if m = 64 then 1 else 0)) =
      a64 + ((if fl = 64 then 1 else 0) + (if bx = 64 then 1 else 0) +
        (if pl = 64 then 1 else 0)))
    (e2 : b42 + ((if x = 42 then 1 else 0) + (if t = 42 then 1 else 0) +
        (if m = 42 then 1 else 0)) =
      a42 + ((if fl = 42 then 1 else 0) + (if bx = 42 then 1 else 0) +
        (if pl = 42 then 1 else 0)))
    (hx : x ≠ 64 ∧ x ≠ 42) (ht : t = 45 ∨ t = 43) (hm : m = 64 ∨ m = 42)
    (hfl : fl = 45 ∨ fl = 43) (hbx : bx ≠ 64 ∧ bx ≠ 42) (hpl : pl = 64 ∨ pl = 42)
    (h1 : a64 + a42 = 1) : b64 + b42 = 1 := by
  have t1 : t ≠ 64 ∧ t ≠ 42 := by omega
  have f1 : fl ≠ 64 ∧ fl ≠ 42 := by omega
  rw [if_neg hx.1, if_neg t1.1, if_neg f1.1, if_neg hbx.1] at e1
  rw [if_neg hx.2, if_neg t1.2, if_neg f1.2, if_neg hbx.2] at e2
  clear hx ht hfl hbx t1 f1
  rcases hm with rfl | rfl <;> rcases hpl with rfl | rfl <;> simp at e1 e2 <;> omega

theorem letter_balance (a1 a2 b1 b2 : Nat) (x t m fl bx pl l : Int)
    (e1 : b1 + ((if x = l then 1 else 0) + (if t = l then 1 else 0) +
        (if m = l then 1 else 0)) =
      a1 + ((if fl = l then 1 else 0) + (if bx = l then 1 else 0) +
        (if pl = l then 1 else 0)))
    (e2 : b2 + ((if x = l - 32 then 1 else 0) + (if t = l - 32 then 1 else 0) +
        (if m = l - 32 then 1 else 0)) =
      a2 + ((if fl = l - 32 then 1 else 0) + (if bx = l - 32 then 1 else 0) +
        (if pl = l - 32 then 1 else 0)))
    (hl : 97 ≤ l ∧ l ≤ 122)
    (hx : (65 ≤ x ∧ x ≤ 90) ∨ (97 ≤ x ∧ x ≤ 122) ∨ (33 ≤ x ∧ x ≤ 63))
    (ht : t = 45 ∨ t = 43 ∨ t = 64 ∨ t = 42) (hm : m = 64 ∨ m = 42)
    (hfl : fl = 45 ∨ fl = 43)
    (hbx : bx = x ∨ ((65 ≤ x ∧ x ≤ 90) ∧ bx = x + 32) ∨ (¬ (65 ≤ x ∧ x ≤ 90) ∧ bx = x - 32))
    (hpl : pl = 64 ∨ pl = 42) :
    b1 + b2 = a1 + a2 := by
  have t1 : t ≠ l ∧ t ≠ l - 32 := by omega
  have f1 : fl ≠ l ∧ fl ≠ l - 32 := by omega
  have m1 : m ≠ l ∧ m ≠ l - 32 := by omega
  have p1 : pl ≠ l ∧ pl ≠ l - 32 := by omega
  rw [if_neg t1.1, if_neg f1.1, if_neg m1.1, if_neg p1.1] at e1
  rw [if_neg t1.2, if_neg f1.2, if_neg m1.2, if_neg p1.2] at e2
  have key : (if x = l then 1 else 0) + (if x = l - 32 then 1 else 0) =
      (if bx = l then 1 else 0) + (if bx = l - 32 then 1 else 0) := by
    clear e1 e2 ht hm hfl hpl t1 f1 m1 p1
    rcases hbx with h | ⟨hu, h⟩ | ⟨hu, h⟩
    · rw [h]
    · subst h; split_ifs <;> omega
    · subst h; split_ifs <;> omega
  clear hx hbx ht hm hfl hpl t1 f1 m1 p1 hl
  omega

/-- Counts of one push command whose character is a letter, on a board with
one player marker. -/
theorem push_counts (g : Stray) (map : List Int) (n : Int) (head : List move_t)
    (c direction : Int) (hn : n = map.length) (hc : isUpper c ∨ isLower c)
    (hdir : isDirection direction) (h1 : playerCount map = 1) :
    playerCount (ReadMove_push g map n head c direction).1 = 1 ∧
      ∀ l, isLower l →
        boxCount (ReadMove_push g map n head c direction).1 l = boxCount map l := by
  rw [ReadMove_push_eq]
  by_cases hg : pushGuard g map n c direction
  · rw [if_pos hg]
    simp only
    obtain ⟨o0, o1, osym, d0, d1, dne, _⟩ := pushGuard_facts g map n c direction hn hc hdir hg
    obtain ⟨p0, p1, pm, pu⟩ := FindPlayer_spec g map n hn h1
    have hvalid := (IsSymbolValid_iff _).mp hg.2.2.2
    have hsym : rd g.cell map (pushOrigin g map n c) = c ∨
        rd g.cell map (pushOrigin g map n c) = c - 32 := by
      rw [osym]; exact resolveSymbol_cases g map n c
    have hfl := floorUnder_cases (rd g.cell map (FindPlayer g map n))
    have htv : (if FindDestination g map n (pushOrigin g map n c) direction = FindPlayer g map n
        then floorUnder (rd g.cell map (FindPlayer g map n))
        else rd g.cell map (FindDestination g map n (pushOrigin g map n c) direction)) = 45 ∨
        (if FindDestination g map n (pushOrigin g map n c) direction = FindPlayer g map n
        then floorUnder (rd g.cell map (FindPlayer g map n))
        else rd g.cell map (FindDestination g map n (pushOrigin g map n c) direction)) = 43 := by
      by_cases hdp : FindDestination g map n (pushOrigin g map n c) direction = FindPlayer g map n
      · rw [if_pos hdp]; exact hfl
      · rw [if_neg hdp]
        rcases hvalid with h | h | h | h
        · left; exact h
        · right; exact h
        · exact absurd (pu _ d0 d1 (Or.inl h)) hdp
        · exact absurd (pu _ d0 d1 (Or.inr h)) hdp
    have hxv : ((65 ≤ (if pushOrigin g map n c = FindPlayer g map n
          then floorUnder (rd g.cell map (FindPlayer g map n))
          else rd g.cell map (pushOrigin g map n c)) ∧
        (if pushOrigin g map n c = FindPlayer g map n
          then floorUnder (rd g.cell map (FindPlayer g map n))
          else rd g.cell map (pushOrigin g map n c)) ≤ 90) ∨
        (97 ≤ (if pushOrigin g map n c = FindPlayer g map n
          then floorUnder (rd g.cell map (FindPlayer g map n))
          else rd g.cell map (pushOrigin g map n c)) ∧
        (if pushOrigin g map n c = FindPlayer g map n
          then floorUnder (rd g.cell map (FindPlayer g map n))
          else rd g.cell map (pushOrigin g map n c)) ≤ 122) ∨
        (33 ≤ (if pushOrigin g map n c = FindPlayer g map n
          then floorUnder (rd g.cell map (FindPlayer g map n))
          else rd g.cell map (pushOrigin g map n c)) ∧
        (if pushOrigin g map n c = FindPlayer g map n
          then floorUnder (rd g.cell map (FindPlayer g map n))
          else rd g.cell map (pushOrigin g map n c)) ≤ 63)) ∧
        (if pushOrigin g map n c = FindPlayer g map n
          then floorUnder (rd g.cell map (FindPlayer g map n))
          else rd g.cell map (pushOrigin g map n c)) ≠ 64 ∧
        (if pushOrigin g map n c = FindPlayer g map n
          then floorUnder (rd g.cell map (FindPlayer g map n))
          else rd g.cell map (pushOrigin g map n c)) ≠ 42 := by
      by_cases hop : pushOrigin g map n c = FindPlayer g map n
      · rw [if_pos hop]; exact floor_char_range _ hfl
      · rw [if_neg hop]
        exact moved_char_range c _ hc hsym
          ⟨fun h => hop (pu _ o0 o1 (Or.inl h)), fun h => hop (pu _ o0 o1 (Or.inr h))⟩
    have E := fun v => MoveBox_count g map n (pushOrigin g map n c)
      (FindDestination g map n (pushOrigin g map n c) direction) (FindPlayer g map n) rfl p0
      (hn ▸ p1) o0 (hn ▸ o1) d0 (hn ▸ d1) (fun h => dne h.symm) _ _ rfl rfl v
    constructor
    · exact player_balance _ _ _ _ _ _ _ _ _ _ (E 64) (E 42) hxv.2 htv pm hfl
        (boxOver_not_player _ _ hxv) (playerOver_cases _) h1
    · intro l hl
      exact letter_balance _ _ _ _ _ _ _ _ _ _ l (E l) (E (l - 32)) hl hxv.1
        (htv.elim Or.inl (fun h => Or.inr (Or.inl h))) pm hfl
        (boxOver_cases _ _ (by have := hxv.1; omega)) (playerOver_cases _)
  · rw [if_neg hg]
    exact ⟨h1, fun _ _ => rfl⟩

/-- On a board with a player marker `FindPlayer` returns a cell of the buffer
that holds one. -/
theorem FindPlayer_range (g : Stray) (map : List Int) (n : Int) (hn : n = map.length)
    (h1 : 1 ≤ playerCount map) :
    0 ≤ FindPlayer g map n ∧ FindPlayer g map n < n ∧
      (rd g.cell map (FindPlayer g map n) = AT ∨ rd g.cell map (FindPlayer g map n) = STAR) := by
  have hn0 : 0 ≤ n := by omega
  unfold playerCount at h1
  unfold FindPlayer
  by_cases h : FindSymbol g map n AT < n
  · rw [if_pos h]
    exact ⟨(FindSymbol_spec g map n AT hn0).1, h,
      Or.inl ((FindSymbol_spec g map n AT hn0).2.2.2 h)⟩
  · rw [if_neg h]
    have hat : ¬ AT ∈ map := fun hm => h ((FindSymbol_lt_iff g map n AT hn).mpr hm)
    have hc : map.count AT = 0 := List.count_eq_zero.mpr hat
    have hs : STAR ∈ map := List.count_pos_iff.mp (by omega)
    have hlt := (FindSymbol_lt_iff g map n STAR hn).mpr hs
    exact ⟨(FindSymbol_spec g map n STAR hn0).1, hlt,
      Or.inr ((FindSymbol_spec g map n STAR hn0).2.2.2 hlt)⟩

theorem moved_char_range_any (c s : Int) (hc : isUpper c ∨ isLower c)
    (hs : s = c ∨ s = c - 32) :
    (65 ≤ s ∧ s ≤ 90) ∨ (97 ≤ s ∧ s ≤ 122) ∨ (33 ≤ s ∧ s ≤ 63) := by
  unfold isUpper isLower at hc
  omega

/-- Letter counts of one push command whose character is a letter, on a board
with at least one player marker. -/
theorem push_letter_counts (g : Stray) (map : List Int) (n : Int) (head : List move_t)
    (c direction : Int) (hn : n = map.length) (hc : isUpper c ∨ isLower c)
    (hdir : isDirection direction) (h1 : 1 ≤ playerCount map) :
    ∀ l, isLower l →
      boxCount (ReadMove_push g map n head c direction).1 l = boxCount map l := by
  rw [ReadMove_push_eq]
  by_cases hg : pushGuard g map n c direction
  · rw [if_pos hg]
    simp only
    obtain ⟨o0, o1, osym, d0, d1, dne, _⟩ := pushGuard_facts g map n c direction hn hc hdir hg
    obtain ⟨p0, p1, pm⟩ := FindPlayer_range g map n hn h1
    have hvalid := (IsSymbolValid_iff _).mp hg.2.2.2
    have hsym : rd g.cell map (pushOrigin g map n c) = c ∨
        rd g.cell map (pushOrigin g map n c) = c - 32 := by
      rw [osym]; exact resolveSymbol_cases g map n c
    have hfl := floorUnder_cases (rd g.cell map (FindPlayer g map n))
    have htv : (if FindDestination g map n (pushOrigin g map n c) direction = FindPlayer g map n
        then floorUnder (rd g.cell map (FindPlayer g map n))
        else rd g.cell map (FindDestination g map n (pushOrigin g map n c) direction)) = 45 ∨
        (if FindDestination g map n (pushOrigin g map n c) direction = FindPlayer g map n
        then floorUnder (rd g.cell map (FindPlayer g map n))
        else rd g.cell map (FindDestination g map n (pushOrigin g map n c) direction)) = 43 ∨
        (if FindDestination g map n (pushOrigin g map n c) direction = FindPlayer g map n
        then floorUnder (rd g.cell map (FindPlayer g map n))
        else rd g.cell map (FindDestination g map n (pushOrigin g map n c) direction)) = 64 ∨
        (if FindDestination g map n (pushOrigin g map n c) direction = FindPlayer g map n
        then floorUnder (rd g.cell map (FindPlayer g map n))
        else rd g.cell map (FindDestination g map n (pushOrigin g map n c) direction)) = 42 := by
      by_cases hdp : FindDestination g map n (pushOrigin g map n c) direction = FindPlayer g map n
      · rw [if_pos hdp]; exact hfl.elim Or.inl (fun h => Or.inr (Or.inl h))
      · rw [if_neg hdp]; exact hvalid
    have hxv : (65 ≤ (if pushOrigin g map n c = FindPlayer g map n
          then floorUnder (rd g.cell map (FindPlayer g map n))
          else rd g.cell map (pushOrigin g map n c)) ∧
        (if pushOrigin g map n c = FindPlayer g map n
          then floorUnder (rd g.cell map (FindPlayer g map n))
          else rd g.cell map (pushOrigin g map n c)) ≤ 90) ∨
        (97 ≤ (if pushOrigin g map n c = FindPlayer g map n
          then floorUnder (rd g.cell map (FindPlayer g map n))
          else rd g.cell map (pushOrigin g map n c)) ∧
        (if pushOrigin g map n c = FindPlayer g map n
          then floorUnder (rd g.cell map (FindPlayer g map n))
          else rd g.cell map (pushOrigin g map n c)) ≤ 122) ∨
        (33 ≤ (if pushOrigin g map n c = FindPlayer g map n
          then floorUnder (rd g.cell map (FindPlayer g map n))
          else rd g.cell map (pushOrigin g map n c)) ∧
        (if pushOrigin g map n c = FindPlayer g map n
          then floorUnder (rd g.cell map (FindPlayer g map n))
          else rd g.cell map (pushOrigin g map n c)) ≤ 63) := by
      by_cases hop : pushOrigin g map n c = FindPlayer g map n
      · rw [if_pos hop]; exact (floor_char_range _ hfl).1
      · rw [if_neg hop]
        exact moved_char_range_any c _ hc hsym
    have E := fun v => MoveBox_count g map n (pushOrigin g map n c)
      (FindDestination g map n (pushOrigin g map n c) direction) (FindPlayer g map n) rfl p0
      (hn ▸ p1) o0 (hn ▸ o1) d0 (hn ▸ d1) (fun h => dne h.symm) _ _ rfl rfl v
    intro l hl
    exact letter_balance _ _ _ _ _ _ _ _ _ _ l (E l) (E (l - 32)) hl hxv htv pm hfl
      (boxOver_cases _ _ (by have := hxv; omega)) (playerOver_cases _)
  · rw [if_neg hg]
    exact fun _ _ => rfl

/-! ## A push named by a lower case letter on a well-formed board -/

theorem boxOver_letter (c b t : Int) (hc : isLower c) (hb : b = c ∨ b = c - 32)
    (ht : t = 45 ∨ t = 43) : boxOver b t = if t = 43 then c - 32 else c := by
  unfold isLower at hc
  unfold boxOver isUpper CHANGECASE MINUS AT PLUS STAR
  rcases hb with rfl | rfl
  · rw [if_neg (by omega)]
    rcases ht with rfl | rfl
    · simp
    · simp; exact toChar_id _ (by omega) (by omega)
  · rw [if_pos (by omega)]
    rcases ht with rfl | rfl
    · simp; rw [toChar_id _ (by omega) (by omega)]
    · simp

theorem playerOver_letter (c b : Int) (hc : isLower c) (hb : b = c ∨ b = c - 32) :
    playerOver b = if b = c then 64 else 42 := by
  unfold isLower at hc
  unfold playerOver isUpper AT STAR
  rcases hb with rfl | rfl
  · rw [if_neg (by omega), if_pos rfl]
  · rw [if_pos (by omega), if_neg (by omega)]

/-- On a well-formed board no cell but the one found holds the letter `c` in
either case. -/
theorem box_unique (g : Stray) (map : List Int) (n c o : Int) (hn : n = map.length)
    (hbd : BoxesDistinct map) (hc : isLower c) (ho0 : 0 ≤ o) (ho1 : o < n)
    (ho : rd g.cell map o = c ∨ rd g.cell map o = c - 32) (j : Int) (hj0 : 0 ≤ j)
    (hj1 : j < n) (hj : rd g.cell map j = c ∨ rd g.cell map j = c - 32) : j = o := by
  have h := hbd c ((mem_boxLetters c).mpr hc)
  unfold boxCount CHANGECASE at h
  exact count_two_unique g.cell map c (c - 32) h j o hj0 (hn ▸ hj1) ho0 (hn ▸ ho1) hj ho

/-- Origin, destination and player of an accepted push named by a lower case
letter on a well-formed board. -/
theorem push_lower_facts (g : Stray) (map : List Int) (n c direction : Int)
    (hn : n = map.length) (hwf : WellFormed map) (hc : isLower c)
    (hdir : isDirection direction) (hg : pushGuard g map n c direction) :
    ∃ o d p b t m : Int,
      pushOrigin g map n c = o ∧ FindDestination g map n o direction = d ∧
      FindPlayer g map n = p ∧ rd g.cell map o = b ∧ rd g.cell map p = m ∧
      t = (if d = p then floorUnder m else rd g.cell map d) ∧
      0 ≤ o ∧ o < n ∧ 0 ≤ d ∧ d < n ∧ 0 ≤ p ∧ p < n ∧
      d ≠ o ∧ o ≠ p ∧ (b = c ∨ b = c - 32) ∧ (t = 45 ∨ t = 43) ∧ (m = 64 ∨ m = 42) ∧
      (d ≠ p → rd g.cell map d = t) ∧
      FindOppositePos g map n d direction = o ∧
      (∀ j, 0 ≤ j → j < n → j ≠ o → rd g.cell map j ≠ c ∧ rd g.cell map j ≠ c - 32) ∧
      (∀ j, 0 ≤ j → j < n → j ≠ p → rd g.cell map j ≠ 64 ∧ rd g.cell map j ≠ 42) := by
  obtain ⟨o0, o1, osym, d0, d1, dne, dop⟩ :=
    pushGuard_facts g map n c direction hn (Or.inr hc) hdir hg
  obtain ⟨p0, p1, pm, pu⟩ := FindPlayer_spec g map n hn hwf.1
  have hvalid := (IsSymbolValid_iff _).mp hg.2.2.2
  have hsym : rd g.cell map (pushOrigin g map n c) = c ∨
      rd g.cell map (pushOrigin g map n c) = c - 32 := by
    rw [osym]; exact resolveSymbol_cases g map n c
  have hop : pushOrigin g map n c ≠ FindPlayer g map n := by
    intro h
    rw [← h] at pm
    unfold isLower at hc
    unfold AT STAR at pm
    omega
  have hpu : ∀ j, 0 ≤ j → j < n → j ≠ FindPlayer g map n →
      rd g.cell map j ≠ 64 ∧ rd g.cell map j ≠ 42 := fun j h0 h1 hne =>
    ⟨fun h => hne (pu j h0 h1 (Or.inl h)), fun h => hne (pu j h0 h1 (Or.inr h))⟩
  have hfl := floorUnder_cases (rd g.cell map (FindPlayer g map n))
  refine ⟨_, _, _, _, _, _, rfl, rfl, rfl, rfl, rfl, rfl, o0, o1, d0, d1, p0, p1, dne, hop,
    hsym, ?_, pm, ?_, dop, ?_, hpu⟩
  · by_cases hdp : FindDestination g map n (pushOrigin g map n c) direction = FindPlayer g map n
    · rw [if_pos hdp]; exact hfl
    · rw [if_neg hdp]
      rcases hvalid with h | h | h | h
      · left; exact h
      · right; exact h
      · exact absurd h (hpu _ d0 d1 hdp).1
      · exact absurd h (hpu _ d0 d1 hdp).2
  · intro hdp; rw [if_neg hdp]
  · intro j h0 h1 hne
    exact ⟨fun h => hne (box_unique g map n c _ hn hwf.2 hc o0 o1 hsym j h0 h1 (Or.inl h)),
      fun h => hne (box_unique g map n c _ hn hwf.2 hc o0 o1 hsym j h0 h1 (Or.inr h))⟩

/-- Cell by cell description of the buffer after `MoveBox` moved a box letter
from `o` onto a floor cell or the player's cell `d`. -/
theorem pushed_rd (g : Stray) (map : List Int) (n c o d p b t m : Int)
    (hn : n = map.length) (hc : isLower c) (hp : FindPlayer g map n = p)
    (hb : rd g.cell map o = b) (hm : rd g.cell map p = m)
    (ht : t = (if d = p then floorUnder m else rd g.cell map d))
    (o0 : 0 ≤ o) (o1 : o < n) (d0 : 0 ≤ d) (d1 : d < n) (p0 : 0 ≤ p) (p1 : p < n)
    (dne : d ≠ o) (hop : o ≠ p) (hbc : b = c ∨ b = c - 32) (htv : t = 45 ∨ t = 43) (j : Int) :
    rd g.cell (MoveBox g map n o d) j =
      if j = o then (if b = c then 64 else 42)
      else if j = d then (if t = 43 then c - 32 else c)
      else if j = p then floorUnder m
      else rd g.cell map j := by
  rw [MoveBox_rd g map n o d p hp p0 (hn ▸ p1) o0 (hn ▸ o1) d0 (hn ▸ d1) (fun h => dne h.symm) j]
  rw [if_neg hop, hb, hm, ← ht, boxOver_letter c b t hc hbc htv, playerOver_letter c b hc hbc]

/-! ## Undo of the most recent push -/

theorem UndoMove_eq (g : Stray) (r : move_t) (next : List move_t) (map : List Int)
    (n o d q : Int)
    (ho : FindSymbol g map n
      (if FindSymbol g map n r.boxChar ≥ n then r.boxChar - CHANGECASE else r.boxChar) = o)
    (hd : FindOppositePos g map n o r.direction = d)
    (hq : FindPlayer g (MoveBox g map n o d) n = q) :
    UndoMove g r next map n =
      (next,
        wr (wr (MoveBox g map n o d) q (floorUnder (rd g.cell (MoveBox g map n o d) q)))
          r.playerPos
          (if rd g.cell (wr (MoveBox g map n o d) q
              (floorUnder (rd g.cell (MoveBox g map n o d) q))) r.playerPos = MINUS
            then AT else STAR)) := by
  unfold UndoMove
  simp only [ho, hd, hq]
  have e1 : (if rd g.cell (MoveBox g map n o d) q = AT then wr (MoveBox g map n o d) q MINUS
      else wr (MoveBox g map n o d) q PLUS) =
      wr (MoveBox g map n o d) q (floorUnder (rd g.cell (MoveBox g map n o d) q)) := by
    unfold floorUnder; split <;> rfl
  rw [e1]
  congr 1
  split <;> rfl

/-- The box letter `c`, in the case it has after the push, is found at the
destination and nowhere else. -/
theorem FindSymbol_pushed (g : Stray) (m1 : List Int) (n c d t : Int) (hn : n = m1.length)
    (d0 : 0 ≤ d) (d1 : d < n)
    (hd : rd g.cell m1 d = if t = 43 then c - 32 else c)
    (hne : ∀ j, 0 ≤ j → j < n → j ≠ d → rd g.cell m1 j ≠ c ∧ rd g.cell m1 j ≠ c - 32) :
    FindSymbol g m1 n
      (if FindSymbol g m1 n c ≥ n then c - CHANGECASE else c) = d := by
  have hn0 : 0 ≤ n := by omega
  unfold CHANGECASE
  by_cases ht : t = 43
  · rw [if_pos ht] at hd
    have h1 : FindSymbol g m1 n c = n := by
      rw [FindSymbol_eq_n_iff g m1 n c hn0]
      intro j h0 h1
      by_cases hjd : j = d
      · rw [hjd, hd]; omega
      · exact (hne j h0 h1 hjd).1
    rw [h1, if_pos (le_refl _)]
    exact FindSymbol_unique g m1 n _ d hn0 d0 (by omega)
      (fun j h0 h1 => (hne j h0 (by omega) (by omega)).2) (fun _ => hd)
  · rw [if_neg ht] at hd
    have h1 : FindSymbol g m1 n c = d :=
      FindSymbol_unique g m1 n _ d hn0 d0 (by omega)
        (fun j h0 h1 => (hne j h0 (by omega) (by omega)).1) (fun _ => hd)
    rw [h1, if_neg (by omega)]
    exact h1

/-- Undoing the push that was just applied restores the buffer. -/
theorem undo_after_push (g : Stray) (map : List Int) (n c direction : Int)
    (next : List move_t) (hn : n = map.length) (hwf : WellFormed map) (hc : isLower c)
    (hdir : isDirection direction) (hg : pushGuard g map n c direction) :
    UndoMove g { playerPos := FindPlayer g map n, boxChar := c, direction := direction } next
        (MoveBox g map n (pushOrigin g map n c)
          (FindDestination g map n (pushOrigin g map n c) direction)) n = (next, map) := by
  obtain ⟨o, d, p, b, t, m, ho, hd, hp, hb, hm, ht, o0, o1, d0, d1, p0, p1, dne, hop, hbc, htv,
    hmv, hdt, hopp, hbu, hpu⟩ := push_lower_facts g map n c direction hn hwf hc hdir hg
  rw [ho, hd, hp]
  have hcl : 97 ≤ c ∧ c ≤ 122 := hc
  have hflv := floorUnder_cases m
  -- the buffer after the push
  have hM1 := pushed_rd g map n c o d p b t m hn hc hp hb hm ht o0 o1 d0 d1 p0 p1 dne hop hbc htv
  have hL1 : (MoveBox g map n o d).length = map.length := MoveBox_length g map n o d
  have hn1 : n = (MoveBox g map n o d).length := by rw [hL1]; exact hn
  generalize MoveBox g map n o d = M1 at hM1 hL1 hn1 ⊢
  have r1o : rd g.cell M1 o = if b = c then 64 else 42 := by rw [hM1, if_pos rfl]
  have r1d : rd g.cell M1 d = if t = 43 then c - 32 else c := by
    rw [hM1, if_neg dne, if_pos rfl]
  have r1x : ∀ j, j ≠ o → j ≠ d → rd g.cell M1 j = if j = p then floorUnder m else rd g.cell map j :=
    fun j h1 h2 => by rw [hM1, if_neg h1, if_neg h2]
  -- the search for the box
  have hfind : FindSymbol g M1 n
      (if FindSymbol g M1 n c ≥ n then c - CHANGECASE else c) = d := by
    apply FindSymbol_pushed g M1 n c d t hn1 d0 d1 r1d
    intro j h0 h1 hjd
    by_cases hjo : j = o
    · rw [hjo, r1o]; clear * - hcl; split <;> omega
    · rw [r1x j hjo hjd]
      by_cases hjp : j = p
      · rw [if_pos hjp]; clear * - hcl hflv; omega
      · rw [if_neg hjp]; exact hbu j h0 h1 hjo
  -- the rows are where they were
  have hnl : ∀ j, rd g.cell M1 j = NEWLINE ↔ rd g.cell map j = NEWLINE := by
    intro j
    by_cases hr : 0 ≤ j ∧ j < n
    · unfold NEWLINE
      by_cases hjo : j = o
      · rw [hjo, r1o, hb]; clear * - hcl hbc; split <;> omega
      · by_cases hjd : j = d
        · rw [hjd, r1d]
          have : rd g.cell map d ≠ 10 := by
            by_cases hdp : d = p
            · rw [hdp, hm]; clear * - hmv; omega
            · rw [hdt hdp]; clear * - htv; omega
          clear * - hcl this
          split <;> omega
        · rw [r1x j hjo hjd]
          by_cases hjp : j = p
          · rw [if_pos hjp, hjp, hm]; clear * - hmv hflv; omega
          · rw [if_neg hjp]
    · rw [rd_outside _ _ _ (by rw [← hn1]; exact hr), rd_outside _ _ _ (by rw [← hn]; exact hr)]
  have hback : FindOppositePos g M1 n d direction = o := by
    rw [FindOppositePos_congr g M1 map n hnl]; exact hopp
  -- the player after the push
  have hq1 : FindPlayer g M1 n = o := by
    apply FindPlayer_unique g M1 n o hn1 o0 o1
    · rw [r1o]; unfold AT STAR; split
      · left; rfl
      · right; rfl
    · intro j h0 h1 hjo
      unfold AT STAR
      by_cases hjd : j = d
      · rw [hjd, r1d]; clear * - hcl; split <;> omega
      · rw [r1x j hjo hjd]
        by_cases hjp : j = p
        · rw [if_pos hjp]; clear * - hflv; omega
        · rw [if_neg hjp]; exact hpu j h0 h1 hjp
  -- the buffer after the box went back
  have hbx : (if t = 43 then c - 32 else c) = c ∨ (if t = 43 then c - 32 else c) = c - 32 := by
    split
    · right; rfl
    · left; rfl
  have hM2 := pushed_rd g M1 n c d o o (if t = 43 then c - 32 else c)
    (floorUnder (if b = c then 64 else 42)) (if b = c then 64 else 42) hn1 hc hq1 r1d r1o
    (by rw [if_pos rfl]) d0 d1 o0 o1 o0 o1 (fun h => dne h.symm) dne hbx (floorUnder_cases _)
  have hL2 : (MoveBox g M1 n d o).length = M1.length := MoveBox_length g M1 n d o
  generalize hM2def : MoveBox g M1 n d o = M2 at hM2 hL2
  have r2d : rd g.cell M2 d = if t = 43 then 42 else 64 := by
    rw [hM2, if_pos rfl]; clear * - hcl; split_ifs <;> omega
  have r2o : rd g.cell M2 o = b := by
    rw [hM2, if_neg (fun h => dne h.symm), if_pos rfl]
    unfold floorUnder AT MINUS PLUS
    clear * - hcl hbc
    rcases hbc with h | h <;> rw [h] <;> split_ifs <;> omega
  have r2x : ∀ j, j ≠ o → j ≠ d → rd g.cell M2 j = if j = p then floorUnder m else rd g.cell map j :=
    fun j h1 h2 => by rw [hM2, if_neg h2, if_neg h1, if_neg h1, r1x j h1 h2]
  have hn2 : n = M2.length := by rw [hL2]; exact hn1
  have hq2 : FindPlayer g M2 n = d := by
    apply FindPlayer_unique g M2 n d hn2 d0 d1
    · rw [r2d]; unfold AT STAR; split
      · right; rfl
      · left; rfl
    · intro j h0 h1 hjd
      unfold AT STAR
      by_cases hjo : j = o
      · rw [hjo, r2o]; clear * - hcl hbc; omega
      · rw [r2x j hjo hjd]
        by_cases hjp : j = p
        · rw [if_pos hjp]; clear * - hflv; omega
        · rw [if_neg hjp]; exact hpu j h0 h1 hjp
  rw [UndoMove_eq g _ next M1 n d o d hfind hback (by rw [hM2def]; exact hq2), hM2def]
  dsimp only
  congr 1
  have hfd : floorUnder (rd g.cell M2 d) = t := by
    rw [r2d]; unfold floorUnder AT MINUS PLUS
    clear * - htv
    split_ifs <;> omega
  rw [hfd]
  have hfm : floorUnder m = 45 → m = 64 := by
    unfold floorUnder AT MINUS PLUS; split <;> omega
  have hfm2 : m = 64 → floorUnder m = 45 := by
    intro h; unfold floorUnder AT MINUS; rw [if_pos h]
  have r3p : rd g.cell (wr M2 d t) p = floorUnder m := by
    rw [rd_wr]
    by_cases hpd : p = d
    · rw [if_pos ⟨hpd, d0, by rw [← hn2]; exact d1⟩, ht, if_pos hpd.symm]
    · rw [if_neg (fun h => hpd h.1), r2x p (fun h => hop h.symm) hpd, if_pos rfl]
  rw [r3p]
  have hlast : (if floorUnder m = MINUS then AT else STAR) = m := by
    unfold MINUS AT STAR
    split
    · rename_i h; exact (hfm h).symm
    · rename_i h
      rcases hmv with h2 | h2
      · exact absurd (hfm2 h2) h
      · exact h2.symm
  rw [hlast]
  apply ext_rd g.cell
  · simp only [length_wr]; rw [hL2, hL1]
  · intro j hj0 hj1
    simp only [rd_wr, length_wr]
    have hdl : d < (M2.length : Int) := by rw [← hn2]; exact d1
    have hpl : p < (M2.length : Int) := by rw [← hn2]; exact p1
    by_cases hjp : j = p
    · rw [if_pos ⟨hjp, p0, hpl⟩, hjp, hm]
    · rw [if_neg (fun h => hjp h.1)]
      by_cases hjd : j = d
      · rw [if_pos ⟨hjd, d0, hdl⟩, hjd, hdt (fun h => hjp (hjd.trans h))]
      · rw [if_neg (fun h => hjd h.1)]
        by_cases hjo : j = o
        · rw [hjo, r2o, hb]
        · rw [r2x j hjo hjd, if_neg hjp]

/-! ## Resolution of the box name -/

theorem lowerOf_lower (c : Int) (hc : isLower c) : lowerOf c = c := by
  unfold isLower at hc
  unfold lowerOf isUpper
  rw [if_neg (by omega)]

theorem upperOf_lower (c : Int) (hc : isLower c) : upperOf c = c - 32 := by
  unfold upperOf CHANGECASE
  rw [if_pos hc]

/-- A lower case name resolves to the cell of the box, whichever form the box
has. -/
theorem pushOrigin_eq_boxCell (g : Stray) (map : List Int) (n c : Int) (hn : n = map.length)
    (hbd : BoxesDistinct map) (hc : isLower c) :
    pushOrigin g map n c = boxCell g map n c := by
  have hn0 : 0 ≤ n := by omega
  unfold boxCell pushOrigin resolveSymbol CHANGECASE
  rw [lowerOf_lower c hc, upperOf_lower c hc]
  obtain ⟨a0, a1, _, a3⟩ := FindSymbol_spec g map n c hn0
  obtain ⟨b0, b1, _, b3⟩ := FindSymbol_spec g map n (c - 32) hn0
  by_cases h : FindSymbol g map n c ≥ n
  · rw [if_pos h]
    have : FindSymbol g map n c = n := le_antisymm a1 h
    rw [this, min_eq_right b1]
  · rw [if_neg h]
    have hlt : FindSymbol g map n c < n := lt_of_not_ge h
    have : FindSymbol g map n (c - 32) = n := by
      by_contra hne
      have hlt2 : FindSymbol g map n (c - 32) < n := lt_of_le_of_ne b1 hne
      have e := box_unique g map n c _ hn hbd hc a0 hlt (Or.inl (a3 hlt)) _ b0 hlt2
        (Or.inr (b3 hlt2))
      have h1 := a3 hlt
      have h2 := b3 hlt2
      rw [e] at h2
      rw [h1] at h2
      omega
    rw [this, min_eq_left a1]

/-- An upper case name resolves like the lower case one when the box has its
upper case form. -/
theorem pushOrigin_upper (g : Stray) (map : List Int) (n c : Int) (hn : n = map.length)
    (hbd : BoxesDistinct map) (hc : isLower c) (hu : FindSymbol g map n (c - 32) < n) :
    pushOrigin g map n (c - 32) = pushOrigin g map n c := by
  have hn0 : 0 ≤ n := by omega
  obtain ⟨a0, a1, _, a3⟩ := FindSymbol_spec g map n c hn0
  obtain ⟨b0, b1, _, b3⟩ := FindSymbol_spec g map n (c - 32) hn0
  have hcn : FindSymbol g map n c = n := by
    by_contra hne
    have hlt : FindSymbol g map n c < n := lt_of_le_of_ne a1 hne
    have e := box_unique g map n c _ hn hbd hc a0 hlt (Or.inl (a3 hlt)) _ b0 hu
      (Or.inr (b3 hu))
    have h1 := a3 hlt
    have h2 := b3 hu
    rw [e] at h2
    rw [h1] at h2
    omega
  unfold pushOrigin resolveSymbol CHANGECASE
  rw [if_neg (not_le.mpr hu), hcn, if_pos (le_refl _)]

/-- After an accepted push named by a lower case letter the search made by
`UndoMove` ends on the destination cell, whichever case the box has there. -/
theorem find_after_push (g : Stray) (map : List Int) (n c direction : Int)
    (hn : n = map.length) (hwf : WellFormed map) (hc : isLower c)
    (hdir : isDirection direction) (hg : pushGuard g map n c direction) :
    FindSymbol g (MoveBox g map n (pushOrigin g map n c)
        (FindDestination g map n (pushOrigin g map n c) direction)) n
      (resolveSymbol g (MoveBox g map n (pushOrigin g map n c)
        (FindDestination g map n (pushOrigin g map n c) direction)) n c) =
      FindDestination g map n (pushOrigin g map n c) direction := by
  obtain ⟨o, d, p, b, t, m, ho, hd, hp, hb, hm, ht, o0, o1, d0, d1, p0, p1, dne, hop, hbc, htv,
    hmv, hdt, hopp, hbu, hpu⟩ := push_lower_facts g map n c direction hn hwf hc hdir hg
  rw [ho, hd]
  have hcl : 97 ≤ c ∧ c ≤ 122 := hc
  have hflv := floorUnder_cases m
  have hM1 := pushed_rd g map n c o d p b t m hn hc hp hb hm ht o0 o1 d0 d1 p0 p1 dne hop hbc htv
  have hn1 : n = (MoveBox g map n o d).length := by rw [MoveBox_length]; exact hn
  unfold resolveSymbol
  apply FindSymbol_pushed g _ n c d t hn1 d0 d1 (by rw [hM1, if_neg dne, if_pos rfl])
  intro j h0 h1 hjd
  rw [hM1, if_neg hjd]
  by_cases hjo : j = o
  · rw [if_pos hjo]; clear * - hcl; split <;> omega
  · rw [if_neg hjo]
    by_cases hjp : j = p
    · rw [if_pos hjp]; clear * - hcl hflv; omega
    · rw [if_neg hjp]; exact hbu j h0 h1 hjo

/-- A push command named by a letter keeps a well-formed board well-formed. -/
theorem push_wellFormed (g : Stray) (map : List Int) (n : Int) (head : List move_t)
    (c direction : Int) (hn : n = map.length) (hc : isUpper c ∨ isLower c)
    (hdir : isDirection direction) (hwf : WellFormed map) :
    WellFormed (ReadMove_push g map n head c direction).1 := by
  obtain ⟨h1, h2⟩ := push_counts g map n head c direction hn hc hdir hwf.1
  refine ⟨h1, fun l hl => ?_⟩
  rw [h2 l ((mem_boxLetters l).mp hl)]
  exact hwf.2 l hl

theorem push_length (g : Stray) (map : List Int) (n : Int) (head : List move_t)
    (c direction : Int) :
    (ReadMove_push g map n head c direction).1.length = map.length := by
  rw [ReadMove_push_eq]
  split
  · exact MoveBox_length _ _ _ _ _
  · rfl

/-- The criterion of the specification agrees with the test of the code for a
lower case name on a well-formed board. -/
theorem pushGuard_iff_criterion (g : Stray) (map : List Int) (n c direction : Int)
    (hn : n = map.length) (hwf : WellFormed map) (hc : isLower c)
    (hdir : isDirection direction) :
    pushGuard g map n c direction ↔ pushCriterion g map n c direction := by
  unfold pushCriterion
  rw [← pushOrigin_eq_boxCell g map n c hn hwf.2 hc]
  constructor
  · intro hg
    obtain ⟨_, o1, _⟩ := pushGuard_facts g map n c direction hn (Or.inr hc) hdir hg
    exact ⟨o1, hg.1, hg.2.2.2, hg.2.1, hg.2.2.1⟩
  · rintro ⟨_, h1, h2, h3, h4⟩
    exact ⟨h1, h3, h4, h2⟩

/-! ## Sequences of commands -/

theorem undoTimes_succ (g : Stray) (n : Int) (k : Nat) (st : List Int × List move_t) :
    undoTimes g n (k + 1) st =
      ReadMove_undo g (undoTimes g n k st).1 n (undoTimes g n k st).2 := by
  induction k generalizing st with
  | zero => rfl
  | succ k ih =>
    have e : undoTimes g n (k + 1 + 1) st =
        undoTimes g n (k + 1) (ReadMove_undo g st.1 n st.2) := rfl
    rw [e, ih]
    rfl

theorem undoTimes_add (g : Stray) (n : Int) (a b : Nat) (st : List Int × List move_t) :
    undoTimes g n (a + b) st = undoTimes g n b (undoTimes g n a st) := by
  induction a generalizing st with
  | zero => simp [undoTimes]
  | succ a ih =>
    have e : a + 1 + b = (a + b) + 1 := by omega
    rw [e]
    show undoTimes g n (a + b) (ReadMove_undo g st.1 n st.2) = _
    rw [ih]
    rfl

theorem undoTimes_empty (g : Stray) (n : Int) (k : Nat) (map : List Int) :
    undoTimes g n k (map, []) = (map, []) := by
  induction k with
  | zero => rfl
  | succ k ih =>
    show undoTimes g n k (ReadMove_undo g map n []) = _
    exact ih

/-- After any sequence of pushes named by lower case letters, some number of
undo commands, at most the number of pushes, restores buffer and undo list. -/
theorem pushAll_undo (g : Stray) (n : Int) (cmds : List (Int × Int)) :
    ∀ (map : List Int) (head : List move_t), n = map.length → WellFormed map →
      (∀ cmd ∈ cmds, isLower cmd.1 ∧ isDirection cmd.2) →
      ∃ k, k ≤ cmds.length ∧
        undoTimes g n k (pushAll g n (map, head) cmds) = (map, head) := by
  induction cmds with
  | nil => intro map head _ _ _; exact ⟨0, le_refl _, rfl⟩
  | cons cmd rest ih =>
    intro map head hn hwf hcmds
    have hcmd := hcmds cmd (List.mem_cons_self _ _)
    have hrest : ∀ x ∈ rest, isLower x.1 ∧ isDirection x.2 :=
      fun x hx => hcmds x (List.mem_cons_of_mem _ hx)
    have hstep : pushAll g n (map, head) (cmd :: rest) =
        pushAll g n (ReadMove_push g map n head cmd.1 cmd.2) rest := rfl
    rw [hstep]
    by_cases hg : pushGuard g map n cmd.1 cmd.2
    · have hwf1 := push_wellFormed g map n head cmd.1 cmd.2 hn (Or.inr hcmd.1) hcmd.2 hwf
      have hl1 := push_length g map n head cmd.1 cmd.2
      have hpush := ReadMove_push_eq g map n head cmd.1 cmd.2
      rw [if_pos hg] at hpush
      rw [hpush] at hwf1 hl1 ⊢
      obtain ⟨k, hk, hu⟩ := ih _ (AddMoveToStack head (FindPlayer g map n) cmd.1 cmd.2)
        (by rw [hl1]; exact hn) hwf1 hrest
      refine ⟨k + 1, by simp only [List.length_cons]; omega, ?_⟩
      rw [undoTimes_succ, hu]
      have hundo := undo_after_push g map n cmd.1 cmd.2 head hn hwf hcmd.1 hcmd.2 hg
      show ((UndoMove g _ head _ n).2, (UndoMove g _ head _ n).1) = (map, head)
      rw [hundo]
    · have hpush := ReadMove_push_eq g map n head cmd.1 cmd.2
      rw [if_neg hg] at hpush
      rw [hpush]
      obtain ⟨k, hk, hu⟩ := ih map head hn hwf hrest
      exact ⟨k, by simp only [List.length_cons]; omega, hu⟩

/-! ## Result of an accepted push, cell by cell -/

/-- Everything the claims need about an accepted push named by a lower case
letter on a well-formed board: the cells involved, what they held, and the
buffer afterwards cell by cell. -/
theorem push_lower_result (g : Stray) (map : List Int) (n : Int) (head : List move_t)
    (c direction : Int) (hn : n = map.length) (hwf : WellFormed map) (hc : isLower c)
    (hdir : isDirection direction) (hg : pushGuard g map n c direction) :
    ∃ (o d p b t m : Int) (M : List Int),
      boxCell g map n c = o ∧ FindDestination g map n o direction = d ∧
      FindPlayer g map n = p ∧ rd g.cell map o = b ∧ rd g.cell map p = m ∧
      ReadMove_push g map n head c direction =
        (M, { playerPos := p, boxChar := c, direction := direction } :: head) ∧
      M.length = map.length ∧
      (0 ≤ o ∧ o < n) ∧ (0 ≤ d ∧ d < n) ∧ (0 ≤ p ∧ p < n) ∧
      d ≠ o ∧ o ≠ p ∧ (b = c ∨ b = c - 32) ∧ (t = 45 ∨ t = 43) ∧ (m = 64 ∨ m = 42) ∧
      (d = p → (t = 43 ↔ m = 42)) ∧ (d ≠ p → rd g.cell map d = t) ∧
      ∀ j, rd g.cell M j =
        if j = o then (if b = c then 64 else 42)
        else if j = d then (if t = 43 then c - 32 else c)
        else if j = p then (if m = 64 then 45 else 43)
        else rd g.cell map j := by
  obtain ⟨o, d, p, b, t, m, ho, hd, hp, hb, hm, ht, o0, o1, d0, d1, p0, p1, dne, hop, hbc, htv,
    hmv, hdt, _, _, _⟩ := push_lower_facts g map n c direction hn hwf hc hdir hg
  have hM1 := pushed_rd g map n c o d p b t m hn hc hp hb hm ht o0 o1 d0 d1 p0 p1 dne hop hbc htv
  have hpush := ReadMove_push_eq g map n head c direction
  rw [if_pos hg, ho, hd, hp] at hpush
  refine ⟨o, d, p, b, t, m, MoveBox g map n o d,
    by rw [← pushOrigin_eq_boxCell g map n c hn hwf.2 hc]; exact ho, hd, hp, hb, hm, hpush,
    MoveBox_length g map n o d, ⟨o0, o1⟩, ⟨d0, d1⟩, ⟨p0, p1⟩, dne, hop, hbc, htv, hmv, ?_, hdt, ?_⟩
  · intro hdp
    rw [ht, if_pos hdp]
    unfold floorUnder AT MINUS PLUS
    clear * - hmv
    split <;> omega
  · intro j
    rw [hM1 j]
    unfold floorUnder AT MINUS PLUS
    rfl

/-! ## The flood fill ends within its fuel -/

theorem wr_outside (a : List Int) (i v : Int) (h : ¬ (0 ≤ i ∧ i < a.length)) : wr a i v = a := by
  unfold wr
  by_cases h0 : 0 ≤ i
  · rw [if_pos h0]
    exact List.set_eq_of_length_le (by omega)
  · rw [if_neg h0]

theorem pathLoop_zero (g : Stray) (map : List Int) (n destination : Int) (path : List Int)
    (ca r : Bool) :
    pathLoop g map n destination 0 path ca r =
      if ca = false ∧ r = false then none else some r := by
  unfold pathLoop; rfl

theorem pathLoop_succ (g : Stray) (map : List Int) (n destination : Int) (k : Nat)
    (path : List Int) (ca r : Bool) :
    pathLoop g map n destination (k + 1) path ca r =
      if ca = false ∧ r = false then
        pathLoop g map n destination k (scanPass g map n path).1 (scanPass g map n path).2
          (if rd g.mark path destination = REACHABLE then true else r)
      else some r := by
  rw [pathLoop]

theorem markAdjacent_length (g : Stray) (map path : List Int) (a : Int) :
    (markAdjacent g map path a).length = path.length := by
  unfold markAdjacent
  split_ifs <;> simp [length_wr]

theorem markAdjacent_work (g : Stray) (map path : List Int) (a : Int) :
    pathWork (markAdjacent g map path a) ≤ pathWork path := by
  unfold markAdjacent
  by_cases hr : 0 ≤ a ∧ a < path.length
  · by_cases hc : a ≠ -1 ∧ rd g.mark path a = 0
    · rw [if_pos hc]
      unfold pathWork UNCHECKED UNCHECKEDAROUND UNREACHABLE
      split
      · have c0 := count_wr g.mark path a 1 0 hr.1 hr.2
        have c1 := count_wr g.mark path a 1 1 hr.1 hr.2
        rw [hc.2] at c0 c1
        simp at c0 c1
        omega
      · have c0 := count_wr g.mark path a 3 0 hr.1 hr.2
        have c1 := count_wr g.mark path a 3 1 hr.1 hr.2
        rw [hc.2] at c0 c1
        simp at c0 c1
        omega
    · rw [if_neg hc]
  · split_ifs <;> simp [wr_outside _ _ _ hr]

theorem markAdjacent_keeps (g : Stray) (map path : List Int) (a j : Int)
    (hj : rd g.mark path j ≠ 0) :
    rd g.mark (markAdjacent g map path a) j = rd g.mark path j := by
  unfold markAdjacent
  by_cases hc : a ≠ -1 ∧ rd g.mark path a = 0
  · rw [if_pos hc]
    have hne : j ≠ a := by
      intro h; rw [h] at hj; exact hj hc.2
    split <;> exact rd_wr_other _ _ _ _ _ hne
  · rw [if_neg hc]

theorem scanCell_spec (g : Stray) (map : List Int) (n : Int) (st : List Int × Bool) (i : Int)
    (h0 : 0 ≤ i) (h1 : i < st.1.length) :
    (scanCell g map n st i).1.length = st.1.length ∧
      pathWork (scanCell g map n st i).1 ≤ pathWork st.1 ∧
      ((scanCell g map n st i).2 = false →
        st.2 = false ∨ pathWork (scanCell g map n st i).1 < pathWork st.1) ∧
      ((scanCell g map n st i).2 = true → st.2 = true) := by
  unfold scanCell
  by_cases hc : rd g.mark st.1 i = UNCHECKEDAROUND
  · rw [if_pos hc]
    simp only
    generalize hp4 : markAdjacent g map (markAdjacent g map (markAdjacent g map
      (markAdjacent g map st.1 (TopElement g map i)) (RightElement g map n i))
      (BottomElement g map n i)) (LeftElement g map i) = p4
    have hlen : p4.length = st.1.length := by
      rw [← hp4]; simp only [markAdjacent_length]
    have hwork : pathWork p4 ≤ pathWork st.1 := by
      rw [← hp4]
      exact le_trans (markAdjacent_work _ _ _ _) (le_trans (markAdjacent_work _ _ _ _)
        (le_trans (markAdjacent_work _ _ _ _) (markAdjacent_work _ _ _ _)))
    have hne : ∀ p : List Int, rd g.mark p i = 1 → rd g.mark p i ≠ 0 := by
      intro p h; rw [h]; decide
    have hi : rd g.mark p4 i = 1 := by
      have e0 : rd g.mark st.1 i = 1 := hc
      have e1 := markAdjacent_keeps g map st.1 (TopElement g map i) i (hne _ e0)
      rw [e0] at e1
      have e2 := markAdjacent_keeps g map _ (RightElement g map n i) i (hne _ e1)
      rw [e1] at e2
      have e3 := markAdjacent_keeps g map _ (BottomElement g map n i) i (hne _ e2)
      rw [e2] at e3
      have e4 := markAdjacent_keeps g map _ (LeftElement g map i) i (hne _ e3)
      rw [e3] at e4
      rw [← hp4]; exact e4
    have c0 := count_wr g.mark p4 i 2 0 h0 (by rw [hlen]; exact h1)
    have c1 := count_wr g.mark p4 i 2 1 h0 (by rw [hlen]; exact h1)
    rw [hi] at c0 c1
    simp at c0 c1
    have hw : pathWork (wr p4 i REACHABLE) < pathWork st.1 := by
      unfold pathWork UNCHECKED UNCHECKEDAROUND at hwork ⊢
      unfold REACHABLE
      omega
    refine ⟨by rw [length_wr, hlen], le_of_lt hw, fun _ => Or.inr hw, fun h => ?_⟩
    exact Bool.noConfusion h
  · rw [if_neg hc]
    exact ⟨rfl, le_refl _, fun h => Or.inl h, fun h => h⟩

theorem scanFold_spec (g : Stray) (map : List Int) (n : Int) (path : List Int) :
    ∀ (m : Nat), m ≤ path.length →
      ((List.range m).foldl (fun (st : List Int × Bool) (i : Nat) => scanCell g map n st (i : Int)) (path, true)).1.length =
          path.length ∧
        pathWork ((List.range m).foldl (fun (st : List Int × Bool) (i : Nat) => scanCell g map n st (i : Int))
          (path, true)).1 ≤ pathWork path ∧
        (((List.range m).foldl (fun (st : List Int × Bool) (i : Nat) => scanCell g map n st (i : Int)) (path, true)).2 =
            false →
          pathWork ((List.range m).foldl (fun (st : List Int × Bool) (i : Nat) => scanCell g map n st (i : Int))
            (path, true)).1 < pathWork path) := by
  intro m
  induction m with
  | zero =>
    intro _
    exact ⟨rfl, le_refl _, fun h => Bool.noConfusion h⟩
  | succ m ih =>
    intro hm
    obtain ⟨l1, w1, f1⟩ := ih (by omega)
    rw [List.range_succ, List.foldl_append]
    simp only [List.foldl_cons, List.foldl_nil]
    generalize (List.range m).foldl (fun (st : List Int × Bool) (i : Nat) => scanCell g map n st (i : Int)) (path, true) = st
      at l1 w1 f1 ⊢
    obtain ⟨l2, w2, f2, _⟩ := scanCell_spec g map n st (m : Int) (by omega) (by omega)
    refine ⟨by rw [l2, l1], le_trans w2 w1, fun h => ?_⟩
    rcases f2 h with h2 | h2
    · exact lt_of_le_of_lt w2 (f1 h2)
    · exact lt_of_lt_of_le h2 w1

theorem scanPass_spec (g : Stray) (map : List Int) (n : Int) (path : List Int)
    (hl : path.length = n.toNat) :
    (scanPass g map n path).1.length = path.length ∧
      ((scanPass g map n path).2 = false →
        pathWork (scanPass g map n path).1 < pathWork path) := by
  obtain ⟨h1, _, h3⟩ := scanFold_spec g map n path n.toNat (by omega)
  exact ⟨h1, h3⟩

/-- With fuel above the work left, the loop of `CheckPathExists` ends by its
own test. -/
theorem pathLoop_isSome (g : Stray) (map : List Int) (n destination : Int) :
    ∀ (fuel : Nat) (path : List Int) (ca r : Bool), path.length = n.toNat →
      (pathWork path + 1 ≤ fuel ∨ ca = true ∨ r = true) →
      (pathLoop g map n destination fuel path ca r).isSome = true := by
  intro fuel
  induction fuel with
  | zero =>
    intro path ca r _ h
    rw [pathLoop_zero]
    rcases h with h | h | h
    · omega
    · rw [if_neg (by rw [h]; simp)]; rfl
    · rw [if_neg (by rw [h]; simp)]; rfl
  | succ k ih =>
    intro path ca r hl h
    rw [pathLoop_succ]
    by_cases hc : ca = false ∧ r = false
    · rw [if_pos hc]
      obtain ⟨l1, w1⟩ := scanPass_spec g map n path hl
      apply ih _ _ _ (by rw [l1]; exact hl)
      by_cases hf : (scanPass g map n path).2 = true
      · right; left; exact hf
      · left
        have := w1 (by simpa using hf)
        rcases h with h | h | h
        · omega
        · rw [h] at hc; exact absurd hc.1 (by simp)
        · rw [h] at hc; exact absurd hc.2 (by simp)
    · rw [if_neg hc]; rfl

theorem pathWork_le (path : List Int) : pathWork path ≤ 2 * path.length := by
  unfold pathWork UNCHECKED UNCHECKEDAROUND
  have h : path.count 0 + path.count 1 ≤ path.length := by
    induction path with
    | nil => simp
    | cons x xs ih =>
      simp only [List.count_cons, List.length_cons]
      by_cases h0 : x = 0
      · subst h0; simp; omega
      · by_cases h1 : x = 1
        · subst h1; simp; omega
        · simp [h0, h1]; omega
  omega

/-- The loop `while (!checked_all && !reachable)` of `CheckPathExists` ends
within `pathFuel n` passes: the value of `CheckPathExists` is the value the
loop returns. -/
theorem CheckPathExists_total (g : Stray) (map : List Int) (n origin destination : Int) :
    pathLoop g map n destination (pathFuel n)
        (wr (List.replicate n.toNat 0) origin UNCHECKEDAROUND) false false =
      some (CheckPathExists g map n origin destination) := by
  have hl : (wr (List.replicate n.toNat 0) origin UNCHECKEDAROUND).length = n.toNat := by
    rw [length_wr, List.length_replicate]
  have hw := pathWork_le (wr (List.replicate n.toNat 0) origin UNCHECKEDAROUND)
  rw [hl] at hw
  have hs := pathLoop_isSome g map n destination (pathFuel n) _ false false hl
    (Or.inl (by unfold pathFuel; omega))
  unfold CheckPathExists
  simp only
  obtain ⟨v, hv⟩ := Option.isSome_iff_exists.mp hs
  rw [hv]; rfl

/-! ## Neighbours of any cell of the buffer -/

theorem rd_eq_getD (s : Int → Int) (a : List Int) (i : Int) (h0 : 0 ≤ i) (h1 : i < a.length) :
    rd s a i = a.getD i.toNat 0 := rd_inside s a i h0 h1

theorem TopElement_bounds (g : Stray) (map : List Int) (i : Int) (h0 : 0 ≤ i) :
    TopElement g map i = -1 ∨ (0 ≤ TopElement g map i ∧ TopElement g map i < i) := by
  obtain ⟨p1, p2, _, _, _⟩ := FindPrevNewline_spec g map i
  obtain ⟨q1, q2, q3, _, _⟩ := FindPrevNewline_spec g map (FindPrevNewline g map i - 1)
  have hp := p2 (by omega)
  unfold TopElement
  simp only
  split
  · rename_i hc
    by_cases h : FindPrevNewline g map (FindPrevNewline g map i - 1) +
        (i - FindPrevNewline g map i) = -1
    · left; exact h
    · right; omega
  · left; rfl

theorem BottomElement_bounds (g : Stray) (map : List Int) (n i : Int) (h0 : 0 ≤ i)
    (h1 : i < n) :
    BottomElement g map n i = -1 ∨ (i ≤ BottomElement g map n i ∧ BottomElement g map n i < n) := by
  obtain ⟨p1, p2, _, _, p4⟩ := FindPrevNewline_spec g map i
  obtain ⟨a1, a2, _, a3, _⟩ := FindNextNewline_spec g map n i
  obtain ⟨b1, b2, b5, _, _⟩ := FindNextNewline_spec g map n (FindNextNewline g map n i + 1)
  have ha := a2 (by omega)
  have hcol : FindPrevNewline g map i = i → FindNextNewline g map n i = i := by
    intro h
    by_contra hne
    have hnl := p4 (by omega)
    rw [h] at hnl
    exact a3 i (le_refl _) (by omega) hnl
  unfold BottomElement
  simp only
  split
  · rename_i hc
    right
    by_cases hN : FindNextNewline g map n i + 1 ≤ n
    · have := b2 hN; omega
    · have := b5 (by omega)
      by_cases hcz : FindPrevNewline g map i = i
      · have := hcol hcz; omega
      · omega
  · left; rfl

theorem RightElement_bounds (g : Stray) (map : List Int) (n i : Int) (h0 : 0 ≤ i) :
    RightElement g map n i = -1 ∨ (0 ≤ RightElement g map n i ∧ RightElement g map n i < n) := by
  unfold RightElement
  split
  · rename_i hc; right; omega
  · left; rfl

theorem LeftElement_bounds (g : Stray) (map : List Int) (i n : Int) (h1 : i < n) :
    LeftElement g map i = -1 ∨ (0 ≤ LeftElement g map i ∧ LeftElement g map i < n) := by
  unfold LeftElement
  split
  · rename_i hc; right; omega
  · left; rfl

/-! ## One cell of a pass, label by label -/

/-- Label written by `markAdjacent` on an `UNCHECKED` neighbour with symbol `x`. -/
theorem markAdjacent_rd (g : Stray) (map path : List Int) (a j : Int) (j0 : 0 ≤ j)
    (j1 : j < path.length) :
    rd g.mark (markAdjacent g map path a) j =
      if a = j ∧ rd g.mark path j = 0 then
        (if IsSymbolValid (rd g.cell map j) = true then 1 else 3)
      else rd g.mark path j := by
  unfold markAdjacent UNCHECKEDAROUND UNREACHABLE
  by_cases haj : a = j
  · subst haj
    have hne : a ≠ -1 := by omega
    by_cases hz : rd g.mark path a = 0
    · by_cases hv : IsSymbolValid (rd g.cell map a) = true
      · simp [hne, hz, hv, rd_wr, j0, j1]
      · simp [hne, hz, hv, rd_wr, j0, j1]
    · simp [hz]
  · have hja : j ≠ a := fun h => haj h.symm
    by_cases hc : a ≠ -1 ∧ rd g.mark path a = 0
    · by_cases hv : IsSymbolValid (rd g.cell map a) = true
      · simp [hc, hv, haj, hja, rd_wr]
      · simp [hc, hv, haj, hja, rd_wr]
    · rw [if_neg hc]; simp [haj]

/-- The four `markAdjacent` of one cell: an `UNCHECKED` cell that is one of the
four neighbours gets `UNCHECKEDAROUND` or `UNREACHABLE` according to its
symbol, every other label stays. -/
theorem markAdjacent4_rd (g : Stray) (map path : List Int) (a0 a1 a2 a3 j : Int) (j0 : 0 ≤ j)
    (j1 : j < path.length) :
    rd g.mark (markAdjacent g map (markAdjacent g map (markAdjacent g map
        (markAdjacent g map path a0) a1) a2) a3) j =
      if (a0 = j ∨ a1 = j ∨ a2 = j ∨ a3 = j) ∧ rd g.mark path j = 0 then
        (if IsSymbolValid (rd g.cell map j) = true then 1 else 3)
      else rd g.mark path j := by
  have l1 : (markAdjacent g map path a0).length = path.length := markAdjacent_length _ _ _ _
  have l2 : (markAdjacent g map (markAdjacent g map path a0) a1).length = path.length := by
    rw [markAdjacent_length, l1]
  have l3 : (markAdjacent g map (markAdjacent g map (markAdjacent g map path a0) a1)
      a2).length = path.length := by
    rw [markAdjacent_length, l2]
  rw [markAdjacent_rd g map _ a3 j j0 (by rw [l3]; exact j1),
    markAdjacent_rd g map _ a2 j j0 (by rw [l2]; exact j1),
    markAdjacent_rd g map _ a1 j j0 (by rw [l1]; exact j1),
    markAdjacent_rd g map _ a0 j j0 j1]
  generalize rd g.mark path j = x
  have hv : (if IsSymbolValid (rd g.cell map j) = true then (1 : Int) else 3) ≠ 0 := by
    split <;> decide
  generalize (if IsSymbolValid (rd g.cell map j) = true then (1 : Int) else 3) = v at hv ⊢
  by_cases hx : x = 0
  · subst hx
    by_cases h0 : a0 = j <;> by_cases h1 : a1 = j <;> by_cases h2 : a2 = j <;>
      by_cases h3 : a3 = j <;> simp [h0, h1, h2, h3, hv]
  · simp [hx]

theorem markAdjacent4_length (g : Stray) (map path : List Int) (a0 a1 a2 a3 : Int) :
    (markAdjacent g map (markAdjacent g map (markAdjacent g map
        (markAdjacent g map path a0) a1) a2) a3).length = path.length := by
  simp only [markAdjacent_length]

/-- Membership among the four neighbours of `i`, `-1` left out. -/
theorem isStep_iff (g : Stray) (map : List Int) (n i j : Int) (j0 : 0 ≤ j) :
    isStep g map n i j ↔
      (TopElement g map i = j ∨ RightElement g map n i = j ∨ BottomElement g map n i = j ∨
        LeftElement g map i = j) := by
  unfold isStep
  constructor
  · intro h; exact h.2
  · intro h; exact ⟨by omega, h⟩

/-- Labels after `scanCell` visited an `UNCHECKEDAROUND` cell `i`. -/
theorem scanCell_rd (g : Stray) (map : List Int) (n : Int) (st : List Int × Bool) (i j : Int)
    (i0 : 0 ≤ i) (i1 : i < st.1.length) (j0 : 0 ≤ j) (j1 : j < st.1.length)
    (hi : rd g.mark st.1 i = UNCHECKEDAROUND) :
    (scanCell g map n st i).2 = false ∧
      rd g.mark (scanCell g map n st i).1 j =
        if j = i then 2
        else if isStep g map n i j ∧ rd g.mark st.1 j = 0 then
          (if IsSymbolValid (rd g.cell map j) = true then 1 else 3)
        else rd g.mark st.1 j := by
  unfold scanCell
  rw [if_pos hi]
  simp only
  refine ⟨trivial, ?_⟩
  unfold REACHABLE
  rw [rd_wr, markAdjacent4_length, markAdjacent4_rd g map st.1 _ _ _ _ j j0 j1]
  by_cases hji : j = i
  · rw [if_pos ⟨hji, i0, i1⟩, if_pos hji]
  · rw [if_neg (fun h => hji h.1), if_neg hji]
    simp only [isStep_iff g map n i j j0]

theorem scanCell_skip (g : Stray) (map : List Int) (n : Int) (st : List Int × Bool) (i : Int)
    (hi : rd g.mark st.1 i ≠ UNCHECKEDAROUND) : scanCell g map n st i = st := by
  unfold scanCell
  rw [if_neg hi]

theorem scanCell_length (g : Stray) (map : List Int) (n : Int) (st : List Int × Bool) (i : Int) :
    (scanCell g map n st i).1.length = st.1.length := by
  unfold scanCell
  split
  · simp only [length_wr, markAdjacent_length]
  · rfl

/-! ## One pass over the buffer -/

/-- Induction over the cells visited by one pass. -/
theorem scanFold_induct (g : Stray) (map : List Int) (n : Int) (path : List Int)
    (Q : List Int × Bool → Nat → Prop) (h0 : Q (path, true) 0)
    (hs : ∀ (m : Nat) (st : List Int × Bool), m < path.length → st.1.length = path.length →
      Q st m → Q (scanCell g map n st (m : Int)) (m + 1)) :
    ∀ (k : Nat), k ≤ path.length →
      Q ((List.range k).foldl
          (fun (st : List Int × Bool) (i : Nat) => scanCell g map n st (i : Int)) (path, true)) k ∧
        ((List.range k).foldl
          (fun (st : List Int × Bool) (i : Nat) => scanCell g map n st (i : Int))
          (path, true)).1.length = path.length := by
  intro k
  induction k with
  | zero => intro _; exact ⟨h0, rfl⟩
  | succ k ih =>
    intro hk
    obtain ⟨q, l⟩ := ih (by omega)
    rw [List.range_succ, List.foldl_append]
    simp only [List.foldl_cons, List.foldl_nil]
    exact ⟨hs k _ (by omega) l q, by rw [scanCell_length, l]⟩

/-- A pass keeps the labels `REACHABLE` and `UNREACHABLE`; when it leaves
`checked_all` true it has changed nothing and there is no `UNCHECKEDAROUND`
cell; when it leaves `checked_all` false it has turned a cell that was
`UNCHECKEDAROUND` at its start into `REACHABLE`. -/
theorem scanPass_labels (g : Stray) (map : List Int) (n : Int) (path : List Int)
    (hl : path.length = n.toNat) :
    (∀ j, 0 ≤ j → j < n → rd g.mark path j = REACHABLE →
        rd g.mark (scanPass g map n path).1 j = REACHABLE) ∧
      (∀ j, 0 ≤ j → j < n → rd g.mark path j = UNREACHABLE →
        rd g.mark (scanPass g map n path).1 j = UNREACHABLE) ∧
      ((scanPass g map n path).2 = true →
        (scanPass g map n path).1 = path ∧
          ∀ j, 0 ≤ j → j < n → rd g.mark path j ≠ UNCHECKEDAROUND) ∧
      ((scanPass g map n path).2 = false →
        ∃ i, 0 ≤ i ∧ i < n ∧ rd g.mark path i = UNCHECKEDAROUND ∧
          rd g.mark (scanPass g map n path).1 i = REACHABLE) := by
  have key := scanFold_induct g map n path
    (fun st m =>
      (∀ j, 0 ≤ j → j < n → rd g.mark path j = REACHABLE → rd g.mark st.1 j = REACHABLE) ∧
      (∀ j, 0 ≤ j → j < n → rd g.mark path j = UNREACHABLE → rd g.mark st.1 j = UNREACHABLE) ∧
      (st.2 = true → st.1 = path ∧
        ∀ j : Int, 0 ≤ j → j < (m : Int) → rd g.mark path j ≠ UNCHECKEDAROUND) ∧
      (st.2 = false →
        ∃ i, 0 ≤ i ∧ i < n ∧ rd g.mark path i = UNCHECKEDAROUND ∧
          rd g.mark st.1 i = REACHABLE))
    ⟨fun _ _ _ h => h, fun _ _ _ h => h,
      fun _ => ⟨rfl, fun j j0 j1 => by omega⟩, fun h => Bool.noConfusion h⟩
    (by
      intro m st hm hlen ⟨q2, q3, qt, qf⟩
      by_cases hc : rd g.mark st.1 (m : Int) = UNCHECKEDAROUND
      · have hrd := fun j j0 j1 => (scanCell_rd g map n st (m : Int) j (by omega)
          (by rw [hlen]; omega) j0 j1 hc)
        have hflag := (scanCell_rd g map n st (m : Int) 0 (by omega)
          (by rw [hlen]; omega) (le_refl _) (by rw [hlen]; omega) hc).1
        have hm1 : rd g.mark st.1 (m : Int) = 1 := hc
        refine ⟨?_, ?_, ?_, ?_⟩
        · intro j j0 j1 hj
          have h2 : rd g.mark st.1 j = 2 := q2 j j0 j1 hj
          rw [(hrd j j0 (by rw [hlen]; omega)).2]
          unfold REACHABLE
          by_cases hjm : j = (m : Int)
          · rw [if_pos hjm]
          · rw [if_neg hjm, if_neg (fun h => by rw [h2] at h; exact absurd h.2 (by decide)), h2]
        · intro j j0 j1 hj
          have h3 : rd g.mark st.1 j = 3 := q3 j j0 j1 hj
          rw [(hrd j j0 (by rw [hlen]; omega)).2]
          unfold UNREACHABLE
          have hjm : j ≠ (m : Int) := by
            intro h; rw [h, hm1] at h3; exact absurd h3 (by decide)
          rw [if_neg hjm, if_neg (fun h => by rw [h3] at h; exact absurd h.2 (by decide)), h3]
        · intro h; rw [hflag] at h; exact Bool.noConfusion h
        · intro _
          by_cases hst : st.2 = true
          · obtain ⟨e, _⟩ := qt hst
            refine ⟨(m : Int), by omega, by omega, by rw [← e]; exact hc, ?_⟩
            rw [(hrd (m : Int) (by omega) (by rw [hlen]; omega)).2, if_pos rfl]; rfl
          · obtain ⟨i, i0, i1, hi, hi2⟩ := qf (by simpa using hst)
            refine ⟨i, i0, i1, hi, ?_⟩
            have h2 : rd g.mark st.1 i = 2 := hi2
            rw [(hrd i i0 (by rw [hlen]; omega)).2]
            unfold REACHABLE
            by_cases him : i = (m : Int)
            · rw [if_pos him]
            · rw [if_neg him, if_neg (fun h => by rw [h2] at h; exact absurd h.2 (by decide)),
                h2]
      · rw [scanCell_skip g map n st (m : Int) hc]
        refine ⟨q2, q3, ?_, qf⟩
        intro hst
        obtain ⟨e, hno⟩ := qt hst
        refine ⟨e, fun j j0 j1 => ?_⟩
        by_cases hjm : j = (m : Int)
        · rw [hjm, ← e]; exact hc
        · exact hno j j0 (by omega))
    n.toNat (by omega)
  obtain ⟨⟨k2, k3, kt, kf⟩, _⟩ := key
  refine ⟨k2, k3, ?_, kf⟩
  intro h
  obtain ⟨e, hno⟩ := kt h
  exact ⟨e, fun j j0 j1 => hno j j0 (by omega)⟩

/-- More fuel does not change what the loop returns. -/
theorem pathLoop_mono (g : Stray) (map : List Int) (n destination : Int) :
    ∀ (fuel : Nat) (path : List Int) (ca r v : Bool),
      pathLoop g map n destination fuel path ca r = some v →
      pathLoop g map n destination (fuel + 1) path ca r = some v := by
  intro fuel
  induction fuel with
  | zero =>
    intro path ca r v h
    rw [pathLoop_zero] at h
    rw [pathLoop_succ]
    by_cases hc : ca = false ∧ r = false
    · rw [if_pos hc] at h; exact Option.noConfusion h
    · rw [if_neg hc] at h ⊢; exact h
  | succ k ih =>
    intro path ca r v h
    rw [pathLoop_succ] at h
    rw [pathLoop_succ]
    by_cases hc : ca = false ∧ r = false
    · rw [if_pos hc] at h ⊢; exact ih _ _ _ _ h
    · rw [if_neg hc] at h ⊢; exact h

theorem pathLoop_mono_le (g : Stray) (map : List Int) (n destination : Int)
    (fuel extra : Nat) (path : List Int) (ca r v : Bool)
    (h : pathLoop g map n destination fuel path ca r = some v) :
    pathLoop g map n destination (fuel + extra) path ca r = some v := by
  induction extra with
  | zero => exact h
  | succ e ih => exact pathLoop_mono g map n destination (fuel + e) path ca r v ih

/-! ## Walks and the labels of the flood fill -/

theorem isStep_range (g : Stray) (map : List Int) (n i j : Int) (i0 : 0 ≤ i) (i1 : i < n)
    (h : isStep g map n i j) : 0 ≤ j ∧ j < n := by
  obtain ⟨hne, h | h | h | h⟩ := h
  · have := TopElement_bounds g map i i0; rw [h] at this; omega
  · have := RightElement_bounds g map n i i0; rw [h] at this; omega
  · have := BottomElement_bounds g map n i i0 i1; rw [h] at this; omega
  · have := LeftElement_bounds g map i n i1; rw [h] at this; omega

theorem isWalk_append (g : Stray) (map : List Int) (n : Int) :
    ∀ (cs : List Int) (a b c : Int) (ds : List Int),
      isWalk g map n a cs b → isWalk g map n b ds c → isWalk g map n a (cs ++ ds) c := by
  intro cs
  induction cs with
  | nil =>
    intro a b c ds h1 h2
    unfold isWalk at h1
    rw [h1]; exact h2
  | cons c1 rest ih =>
    intro a b c ds h1 h2
    unfold isWalk at h1
    rw [List.cons_append]
    unfold isWalk
    exact ⟨h1.1, h1.2.1, ih c1 b c ds h1.2.2 h2⟩

theorem isWalk_snoc (g : Stray) (map : List Int) (n : Int) (cs : List Int) (a b c : Int)
    (h : isWalk g map n a cs b) (hs : isStep g map n b c)
    (hv : IsSymbolValid (rd g.cell map c) = true) : isWalk g map n a (cs ++ [c]) c := by
  refine isWalk_append g map n cs a b c [c] h ?_
  unfold isWalk
  refine ⟨hs, hv, ?_⟩
  unfold isWalk
  rfl

/-- Every cell of a walk after its start holds a walkable symbol. -/
theorem isWalk_valid (g : Stray) (map : List Int) (n : Int) :
    ∀ (cs : List Int) (a b : Int), isWalk g map n a cs b →
      ∀ c ∈ cs, IsSymbolValid (rd g.cell map c) = true := by
  intro cs
  induction cs with
  | nil => intro a b _ c hc; exact absurd hc (List.not_mem_nil c)
  | cons c1 rest ih =>
    intro a b h c hc
    unfold isWalk at h
    rcases List.mem_cons.mp hc with e | e
    · rw [e]; exact h.2.1
    · exact ih c1 b h.2.2 c e

/-- The cells of a walk that starts in the buffer are in the buffer. -/
theorem isWalk_range (g : Stray) (map : List Int) (n : Int) :
    ∀ (cs : List Int) (a b : Int), 0 ≤ a → a < n → isWalk g map n a cs b →
      (0 ≤ b ∧ b < n) ∧ ∀ c ∈ cs, 0 ≤ c ∧ c < n := by
  intro cs
  induction cs with
  | nil =>
    intro a b a0 a1 h
    unfold isWalk at h
    exact ⟨by omega, fun c hc => absurd hc (List.not_mem_nil c)⟩
  | cons c1 rest ih =>
    intro a b a0 a1 h
    unfold isWalk at h
    have hr := isStep_range g map n a c1 a0 a1 h.1
    obtain ⟨hb, hc⟩ := ih c1 b hr.1 hr.2 h.2.2
    refine ⟨hb, fun c hm => ?_⟩
    rcases List.mem_cons.mp hm with e | e
    · rw [e]; exact hr
    · exact hc c e

theorem valid_not_newline (x : Int) (h : IsSymbolValid x = true) : x ≠ NEWLINE := by
  rcases (IsSymbolValid_iff x).mp h with e | e | e | e <;> rw [e] <;> decide

/-- A step from a cell that is no row terminator can be taken back. -/
theorem isStep_symm (g : Stray) (map : List Int) (n i j : Int) (i0 : 0 ≤ i) (i1 : i < n)
    (hi : rd g.cell map i ≠ NEWLINE) (h : isStep g map n i j) : isStep g map n j i := by
  obtain ⟨hne, h | h | h | h⟩ := h
  · have hb := (TopElement_range g map n i i0 i1 hi (by rw [h]; exact hne)).2.2.2
    rw [h] at hb
    exact ⟨by omega, Or.inr (Or.inr (Or.inl hb))⟩
  · obtain ⟨a, b, _⟩ := RightElement_range g map n i (by rw [h]; exact hne)
    have e : j - 1 = i := by rw [← h, a]; omega
    refine ⟨by omega, Or.inr (Or.inr (Or.inr ?_))⟩
    unfold LeftElement
    rw [e, if_pos ⟨by omega, hi⟩]
  · have hb := (BottomElement_range g map n i i0 hi (by rw [h]; exact hne)).2.2.2
    rw [h] at hb
    exact ⟨by omega, Or.inl hb⟩
  · obtain ⟨a, b, _⟩ := LeftElement_range g map i (by rw [h]; exact hne)
    have e : j + 1 = i := by rw [← h, a]; omega
    refine ⟨by omega, Or.inr (Or.inl ?_)⟩
    unfold RightElement
    rw [e, if_pos ⟨i1, hi⟩]

/-- A walk between walkable cells can be walked back. -/
theorem isWalk_reverse (g : Stray) (map : List Int) (n : Int) :
    ∀ (cs : List Int) (a b : Int), 0 ≤ a → a < n → IsSymbolValid (rd g.cell map a) = true →
      isWalk g map n a cs b → ∃ ds, isWalk g map n b ds a := by
  intro cs
  induction cs with
  | nil =>
    intro a b _ _ _ h
    unfold isWalk at h
    exact ⟨[], by unfold isWalk; exact h.symm⟩
  | cons c1 rest ih =>
    intro a b a0 a1 hv h
    unfold isWalk at h
    have hr := isStep_range g map n a c1 a0 a1 h.1
    obtain ⟨ds, hds⟩ := ih c1 b hr.1 hr.2 h.2.1 h.2.2
    exact ⟨ds ++ [a], isWalk_snoc g map n ds b c1 a hds
      (isStep_symm g map n a c1 a0 a1 (valid_not_newline _ hv) h.1) hv⟩

theorem rd_replicate (s : Int → Int) (k : Nat) (i : Int) (h0 : 0 ≤ i) (h1 : i < k) :
    rd s (List.replicate k 0) i = 0 := by
  rw [rd_inside s _ i h0 (by rw [List.length_replicate]; exact h1)]
  simp only [List.getD_eq_getElem?_getD, List.getElem?_replicate]
  split <;> rfl

/-- The invariant holds when the loop is entered. -/
theorem pathInv_init (g : Stray) (map : List Int) (n o : Int) (o0 : 0 ≤ o) (o1 : o < n) :
    pathInv g map n o (wr (List.replicate n.toNat 0) o UNCHECKEDAROUND) := by
  have hrd : ∀ j, 0 ≤ j → j < n →
      rd g.mark (wr (List.replicate n.toNat 0) o UNCHECKEDAROUND) j = if j = o then 1 else 0 := by
    intro j j0 j1
    rw [rd_wr, List.length_replicate, rd_replicate g.mark n.toNat j j0 (by omega)]
    unfold UNCHECKEDAROUND
    by_cases hjo : j = o
    · rw [if_pos ⟨hjo, o0, by omega⟩, if_pos hjo]
    · rw [if_neg (fun h => hjo h.1), if_neg hjo]
  refine ⟨by rw [length_wr, List.length_replicate], ?_, ?_, ?_, ?_, ?_⟩
  · intro j j0 j1
    rw [hrd j j0 j1]
    by_cases hjo : j = o
    · rw [if_pos hjo]; right; left; rfl
    · rw [if_neg hjo]; left; rfl
  · rw [hrd o o0 o1, if_pos rfl]; left; rfl
  · intro i i0 i1 h
    rw [hrd i i0 i1] at h
    by_cases hio : i = o
    · exact ⟨[], by unfold isWalk; exact hio.symm⟩
    · rw [if_neg hio] at h; rcases h with h | h <;> exact absurd h (by decide)
  · intro i j i0 i1 h
    rw [hrd i i0 i1] at h
    by_cases hio : i = o
    · rw [if_pos hio] at h; exact absurd h (by decide)
    · rw [if_neg hio] at h; exact absurd h (by decide)
  · intro j j0 j1 h
    rw [hrd j j0 j1] at h
    by_cases hjo : j = o
    · rw [if_pos hjo] at h; exact absurd h (by decide)
    · rw [if_neg hjo] at h; exact absurd h (by decide)

/-! ## The flood fill finds exactly the ends of walks -/

/-- Visiting one cell keeps the invariant. -/
theorem scanCell_inv (g : Stray) (map : List Int) (n o : Int) (st : List Int × Bool) (m : Int)
    (o0 : 0 ≤ o) (o1 : o < n) (m0 : 0 ≤ m) (m1 : m < n) (h : pathInv g map n o st.1) :
    pathInv g map n o (scanCell g map n st m).1 := by
  by_cases hc : rd g.mark st.1 m = UNCHECKEDAROUND
  swap
  · rw [scanCell_skip g map n st m hc]; exact h
  obtain ⟨hl, I2, I4, I3, I5, I6⟩ := h
  have hm1 : rd g.mark st.1 m = 1 := hc
  have hrd : ∀ j, 0 ≤ j → j < n → rd g.mark (scanCell g map n st m).1 j =
      if j = m then 2
      else if isStep g map n m j ∧ rd g.mark st.1 j = 0 then
        (if IsSymbolValid (rd g.cell map j) = true then 1 else 3)
      else rd g.mark st.1 j := fun j j0 j1 =>
    (scanCell_rd g map n st m j m0 (by rw [hl]; omega) j0 (by rw [hl]; omega) hc).2
  refine ⟨by rw [scanCell_length, hl], ?_, ?_, ?_, ?_, ?_⟩
  · intro j j0 j1
    rw [hrd j j0 j1]
    split_ifs
    · right; right; left; rfl
    · right; left; rfl
    · right; right; right; rfl
    · exact I2 j j0 j1
  · rw [hrd o o0 o1]
    split_ifs with a b c
    · right; rfl
    · left; rfl
    · rcases I4 with e | e <;> rw [e] at b <;> exact absurd b.2 (by decide)
    · exact I4
  · intro i i0 i1 hi
    rw [hrd i i0 i1] at hi
    split_ifs at hi with a b c
    · rw [a]; exact I3 m m0 m1 (Or.inl hm1)
    · obtain ⟨cs, hcs⟩ := I3 m m0 m1 (Or.inl hm1)
      exact ⟨cs ++ [i], isWalk_snoc g map n cs o m i hcs b.1 c⟩
    · rcases hi with e | e <;> exact absurd e (by decide)
    · exact I3 i i0 i1 hi
  · intro i j i0 i1 hi hs
    obtain ⟨j0, j1⟩ := isStep_range g map n i j i0 i1 hs
    rw [hrd i i0 i1] at hi
    rw [hrd j j0 j1]
    by_cases him : i = m
    · rw [him] at hs
      split_ifs with a b c
      · decide
      · decide
      · decide
      · intro e; exact b ⟨hs, e⟩
    · rw [if_neg him] at hi
      have hi2 : rd g.mark st.1 i = 2 := by
        split_ifs at hi with b c
        · exact absurd hi (by decide)
        · exact absurd hi (by decide)
        · exact hi
      have hj := I5 i j i0 i1 hi2 hs
      split_ifs with a b c
      · decide
      · decide
      · decide
      · exact hj
  · intro j j0 j1 hj
    rw [hrd j j0 j1] at hj
    split_ifs at hj with a b c
    · exact absurd hj (by decide)
    · exact absurd hj (by decide)
    · simpa using c
    · exact I6 j j0 j1 hj

/-- One pass keeps the invariant. -/
theorem scanPass_inv (g : Stray) (map : List Int) (n o : Int) (path : List Int)
    (o0 : 0 ≤ o) (o1 : o < n) (h : pathInv g map n o path) :
    pathInv g map n o (scanPass g map n path).1 := by
  have key := scanFold_induct g map n path (fun st _ => pathInv g map n o st.1) h
    (by
      intro m st hm _ q
      exact scanCell_inv g map n o st (m : Int) o0 o1 (by omega) (by have := h.1; omega) q)
    n.toNat (by rw [h.1])
  exact key.1

/-- Once no cell is `UNCHECKEDAROUND`, every end of a walk is `REACHABLE`. -/
theorem pathInv_closed (g : Stray) (map : List Int) (n o : Int) (path : List Int)
    (h : pathInv g map n o path)
    (hno : ∀ j, 0 ≤ j → j < n → rd g.mark path j ≠ UNCHECKEDAROUND) :
    ∀ (cs : List Int) (a d : Int), 0 ≤ a → a < n → rd g.mark path a = 2 →
      isWalk g map n a cs d → rd g.mark path d = 2 := by
  obtain ⟨hl, I2, I4, I3, I5, I6⟩ := h
  intro cs
  induction cs with
  | nil =>
    intro a d _ _ ha hw
    unfold isWalk at hw
    rw [← hw]; exact ha
  | cons c1 rest ih =>
    intro a d a0 a1 ha hw
    unfold isWalk at hw
    obtain ⟨hs, hv, hrest⟩ := hw
    obtain ⟨c0, c1b⟩ := isStep_range g map n a c1 a0 a1 hs
    have h0 := I5 a c1 a0 a1 ha hs
    have h1 := hno c1 c0 c1b
    have h3 : rd g.mark path c1 ≠ 3 := by
      intro e
      have := I6 c1 c0 c1b e
      rw [hv] at this; exact Bool.noConfusion this
    have h2 : rd g.mark path c1 = 2 := by
      rcases I2 c1 c0 c1b with e | e | e | e
      · exact absurd e h0
      · exact absurd e h1
      · exact e
      · exact absurd e h3
    exact ih c1 d c0 c1b h2 hrest

/-- The loop returns `true` exactly when a walk from `o` to `d` exists. -/
theorem pathLoop_walk (g : Stray) (map : List Int) (n o d : Int) (o0 : 0 ≤ o) (o1 : o < n)
    (d0 : 0 ≤ d) (d1 : d < n) :
    ∀ (fuel : Nat) (path : List Int) (ca r v : Bool), pathInv g map n o path →
      (r = true → ∃ cs, isWalk g map n o cs d) →
      (ca = true → r = false → ¬ ∃ cs, isWalk g map n o cs d) →
      pathLoop g map n d fuel path ca r = some v →
      (v = true ↔ ∃ cs, isWalk g map n o cs d) := by
  have hexit : ∀ (path : List Int) (ca r v : Bool),
      (r = true → ∃ cs, isWalk g map n o cs d) →
      (ca = true → r = false → ¬ ∃ cs, isWalk g map n o cs d) →
      ¬ (ca = false ∧ r = false) → some r = some v →
      (v = true ↔ ∃ cs, isWalk g map n o cs d) := by
    intro path ca r v hr hca hc hv
    have e : r = v := Option.some.inj hv
    subst e
    cases r with
    | true => exact ⟨fun _ => hr rfl, fun _ => rfl⟩
    | false =>
      have hcat : ca = true := by
        cases ca with
        | true => rfl
        | false => exact absurd ⟨rfl, rfl⟩ hc
      exact ⟨fun e => Bool.noConfusion e, fun w => absurd w (hca hcat rfl)⟩
  intro fuel
  induction fuel with
  | zero =>
    intro path ca r v _ hr hca hv
    rw [pathLoop_zero] at hv
    by_cases hc : ca = false ∧ r = false
    · rw [if_pos hc] at hv; exact Option.noConfusion hv
    · rw [if_neg hc] at hv; exact hexit path ca r v hr hca hc hv
  | succ k ih =>
    intro path ca r v hinv hr hca hv
    rw [pathLoop_succ] at hv
    by_cases hc : ca = false ∧ r = false
    · rw [if_pos hc] at hv
      refine ih _ _ _ v (scanPass_inv g map n o path o0 o1 hinv) ?_ ?_ hv
      · intro h1
        by_cases hd : rd g.mark path d = REACHABLE
        · exact hinv.2.2.2.1 d d0 d1 (Or.inr hd)
        · rw [if_neg hd, hc.2] at h1; exact Bool.noConfusion h1
      · intro hflag h1 ⟨cs, hw⟩
        have hd : rd g.mark path d ≠ REACHABLE := by
          intro e; rw [if_pos e] at h1; exact Bool.noConfusion h1
        obtain ⟨_, _, ht, _⟩ := scanPass_labels g map n path hinv.1
        obtain ⟨_, hno⟩ := ht hflag
        have ho2 : rd g.mark path o = 2 := by
          rcases hinv.2.2.1 with e | e
          · exact absurd e (hno o o0 o1)
          · exact e
        exact hd (pathInv_closed g map n o path hinv hno cs o d o0 o1 ho2 hw)
    · rw [if_neg hc] at hv; exact hexit path ca r v hr hca hc hv

/-- `CheckPathExists` returns `true` exactly when a walk exists. -/
theorem CheckPathExists_iff_walk (g : Stray) (map : List Int) (n o d : Int) (o0 : 0 ≤ o)
    (o1 : o < n) (d0 : 0 ≤ d) (d1 : d < n) :
    CheckPathExists g map n o d = true ↔ ∃ cs, isWalk g map n o cs d :=
  pathLoop_walk g map n o d o0 o1 d0 d1 (pathFuel n) _ false false _
    (pathInv_init g map n o o0 o1) (fun h => Bool.noConfusion h) (fun h => Bool.noConfusion h)
    (CheckPathExists_total g map n o d)

/-! ## Rows and columns -/

theorem rowOf_nl (map : List Int) (q : Nat) (h : map.getD q 0 = NEWLINE) :
    rowOf map (q + 1) = rowOf map q + 1 := by
  show (if map.getD q 0 = NEWLINE then rowOf map q + 1 else rowOf map q) = _
  rw [if_pos h]

theorem rowOf_other (map : List Int) (q : Nat) (h : map.getD q 0 ≠ NEWLINE) :
    rowOf map (q + 1) = rowOf map q := by
  show (if map.getD q 0 = NEWLINE then rowOf map q + 1 else rowOf map q) = _
  rw [if_neg h]

theorem colOf_nl (map : List Int) (q : Nat) (h : map.getD q 0 = NEWLINE) :
    colOf map (q + 1) = 0 := by
  show (if map.getD q 0 = NEWLINE then 0 else colOf map q + 1) = _
  rw [if_pos h]

theorem colOf_other (map : List Int) (q : Nat) (h : map.getD q 0 ≠ NEWLINE) :
    colOf map (q + 1) = colOf map q + 1 := by
  show (if map.getD q 0 = NEWLINE then 0 else colOf map q + 1) = _
  rw [if_neg h]

theorem rowOf_mono (map : List Int) (q : Nat) : ∀ k, q ≤ k → rowOf map q ≤ rowOf map k := by
  intro k
  induction k with
  | zero => intro h; have : q = 0 := by omega
            rw [this]
  | succ k ih =>
    intro h
    by_cases hq : q = k + 1
    · rw [hq]
    · have := ih (by omega)
      by_cases hnl : map.getD k 0 = NEWLINE
      · rw [rowOf_nl map k hnl]; omega
      · rw [rowOf_other map k hnl]; exact this

/-- Without a row terminator in `[q, k)` the row stays and the column grows. -/
theorem rowOf_colOf_eq (map : List Int) (q : Nat) :
    ∀ k, q ≤ k → (∀ j, q ≤ j → j < k → map.getD j 0 ≠ NEWLINE) →
      rowOf map k = rowOf map q ∧ colOf map k = colOf map q + (k - q) := by
  intro k
  induction k with
  | zero =>
    intro h _
    have : q = 0 := by omega
    rw [this]; exact ⟨rfl, rfl⟩
  | succ k ih =>
    intro h hj
    by_cases hq : q = k + 1
    · rw [hq]; exact ⟨rfl, by omega⟩
    · obtain ⟨r1, c1⟩ := ih (by omega) (fun j a b => hj j a (by omega))
      have hnl := hj k (by omega) (by omega)
      rw [rowOf_other map k hnl, colOf_other map k hnl]
      exact ⟨r1, by omega⟩

/-- The cells of one row: `[a, b)` holds no row terminator, starts at the
buffer start or after a terminator, and ends at the buffer end or at a
terminator. A cell is in the row of `a` exactly when it is in `[a, b)`, and
then its column is its distance from `a`. -/
theorem row_frame (map : List Int) (a b : Nat) (hab : a ≤ b)
    (hin : ∀ j, a ≤ j → j < b → map.getD j 0 ≠ NEWLINE)
    (hstart : a = 0 ∨ map.getD (a - 1) 0 = NEWLINE)
    (hstop : b = map.length ∨ map.getD b 0 = NEWLINE) :
    colOf map a = 0 ∧
    ∀ j, j < map.length → map.getD j 0 ≠ NEWLINE →
      ((rowOf map j = rowOf map a ↔ a ≤ j ∧ j < b) ∧ (a ≤ j → j < b → colOf map j = j - a)) := by
  have hc0 : colOf map a = 0 := by
    rcases hstart with e | e
    · rw [e]; rfl
    · by_cases ha : a = 0
      · rw [ha]; rfl
      · have : a = (a - 1) + 1 := by omega
        rw [this]; exact colOf_nl map (a - 1) e
  refine ⟨hc0, ?_⟩
  intro j hj hnl
  constructor
  · constructor
    · intro hr
      constructor
      · by_contra hlt
        have ha : a = (a - 1) + 1 := by omega
        have e : map.getD (a - 1) 0 = NEWLINE := by
          rcases hstart with e | e
          · omega
          · exact e
        have h1 := rowOf_mono map j (a - 1) (by omega)
        have h2 := rowOf_nl map (a - 1) e
        rw [← ha] at h2
        omega
      · by_contra hge
        have e : map.getD b 0 = NEWLINE := by
          rcases hstop with e | e
          · omega
          · exact e
        have hjb : j ≠ b := by intro h; rw [h] at hnl; exact hnl e
        have h1 := rowOf_mono map (b + 1) j (by omega)
        have h2 := rowOf_nl map b e
        have h3 := (rowOf_colOf_eq map a b hab hin).1
        omega
    · intro ⟨h1, h2⟩
      exact (rowOf_colOf_eq map a j h1 (fun i x y => hin i x (by omega))).1
  · intro h1 h2
    have := (rowOf_colOf_eq map a j h1 (fun i x y => hin i x (by omega))).2
    omega

theorem cellAt_none (map : List Int) (r c : Nat)
    (h : ∀ j, j < map.length → map.getD j 0 ≠ NEWLINE → rowOf map j = r → colOf map j ≠ c) :
    cellAt map r c = -1 := by
  unfold cellAt
  have : (List.range map.length).find?
      (fun j => decide (map.getD j 0 ≠ NEWLINE ∧ rowOf map j = r ∧ colOf map j = c)) = none := by
    rw [List.find?_eq_none]
    intro j hj hp
    have hp2 := of_decide_eq_true hp
    exact h j (List.mem_range.mp hj) hp2.1 hp2.2.1 hp2.2.2
  rw [this]

theorem cellAt_some (map : List Int) (r c j : Nat) (hj : j < map.length)
    (hnl : map.getD j 0 ≠ NEWLINE) (hr : rowOf map j = r) (hc : colOf map j = c)
    (huniq : ∀ k, k < map.length → map.getD k 0 ≠ NEWLINE → rowOf map k = r →
      colOf map k = c → k = j) :
    cellAt map r c = (j : Int) := by
  unfold cellAt
  cases hf : (List.range map.length).find?
      (fun j => decide (map.getD j 0 ≠ NEWLINE ∧ rowOf map j = r ∧ colOf map j = c)) with
  | none =>
    rw [List.find?_eq_none] at hf
    exact absurd (decide_eq_true (⟨hnl, hr, hc⟩ :
      map.getD j 0 ≠ NEWLINE ∧ rowOf map j = r ∧ colOf map j = c))
      (hf j (List.mem_range.mpr hj))
  | some k =>
    have hk := List.mem_range.mp (List.mem_of_find?_eq_some hf)
    have hp0 := List.find?_some hf
    have hp := of_decide_eq_true hp0
    show (k : Int) = (j : Int)
    rw [huniq k hk hp.1 hp.2.1 hp.2.2]

/-- The cell at column `c` of the row framed by `a` and `b`. -/
theorem cellAt_frame (map : List Int) (a b : Nat) (hab : a ≤ b) (hb : b ≤ map.length)
    (hin : ∀ j, a ≤ j → j < b → map.getD j 0 ≠ NEWLINE)
    (hstart : a = 0 ∨ map.getD (a - 1) 0 = NEWLINE)
    (hstop : b = map.length ∨ map.getD b 0 = NEWLINE) (c : Nat) :
    cellAt map (rowOf map a) c = if a + c < b then ((a + c : Nat) : Int) else -1 := by
  obtain ⟨hc0, hf⟩ := row_frame map a b hab hin hstart hstop
  by_cases h : a + c < b
  · rw [if_pos h]
    have hnl := hin (a + c) (by omega) h
    obtain ⟨f1, f2⟩ := hf (a + c) (by omega) hnl
    refine cellAt_some map _ c (a + c) (by omega) hnl (f1.mpr ⟨by omega, h⟩)
      (by rw [f2 (by omega) h]; omega) ?_
    intro k hk hknl hkr hkc
    obtain ⟨g1, g2⟩ := hf k hk hknl
    obtain ⟨k1, k2⟩ := g1.mp hkr
    have := g2 k1 k2
    omega
  · rw [if_neg h]
    apply cellAt_none
    intro k hk hknl hkr hkc
    obtain ⟨g1, g2⟩ := hf k hk hknl
    obtain ⟨k1, k2⟩ := g1.mp hkr
    have := g2 k1 k2
    omega

/-! ## The row terminators found by the code frame the rows -/

theorem rd_nat (s : Int → Int) (a : List Int) (j : Nat) (h : j < a.length) :
    rd s a (j : Int) = a.getD j 0 := by
  rw [rd_inside s a (j : Int) (by omega) (by omega), Int.toNat_ofNat]

/-- What `FindNextNewline` returns from a position of the buffer. -/
theorem next_frame (g : Stray) (map : List Int) (n : Int) (hn : n = map.length) (a : Nat)
    (ha : a ≤ map.length) :
    ∃ m : Nat, FindNextNewline g map n (a : Int) = (m : Int) ∧ a ≤ m ∧ m ≤ map.length ∧
      (∀ j, a ≤ j → j < m → map.getD j 0 ≠ NEWLINE) ∧
      (m = map.length ∨ map.getD m 0 = NEWLINE) := by
  obtain ⟨k0, k1, _, k2, k3⟩ := FindNextNewline_spec g map n (a : Int)
  have k1b := k1 (by omega)
  refine ⟨(FindNextNewline g map n (a : Int)).toNat, by omega, by omega, by omega, ?_, ?_⟩
  · intro j j0 j1
    have := k2 (j : Int) (by omega) (by omega)
    rw [rd_nat g.cell map j (by omega)] at this
    exact this
  · by_cases h : FindNextNewline g map n (a : Int) < n
    · right
      have := k3 h
      have e : FindNextNewline g map n (a : Int) =
          ((FindNextNewline g map n (a : Int)).toNat : Int) := by omega
      rw [e, rd_nat g.cell map _ (by omega)] at this
      exact this
    · left; omega

/-- What `FindPrevNewline` returns from the position before `b`. -/
theorem prev_frame (g : Stray) (map : List Int) (b : Nat) (hb : b ≤ map.length) :
    ∃ p : Nat, FindPrevNewline g map ((b : Int) - 1) = (p : Int) - 1 ∧ p ≤ b ∧
      (∀ j, p ≤ j → j < b → map.getD j 0 ≠ NEWLINE) ∧
      (p = 0 ∨ map.getD (p - 1) 0 = NEWLINE) := by
  obtain ⟨k0, k1, _, k2, k3⟩ := FindPrevNewline_spec g map ((b : Int) - 1)
  have k1b := k1 (by omega)
  refine ⟨(FindPrevNewline g map ((b : Int) - 1) + 1).toNat, by omega, by omega, ?_, ?_⟩
  · intro j j0 j1
    have := k2 (j : Int) (by omega) (by omega)
    rw [rd_nat g.cell map j (by omega)] at this
    exact this
  · by_cases h : -1 < FindPrevNewline g map ((b : Int) - 1)
    · right
      have := k3 h
      have e : FindPrevNewline g map ((b : Int) - 1) =
          (((FindPrevNewline g map ((b : Int) - 1) + 1).toNat - 1 : Nat) : Int) := by omega
      rw [e, rd_nat g.cell map _ (by omega)] at this
      exact this
    · left; omega

/-- The row of a cell that is no row terminator, as the code finds it. -/
theorem cell_frame (g : Stray) (map : List Int) (n : Int) (hn : n = map.length) (k : Nat)
    (hk : k < map.length) (hnl : map.getD k 0 ≠ NEWLINE) :
    ∃ p m : Nat, FindPrevNewline g map (k : Int) = (p : Int) - 1 ∧
      FindNextNewline g map n (k : Int) = (m : Int) ∧ p ≤ k ∧ k < m ∧ m ≤ map.length ∧
      (∀ j, p ≤ j → j < m → map.getD j 0 ≠ NEWLINE) ∧
      (p = 0 ∨ map.getD (p - 1) 0 = NEWLINE) ∧
      (m = map.length ∨ map.getD m 0 = NEWLINE) ∧
      rowOf map k = rowOf map p ∧ colOf map k + p = k ∧ rowOf map m = rowOf map p := by
  obtain ⟨p, e1, p1, p2, p3⟩ := prev_frame g map (k + 1) (by omega)
  obtain ⟨m, e2, m1, m2, m3, m4⟩ := next_frame g map n hn k (by omega)
  have e1b : FindPrevNewline g map (k : Int) = (p : Int) - 1 := by
    rw [← e1]; congr 1; push_cast; omega
  have hpk : p ≤ k := by
    by_contra h
    have hp : p = k + 1 := by omega
    rcases p3 with e | e
    · omega
    · rw [hp] at e; exact hnl e
  have hkm : k < m := by
    by_contra h
    have hm : m = k := by omega
    rcases m4 with e | e
    · omega
    · rw [hm] at e; exact hnl e
  have hin : ∀ j, p ≤ j → j < m → map.getD j 0 ≠ NEWLINE := by
    intro j j0 j1
    by_cases hj : j < k + 1
    · exact p2 j j0 hj
    · exact m3 j (by omega) j1
  obtain ⟨hc0, _⟩ := row_frame map p m (by omega) hin p3 m4
  obtain ⟨r1, c1⟩ := rowOf_colOf_eq map p k hpk (fun j a b => hin j a (by omega))
  obtain ⟨r2, _⟩ := rowOf_colOf_eq map p m (by omega) hin
  exact ⟨p, m, e1b, e2, hpk, hkm, m2, hin, p3, m4, r1, by omega, r2⟩

/-! ## C1: pushes followed by as many undos -/

/-- C1, as amended: on a board with exactly one player marker and no box letter
twice, any sequence of push commands that name their box by its lower case
letter and carry one of the four direction tokens, followed by an equal number
of undo commands, leaves the buffer equal to the initial buffer and the undo
list empty. -/
theorem push_undo_roundtrip (g : Stray) (map : List Int) (n : Int) (cmds : List (Int × Int))
    (hn : n = map.length) (hwf : WellFormed map)
    (hcmds : ∀ cmd ∈ cmds, isLower cmd.1 ∧ isDirection cmd.2) :
    undoTimes g n cmds.length (pushAll g n (map, []) cmds) = (map, []) := by
  obtain ⟨k, hk, hu⟩ := pushAll_undo g n cmds map [] hn hwf hcmds
  have e : cmds.length = k + (cmds.length - k) := by omega
  rw [e, undoTimes_add, hu, undoTimes_empty]

/-- Instance of C1 as amended: two accepted pushes and a rejected one on a
three-row board, then three undos. -/
theorem push_undo_roundtrip_witness :
    undoTimes quiet 12 3
        (pushAll quiet 12 ([45, 64, 45, 10, 45, 97, 45, 10, 45, 43, 45, 10], [])
          [(97, 50), (97, 54), (98, 54)]) =
      ([45, 64, 45, 10, 45, 97, 45, 10, 45, 43, 45, 10], []) :=
  push_undo_roundtrip quiet [45, 64, 45, 10, 45, 97, 45, 10, 45, 43, 45, 10] 12
    [(97, 50), (97, 54), (98, 54)] (by decide) (by decide) (by decide)

/-- C1 fails for a box named by its upper case letter: on the board
`#####` / `#-C@#` / `#####` the command `C4` is applied and turns the box into
`c`; the undo then looks for `C`, then for `'#'` (`'C' - 32`), and moves the
wall at index 0 instead of the box. -/
theorem push_undo_roundtrip_upper_fails :
    WellFormed [35, 35, 35, 35, 35, 10, 35, 45, 67, 64, 35, 10, 35, 35, 35, 35, 35, 10] ∧
      isUpper 67 ∧ isDirection 52 ∧
      undoTimes quiet 18 1
          (pushAll quiet 18
            ([35, 35, 35, 35, 35, 10, 35, 45, 67, 64, 35, 10, 35, 35, 35, 35, 35, 10], [])
            [(67, 52)]) =
        ([45, 35, 35, 35, 35, 10, 35, 99, 43, 64, 35, 10, 35, 35, 35, 35, 35, 10], []) ∧
      undoTimes quiet 18 1
          (pushAll quiet 18
            ([35, 35, 35, 35, 35, 10, 35, 45, 67, 64, 35, 10, 35, 35, 35, 35, 35, 10], [])
            [(67, 52)]) ≠
        ([35, 35, 35, 35, 35, 10, 35, 45, 67, 64, 35, 10, 35, 35, 35, 35, 35, 10], []) := by
  decide

/-! ## C2: acceptance criterion of a push -/

/-- C2, as amended: on a well-formed board, for a box named by its lower case
letter and each of the four direction tokens, the push branch of `ReadMove`
applies the move (the result is the buffer of `MoveBox` for the box cell and
its destination, and the undo list with one new record) if and only if the
named box exists, its neighbour in the push direction exists and holds a
walkable symbol, and its neighbour in the opposite direction exists and is
reported reachable by `CheckPathExists`; otherwise buffer and undo list are
left as they were. -/
theorem push_applied_iff (g : Stray) (map : List Int) (n : Int) (head : List move_t)
    (c direction : Int) (hn : n = map.length) (hwf : WellFormed map) (hc : isLower c)
    (hdir : isDirection direction) :
    (pushGuard g map n c direction ↔ pushCriterion g map n c direction) ∧
      ReadMove_push g map n head c direction =
        if pushCriterion g map n c direction then
          (MoveBox g map n (boxCell g map n c)
              (FindDestination g map n (boxCell g map n c) direction),
            { playerPos := FindPlayer g map n, boxChar := c, direction := direction } :: head)
        else (map, head) := by
  have hiff := pushGuard_iff_criterion g map n c direction hn hwf hc hdir
  refine ⟨hiff, ?_⟩
  rw [ReadMove_push_eq, pushOrigin_eq_boxCell g map n c hn hwf.2 hc]
  by_cases hg : pushGuard g map n c direction
  · rw [if_pos hg, if_pos (hiff.mp hg)]; rfl
  · rw [if_neg hg, if_neg (fun h => hg (hiff.mpr h))]

/-- Instance of C2 as amended: on `@c-` the command `c6` meets the criterion
and is applied, the command `c4` does not and changes nothing. -/
theorem push_applied_iff_witness :
    ((pushGuard quiet [64, 99, 45, 10] 4 99 54 ↔ pushCriterion quiet [64, 99, 45, 10] 4 99 54) ∧
      ReadMove_push quiet [64, 99, 45, 10] 4 [] 99 54 =
        if pushCriterion quiet [64, 99, 45, 10] 4 99 54 then
          (MoveBox quiet [64, 99, 45, 10] 4 (boxCell quiet [64, 99, 45, 10] 4 99)
              (FindDestination quiet [64, 99, 45, 10] 4 (boxCell quiet [64, 99, 45, 10] 4 99) 54),
            { playerPos := FindPlayer quiet [64, 99, 45, 10] 4, boxChar := 99,
              direction := 54 } :: [])
        else ([64, 99, 45, 10], [])) ∧
      pushCriterion quiet [64, 99, 45, 10] 4 99 54 ∧
      ¬ pushCriterion quiet [64, 99, 45, 10] 4 99 52 :=
  ⟨push_applied_iff quiet [64, 99, 45, 10] 4 [] 99 54 (by decide) (by decide) (by decide)
    (by decide), by decide, by decide⟩

/-- C2 fails for a box named by its upper case letter: on `@c-` the box `c`
exists, its right neighbour is empty floor and its left neighbour is the
player's cell, yet the command `C6` is not applied, because `ReadMove` looks
for `C` and then for `'#'` (`'C' - 32`), never for `c`. -/
theorem push_applied_iff_upper_fails :
    WellFormed [64, 99, 45, 10] ∧ isUpper 67 ∧ isDirection 54 ∧
      pushCriterion quiet [64, 99, 45, 10] 4 67 54 ∧
      ReadMove_push quiet [64, 99, 45, 10] 4 [] 67 54 = ([64, 99, 45, 10], []) := by
  decide

/-! ## C3: counts are invariant under a push -/

/-- C3, as amended: for every board with at least one player marker and every
push command (a letter in either case and one of the four direction tokens),
after the push branch of `ReadMove` the number of cells holding each box
letter, counted in both cases together, is what it was; and when the board has
exactly one player marker, the number of player markers is still 1. -/
theorem push_preserves_counts (g : Stray) (map : List Int) (n : Int) (head : List move_t)
    (c direction : Int) (hn : n = map.length) (hc : isUpper c ∨ isLower c)
    (hdir : isDirection direction) (h1 : 1 ≤ playerCount map) :
    (∀ l ∈ boxLetters,
        boxCount (ReadMove_push g map n head c direction).1 l = boxCount map l) ∧
      (playerCount map = 1 → playerCount (ReadMove_push g map n head c direction).1 = 1) := by
  refine ⟨fun l hl => ?_, fun h => ?_⟩
  · exact push_letter_counts g map n head c direction hn hc hdir h1 l ((mem_boxLetters l).mp hl)
  · exact (push_counts g map n head c direction hn hc hdir h).1

/-- Instance of C3 as amended: the push `a6` on `@a+`, which moves the box onto
the goal and changes its case. -/
theorem push_preserves_counts_witness :
    (ReadMove_push quiet [64, 97, 43, 10] 4 [] 97 54).1 = [45, 64, 65, 10] ∧
      (∀ l ∈ boxLetters,
        boxCount (ReadMove_push quiet [64, 97, 43, 10] 4 [] 97 54).1 l =
          boxCount [64, 97, 43, 10] l) ∧
      (playerCount [64, 97, 43, 10] = 1 →
        playerCount (ReadMove_push quiet [64, 97, 43, 10] 4 [] 97 54).1 = 1) :=
  ⟨by decide,
    push_preserves_counts quiet [64, 97, 43, 10] 4 [] 97 54 (by decide) (by decide) (by decide)
      (by decide)⟩

/-- C3 fails on a board with two player markers: on `@a@` the push `a6` is
accepted, the box moves onto the cell of the second marker, and the number of
player markers goes from 2 to 1. -/
theorem push_counts_two_players :
    isLower 97 ∧ isDirection 54 ∧ playerCount [64, 97, 64, 10] = 2 ∧
      (ReadMove_push quiet [64, 97, 64, 10] 4 [] 97 54).1 = [45, 64, 97, 10] ∧
      playerCount (ReadMove_push quiet [64, 97, 64, 10] 4 [] 97 54).1 = 1 := by
  decide

/-! ## C4: case of the pushed box -/

/-- C4, as amended: for every accepted push of a box named by its lower case
letter on a well-formed board, the destination held a walkable symbol; if it
was a goal cell (`'+'` or `'*'`) the box is written there as the upper case
letter, and if it was plain floor (`'-'` or `'@'`) as the lower case letter. -/
theorem push_goal_encoding (g : Stray) (map : List Int) (n : Int) (head : List move_t)
    (c direction : Int) (hn : n = map.length) (hwf : WellFormed map) (hc : isLower c)
    (hdir : isDirection direction) (hg : pushGuard g map n c direction) :
    IsSymbolValid
        (rd g.cell map (FindDestination g map n (boxCell g map n c) direction)) = true ∧
      (isGoalCell (rd g.cell map (FindDestination g map n (boxCell g map n c) direction)) →
        rd g.cell (ReadMove_push g map n head c direction).1
          (FindDestination g map n (boxCell g map n c) direction) = c - 32) ∧
      (¬ isGoalCell (rd g.cell map (FindDestination g map n (boxCell g map n c) direction)) →
        rd g.cell (ReadMove_push g map n head c direction).1
          (FindDestination g map n (boxCell g map n c) direction) = c) := by
  obtain ⟨o, d, p, b, t, m, M, ho, hd, hp, hb, hm, hpush, hlen, _, _, _, dne, hop, hbc, htv,
    hmv, hdp, hdt, hM⟩ := push_lower_result g map n head c direction hn hwf hc hdir hg
  have hvalid : IsSymbolValid
      (rd g.cell map (FindDestination g map n (boxCell g map n c) direction)) = true := by
    rw [← pushOrigin_eq_boxCell g map n c hn hwf.2 hc]; exact hg.2.2.2
  rw [ho, hd] at hvalid ⊢
  rw [hpush]
  simp only
  have hMd : rd g.cell M d = if t = 43 then c - 32 else c := by
    rw [hM, if_neg dne, if_pos rfl]
  have hgoal : isGoalCell (rd g.cell map d) ↔ t = 43 := by
    unfold isGoalCell PLUS STAR
    by_cases h : d = p
    · rw [h, hm, hdp h]; clear * - hmv; omega
    · rw [hdt h]; clear * - htv; omega
  refine ⟨hvalid, fun h => ?_, fun h => ?_⟩
  · rw [hMd, if_pos (hgoal.mp h)]
  · rw [hMd, if_neg (fun h2 => h (hgoal.mpr h2))]

/-- Instance of C4 as amended: player, box, empty goal in a row and one push to
the right; the box is written on the goal cell as `A`. -/
theorem push_goal_encoding_witness :
    IsSymbolValid
        (rd quiet.cell [64, 97, 43, 10]
          (FindDestination quiet [64, 97, 43, 10] 4 (boxCell quiet [64, 97, 43, 10] 4 97) 54)) =
        true ∧
      (isGoalCell
          (rd quiet.cell [64, 97, 43, 10]
            (FindDestination quiet [64, 97, 43, 10] 4 (boxCell quiet [64, 97, 43, 10] 4 97) 54)) →
        rd quiet.cell (ReadMove_push quiet [64, 97, 43, 10] 4 [] 97 54).1
          (FindDestination quiet [64, 97, 43, 10] 4 (boxCell quiet [64, 97, 43, 10] 4 97) 54) =
          97 - 32) ∧
      (¬ isGoalCell
          (rd quiet.cell [64, 97, 43, 10]
            (FindDestination quiet [64, 97, 43, 10] 4 (boxCell quiet [64, 97, 43, 10] 4 97) 54)) →
        rd quiet.cell (ReadMove_push quiet [64, 97, 43, 10] 4 [] 97 54).1
          (FindDestination quiet [64, 97, 43, 10] 4 (boxCell quiet [64, 97, 43, 10] 4 97) 54) =
          97) :=
  push_goal_encoding quiet [64, 97, 43, 10] 4 [] 97 54 (by decide) (by decide) (by decide)
    (by decide) (by decide)

/-- C4 fails as stated: on `@a+` (player, box, empty goal) the push `a6` is
accepted, the destination cell 2 is a goal cell, and the box is written there
as `A` (65), which is not a lower case letter; pushed from there onto the
plain floor of `@A-` the box is written as `a`, which is not upper case. -/
theorem push_goal_encoding_reversed :
    pushGuard quiet [64, 97, 43, 10] 4 97 54 ∧
      FindDestination quiet [64, 97, 43, 10] 4 (boxCell quiet [64, 97, 43, 10] 4 97) 54 = 2 ∧
      isGoalCell (rd quiet.cell [64, 97, 43, 10] 2) ∧
      rd quiet.cell (ReadMove_push quiet [64, 97, 43, 10] 4 [] 97 54).1 2 = 65 ∧
      ¬ isLower (rd quiet.cell (ReadMove_push quiet [64, 97, 43, 10] 4 [] 97 54).1 2) ∧
      pushGuard quiet [64, 65, 45, 10] 4 97 54 ∧
      ¬ isGoalCell (rd quiet.cell [64, 65, 45, 10] 2) ∧
      ¬ isUpper (rd quiet.cell (ReadMove_push quiet [64, 65, 45, 10] 4 [] 97 54).1 2) := by
  decide

/-! ## C5: which names find the box -/

/-- C5, as amended: on a well-formed board, for every direction token, a push
command that names the box by its lower case letter resolves to the cell of the
box whichever of its two forms the box has; a command that names it by its
upper case letter resolves to the same cell and produces the same buffer when
the box currently has its upper case form; and after an accepted push named by
the lower case letter the search of `UndoMove` finds the box on its destination
cell whichever form it has there. -/
theorem box_name_resolution (g : Stray) (map : List Int) (n : Int) (head : List move_t)
    (c direction : Int) (hn : n = map.length) (hwf : WellFormed map) (hc : isLower c)
    (hdir : isDirection direction) :
    pushOrigin g map n c = boxCell g map n c ∧
      (FindSymbol g map n (c - 32) < n →
        pushOrigin g map n (c - 32) = boxCell g map n c ∧
        (ReadMove_push g map n head (c - 32) direction).1 =
          (ReadMove_push g map n head c direction).1) ∧
      (pushGuard g map n c direction →
        FindSymbol g (ReadMove_push g map n head c direction).1 n
            (resolveSymbol g (ReadMove_push g map n head c direction).1 n c) =
          FindDestination g map n (boxCell g map n c) direction) := by
  have hbox := pushOrigin_eq_boxCell g map n c hn hwf.2 hc
  refine ⟨hbox, fun hu => ?_, fun hg => ?_⟩
  · have e := pushOrigin_upper g map n c hn hwf.2 hc hu
    refine ⟨by rw [e, hbox], ?_⟩
    have hgiff : pushGuard g map n (c - 32) direction ↔ pushGuard g map n c direction := by
      unfold pushGuard; rw [e]
    rw [ReadMove_push_eq, ReadMove_push_eq]
    by_cases hg : pushGuard g map n c direction
    · rw [if_pos hg, if_pos (hgiff.mpr hg), e]
    · rw [if_neg hg, if_neg (fun h => hg (hgiff.mp h))]
  · have hpush := ReadMove_push_eq g map n head c direction
    rw [if_pos hg] at hpush
    rw [hpush, ← hbox]
    exact find_after_push g map n c direction hn hwf hc hdir hg

/-- Instance of C5 as amended: the box `A` on `@A-`, pushed right by `a6` and
by `A6`, and found again by the undo as `a` on cell 2. -/
theorem box_name_resolution_witness :
    pushOrigin quiet [64, 65, 45, 10] 4 97 = boxCell quiet [64, 65, 45, 10] 4 97 ∧
      (FindSymbol quiet [64, 65, 45, 10] 4 (97 - 32) < 4 →
        pushOrigin quiet [64, 65, 45, 10] 4 (97 - 32) = boxCell quiet [64, 65, 45, 10] 4 97 ∧
        (ReadMove_push quiet [64, 65, 45, 10] 4 [] (97 - 32) 54).1 =
          (ReadMove_push quiet [64, 65, 45, 10] 4 [] 97 54).1) ∧
      (pushGuard quiet [64, 65, 45, 10] 4 97 54 →
        FindSymbol quiet (ReadMove_push quiet [64, 65, 45, 10] 4 [] 97 54).1 4
            (resolveSymbol quiet (ReadMove_push quiet [64, 65, 45, 10] 4 [] 97 54).1 4 97) =
          FindDestination quiet [64, 65, 45, 10] 4 (boxCell quiet [64, 65, 45, 10] 4 97) 54) :=
  box_name_resolution quiet [64, 65, 45, 10] 4 [] 97 54 (by decide) (by decide) (by decide)
    (by decide)

/-- C5 fails as stated: on `@c-` the box has its lower case form; the command
`c6` resolves to the box cell 1 and pushes it, the command `C6` resolves to
cell 4, outside the board, and leaves the buffer as it was, so the two
commands do not produce the same buffer. -/
theorem box_name_upper_fails :
    WellFormed [64, 99, 45, 10] ∧ boxCell quiet [64, 99, 45, 10] 4 99 = 1 ∧
      pushOrigin quiet [64, 99, 45, 10] 4 99 = 1 ∧
      pushOrigin quiet [64, 99, 45, 10] 4 67 = 4 ∧
      (ReadMove_push quiet [64, 99, 45, 10] 4 [] 99 54).1 = [45, 64, 99, 10] ∧
      (ReadMove_push quiet [64, 99, 45, 10] 4 [] 67 54).1 = [64, 99, 45, 10] ∧
      (ReadMove_push quiet [64, 99, 45, 10] 4 [] 67 54).1 ≠
        (ReadMove_push quiet [64, 99, 45, 10] 4 [] 99 54).1 := by
  decide

/-! ## C6: goal tiles stay where they are -/

/-- C6, as amended: call a cell a goal tile when it holds `'+'`, `'*'` or an
upper case letter. On a well-formed board every accepted push of a box named
by its lower case letter leaves the set of goal tiles as it was, and so does
the undo of that push, which restores the buffer. -/
theorem goal_tiles_invariant (g : Stray) (map : List Int) (n : Int) (head : List move_t)
    (c direction : Int) (hn : n = map.length) (hwf : WellFormed map) (hc : isLower c)
    (hdir : isDirection direction) (hg : pushGuard g map n c direction) :
    (∀ j, codeGoalTile (rd g.cell (ReadMove_push g map n head c direction).1 j) ↔
        codeGoalTile (rd g.cell map j)) ∧
      (∀ j, codeGoalTile
          (rd g.cell
            (ReadMove_undo g (ReadMove_push g map n head c direction).1 n
              (ReadMove_push g map n head c direction).2).1 j) ↔
        codeGoalTile (rd g.cell (ReadMove_push g map n head c direction).1 j)) := by
  obtain ⟨o, d, p, b, t, m, M, ho, hd, hp, hb, hm, hpush, hlen, _, _, _, dne, hop, hbc, htv,
    hmv, hdp, hdt, hM⟩ := push_lower_result g map n head c direction hn hwf hc hdir hg
  have hcl : 97 ≤ c ∧ c ≤ 122 := hc
  have h1 : ∀ j, codeGoalTile (rd g.cell M j) ↔ codeGoalTile (rd g.cell map j) := by
    intro j
    rw [hM j]
    unfold codeGoalTile isUpper PLUS STAR
    by_cases hjo : j = o
    · rw [if_pos hjo, hjo, hb]; clear * - hcl hbc; split <;> omega
    · rw [if_neg hjo]
      by_cases hjd : j = d
      · rw [if_pos hjd, hjd]
        by_cases h : d = p
        · have := hdp h
          rw [h, hm]; clear * - hcl hmv htv this; split <;> omega
        · rw [hdt h]; clear * - hcl htv; split <;> omega
      · rw [if_neg hjd]
        by_cases hjp : j = p
        · rw [if_pos hjp, hjp, hm]; clear * - hmv; split <;> omega
        · rw [if_neg hjp]
  have hundo : ReadMove_undo g (ReadMove_push g map n head c direction).1 n
      (ReadMove_push g map n head c direction).2 = (map, head) := by
    have hp2 := ReadMove_push_eq g map n head c direction
    rw [if_pos hg] at hp2
    rw [hp2]
    have hu := undo_after_push g map n c direction head hn hwf hc hdir hg
    show ((UndoMove g _ head _ n).2, (UndoMove g _ head _ n).1) = (map, head)
    rw [hu]
  rw [hundo, hpush]
  exact ⟨h1, fun j => (h1 j).symm⟩

/-- Instance of C6 as amended: the push `a6` on `@a+`. -/
theorem goal_tiles_invariant_witness :
    (∀ j, codeGoalTile (rd quiet.cell (ReadMove_push quiet [64, 97, 43, 10] 4 [] 97 54).1 j) ↔
        codeGoalTile (rd quiet.cell [64, 97, 43, 10] j)) ∧
      (∀ j, codeGoalTile
          (rd quiet.cell
            (ReadMove_undo quiet (ReadMove_push quiet [64, 97, 43, 10] 4 [] 97 54).1 4
              (ReadMove_push quiet [64, 97, 43, 10] 4 [] 97 54).2).1 j) ↔
        codeGoalTile (rd quiet.cell (ReadMove_push quiet [64, 97, 43, 10] 4 [] 97 54).1 j)) :=
  goal_tiles_invariant quiet [64, 97, 43, 10] 4 [] 97 54 (by decide) (by decide) (by decide)
    (by decide) (by decide)

/-- C6 fails as stated, with a lower case letter counted as the on-goal form of
a box: on `@a-` the push `a6` is accepted and gives `-@a`; cell 1 was a goal
tile in that sense and is none afterwards, cell 2 was none and is one
afterwards. -/
theorem goal_tiles_spec_fails :
    WellFormed [64, 97, 45, 10] ∧ pushGuard quiet [64, 97, 45, 10] 4 97 54 ∧
      (ReadMove_push quiet [64, 97, 45, 10] 4 [] 97 54).1 = [45, 64, 97, 10] ∧
      specGoalTile (rd quiet.cell [64, 97, 45, 10] 1) ∧
      ¬ specGoalTile (rd quiet.cell (ReadMove_push quiet [64, 97, 45, 10] 4 [] 97 54).1 1) ∧
      ¬ specGoalTile (rd quiet.cell [64, 97, 45, 10] 2) ∧
      specGoalTile (rd quiet.cell (ReadMove_push quiet [64, 97, 45, 10] 4 [] 97 54).1 2) := by
  decide

/-! ## C7: the buffer after an accepted push -/

/-- C7, as amended: on a well-formed board, after an accepted push of a box
named by its lower case letter, the destination cell (neighbour of the box cell
in the push direction) holds the box letter in one of its cases, the old box
cell holds a player marker, the player's previous cell, unless it is the
destination, holds `'-'` if it held `'@'` and `'+'` if it held `'*'`, every other
cell reads as before, and the buffer has the length it had. -/
theorem push_postcondition (g : Stray) (map : List Int) (n : Int) (head : List move_t)
    (c direction : Int) (hn : n = map.length) (hwf : WellFormed map) (hc : isLower c)
    (hdir : isDirection direction) (hg : pushGuard g map n c direction) :
    (rd g.cell (ReadMove_push g map n head c direction).1
          (FindDestination g map n (boxCell g map n c) direction) = c ∨
        rd g.cell (ReadMove_push g map n head c direction).1
          (FindDestination g map n (boxCell g map n c) direction) = c - 32) ∧
      (rd g.cell (ReadMove_push g map n head c direction).1 (boxCell g map n c) = AT ∨
        rd g.cell (ReadMove_push g map n head c direction).1 (boxCell g map n c) = STAR) ∧
      (FindPlayer g map n ≠ FindDestination g map n (boxCell g map n c) direction →
        (rd g.cell map (FindPlayer g map n) = AT →
          rd g.cell (ReadMove_push g map n head c direction).1 (FindPlayer g map n) = MINUS) ∧
        (rd g.cell map (FindPlayer g map n) = STAR →
          rd g.cell (ReadMove_push g map n head c direction).1 (FindPlayer g map n) = PLUS)) ∧
      (∀ j, j ≠ boxCell g map n c →
        j ≠ FindDestination g map n (boxCell g map n c) direction → j ≠ FindPlayer g map n →
        rd g.cell (ReadMove_push g map n head c direction).1 j = rd g.cell map j) ∧
      (ReadMove_push g map n head c direction).1.length = map.length := by
  obtain ⟨o, d, p, b, t, m, M, ho, hd, hp, hb, hm, hpush, hlen, _, _, _, dne, hop, hbc, htv,
    hmv, hdp, hdt, hM⟩ := push_lower_result g map n head c direction hn hwf hc hdir hg
  rw [ho, hd, hp, hpush, hm]
  simp only
  unfold AT STAR MINUS PLUS
  refine ⟨?_, ?_, ?_, ?_, hlen⟩
  · rw [hM, if_neg dne, if_pos rfl]
    split
    · right; rfl
    · left; rfl
  · rw [hM, if_pos rfl]
    split
    · left; rfl
    · right; rfl
  · intro hpd
    rw [hM, if_neg (fun h => hop h.symm), if_neg hpd, if_pos rfl]
    constructor
    · intro h; rw [if_pos h]
    · intro h; rw [if_neg (by rw [h]; decide)]
  · intro j h1 h2 h3
    rw [hM, if_neg h1, if_neg h2, if_neg h3]

/-- Instance of C7 as amended: the push `a2` on the board `-@-` / `-a-` / `-+-`. -/
theorem push_postcondition_witness :
    (ReadMove_push quiet [45, 64, 45, 10, 45, 97, 45, 10, 45, 43, 45, 10] 12 [] 97 50).1 =
        [45, 45, 45, 10, 45, 64, 45, 10, 45, 65, 45, 10] ∧
      rd quiet.cell
          (ReadMove_push quiet [45, 64, 45, 10, 45, 97, 45, 10, 45, 43, 45, 10] 12 [] 97 50).1
          (boxCell quiet [45, 64, 45, 10, 45, 97, 45, 10, 45, 43, 45, 10] 12 97) = AT :=
  ⟨by decide,
    ((push_postcondition quiet [45, 64, 45, 10, 45, 97, 45, 10, 45, 43, 45, 10] 12 [] 97 50
      (by decide) (by decide) (by decide) (by decide) (by decide)).2.1).resolve_right
      (by decide)⟩

/-- C7 fails for a box named by its upper case letter: on the well-formed board
`@--` / `m` the command `M6` is accepted, because `ReadMove` finds no `M` and
then searches for `'-'` (`'M' - 32`); it moves the floor cell 1 and the player,
the box `m` on cell 4 stays where it was and its cell holds no player marker. -/
theorem push_postcondition_upper_fails :
    WellFormed [64, 45, 45, 10, 109, 10] ∧ isUpper 77 ∧ isDirection 54 ∧
      pushGuard quiet [64, 45, 45, 10, 109, 10] 6 77 54 ∧
      boxCell quiet [64, 45, 45, 10, 109, 10] 6 77 = 4 ∧
      (ReadMove_push quiet [64, 45, 45, 10, 109, 10] 6 [] 77 54).1 =
        [45, 64, 45, 10, 109, 10] ∧
      ¬ (rd quiet.cell (ReadMove_push quiet [64, 45, 45, 10, 109, 10] 6 [] 77 54).1
            (boxCell quiet [64, 45, 45, 10, 109, 10] 6 77) = AT ∨
          rd quiet.cell (ReadMove_push quiet [64, 45, 45, 10, 109, 10] 6 [] 77 54).1
            (boxCell quiet [64, 45, 45, 10, 109, 10] 6 77) = STAR) := by
  decide

/-! ## C8: a push of a box that is not there -/

/-- C8, as amended: for every board on which `FindSymbol` returns `n` both for
the named character and for the character 32 below it (for a lower case name:
the letter occurs in neither case), and for each of the four direction tokens,
the push branch of `ReadMove` leaves the buffer unchanged and adds no record to
the undo list, whatever the read of `map[n]` delivers. -/
theorem missing_box_noop (g : Stray) (map : List Int) (n : Int) (head : List move_t)
    (c direction : Int) (hn : n = map.length) (hdir : isDirection direction)
    (h1 : FindSymbol g map n c = n) (h2 : FindSymbol g map n (c - 32) = n) :
    ReadMove_push g map n head c direction = (map, head) := by
  have ho : pushOrigin g map n c = n := by
    unfold pushOrigin resolveSymbol CHANGECASE
    rw [h1, if_pos (le_refl _), h2]
  rw [ReadMove_push_eq, if_neg]
  intro hg
  unfold pushGuard at hg
  rw [ho] at hg
  exact no_push_at_end g map n direction hn hdir ⟨hg.1, hg.2.1, hg.2.2.2⟩

/-- Instance of C8 as amended: the command `m8` on `@--`, with a row terminator
read beyond the end of the buffer. -/
theorem missing_box_noop_witness :
    ReadMove_push { cell := fun _ => 10, mark := fun _ => 2 } [64, 45, 45, 10] 4 [] 109 56 =
      ([64, 45, 45, 10], []) :=
  missing_box_noop { cell := fun _ => 10, mark := fun _ => 2 } [64, 45, 45, 10] 4 [] 109 56
    (by decide) (by decide) (by decide) (by decide)

/-- C8 fails for an upper case name: on `@--` the letter `M` occurs in neither
case, but the command `M6` makes `ReadMove` search for `'-'` (`'M' - 32`), which
it finds on cell 1; the push is applied, the buffer becomes `-@-` and a record
is added. -/
theorem missing_box_upper_fails :
    isUpper 77 ∧ isDirection 54 ∧
      FindSymbol quiet [64, 45, 45, 10] 4 77 = 4 ∧ FindSymbol quiet [64, 45, 45, 10] 4 109 = 4 ∧
      boxCount [64, 45, 45, 10] 109 = 0 ∧
      ReadMove_push quiet [64, 45, 45, 10] 4 [] 77 54 =
        ([45, 64, 45, 10], [{ playerPos := 0, boxChar := 77, direction := 54 }]) := by
  decide

/-! ## C9: a rejected push changes nothing -/

/-- C9, as amended: on a board on which no box letter occurs twice, for a box
named by its lower case letter and every direction token, when the destination cell of the
box does not exist, or holds a symbol other than `'-'`, `'+'`, `'@'`, `'*'`, or
the cell on the opposite side of the box does not exist or is not reported
reachable, the push branch of `ReadMove` returns the buffer and the undo list
unchanged. -/
theorem rejected_push_atomic (g : Stray) (map : List Int) (n : Int) (head : List move_t)
    (c direction : Int) (hn : n = map.length) (hbd : BoxesDistinct map) (hc : isLower c)
    (hrej : FindDestination g map n (boxCell g map n c) direction = -1 ∨
      IsSymbolValid
        (rd g.cell map (FindDestination g map n (boxCell g map n c) direction)) = false ∨
      FindOppositePos g map n (boxCell g map n c) direction = -1 ∨
      CheckPathExists g map n (FindPlayer g map n)
        (FindOppositePos g map n (boxCell g map n c) direction) = false) :
    ReadMove_push g map n head c direction = (map, head) := by
  rw [ReadMove_push_eq, if_neg]
  intro hg
  unfold pushGuard at hg
  rw [pushOrigin_eq_boxCell g map n c hn hbd hc] at hg
  obtain ⟨g1, g2, g3, g4⟩ := hg
  rcases hrej with h | h | h | h
  · exact g1 h
  · rw [h] at g4; exact Bool.noConfusion g4
  · exact g2 h
  · rw [h] at g3; exact Bool.noConfusion g3

/-- Instance of C9 as amended: on `@a#` the push `a6` runs into the wall. -/
theorem rejected_push_atomic_witness :
    ReadMove_push quiet [64, 97, 35, 10] 4 [] 97 54 = ([64, 97, 35, 10], []) :=
  rejected_push_atomic quiet [64, 97, 35, 10] 4 [] 97 54 (by decide) (by decide) (by decide)
    (by decide)

/-- C9 fails for a box named by its upper case letter: on the well-formed board
`@--` / `m#` the right neighbour of the box `m` holds a wall, yet the command
`M6` changes the buffer, because `ReadMove` finds no `M`, searches for `'-'`
(`'M' - 32`) and pushes the floor cell 1. -/
theorem rejected_push_upper_fails :
    WellFormed [64, 45, 45, 10, 109, 35, 10] ∧ isUpper 77 ∧ isDirection 54 ∧
      boxCell quiet [64, 45, 45, 10, 109, 35, 10] 7 77 = 4 ∧
      FindDestination quiet [64, 45, 45, 10, 109, 35, 10] 7 4 54 = 5 ∧
      rd quiet.cell [64, 45, 45, 10, 109, 35, 10] 5 = 35 ∧
      IsSymbolValid 35 = false ∧
      ReadMove_push quiet [64, 45, 45, 10, 109, 35, 10] 7 [] 77 54 =
        ([45, 64, 45, 10, 109, 35, 10], [{ playerPos := 0, boxChar := 77, direction := 54 }]) := by
  decide

/-! ## C10: the record of a push -/

/-- C10: for every push command, when the test of the push branch holds (the
push is accepted, `MoveBox` is applied) the undo list afterwards is the
previous list with exactly one new record on top, holding the player's index
on the buffer before the move, the box character as supplied and the direction
token; when the test fails (the push is rejected) buffer and undo list are the
same as before. -/
theorem push_log_record (g : Stray) (map : List Int) (n : Int) (head : List move_t)
    (c direction : Int) :
    (pushGuard g map n c direction →
        (ReadMove_push g map n head c direction).2 =
          { playerPos := FindPlayer g map n, boxChar := c, direction := direction } :: head ∧
        (ReadMove_push g map n head c direction).1 =
          MoveBox g map n (pushOrigin g map n c)
            (FindDestination g map n (pushOrigin g map n c) direction)) ∧
      (¬ pushGuard g map n c direction →
        (ReadMove_push g map n head c direction).2 = head ∧
        (ReadMove_push g map n head c direction).1 = map) := by
  rw [ReadMove_push_eq]
  constructor
  · intro hg; rw [if_pos hg]; exact ⟨rfl, rfl⟩
  · intro hg; rw [if_neg hg]; exact ⟨rfl, rfl⟩

/-- Instance of C10: on `*B-` with one earlier record, the accepted command
`b6` puts the record (0, `b`, `6`) on top, the rejected command `b4` leaves the
list as it was. -/
theorem push_log_record_witness :
    (ReadMove_push quiet [42, 66, 45, 10] 4 [{ playerPos := 7, boxChar := 99, direction := 50 }]
        98 54).2 =
        [{ playerPos := 0, boxChar := 98, direction := 54 },
          { playerPos := 7, boxChar := 99, direction := 50 }] ∧
      (ReadMove_push quiet [42, 66, 45, 10] 4 [{ playerPos := 7, boxChar := 99, direction := 50 }]
        98 52).2 = [{ playerPos := 7, boxChar := 99, direction := 50 }] :=
  ⟨((push_log_record quiet [42, 66, 45, 10] 4
      [{ playerPos := 7, boxChar := 99, direction := 50 }] 98 54).1 (by decide)).1,
    ((push_log_record quiet [42, 66, 45, 10] 4
      [{ playerPos := 7, boxChar := 99, direction := 50 }] 98 52).2 (by decide)).1⟩

/-! ## C11: reachability is path existence -/

/-- C11: for every buffer of length `n` and every origin and destination in
`[0, n)`, `CheckPathExists` returns `true` if and only if there are cells
`c1, ..., ck` (`k >= 0`) that continue the origin to a walk ending in the
destination: each cell is the Top, Right, Bottom or Left neighbour of the one
before it and each holds a walkable symbol. Every cell of such a walk after the
origin is a cell of the buffer and holds `'-'`, `'+'`, `'@'` or `'*'`, so no
walk passes through a box or a wall. -/
theorem reachability_is_path_existence (g : Stray) (map : List Int) (n origin destination : Int)
    (hn : n = map.length) (ho0 : 0 ≤ origin) (ho1 : origin < n) (hd0 : 0 ≤ destination)
    (hd1 : destination < n) :
    (CheckPathExists g map n origin destination = true ↔
        ∃ cs, isWalk g map n origin cs destination) ∧
      (∀ cs, isWalk g map n origin cs destination → ∀ c ∈ cs,
        (0 ≤ c ∧ c < n) ∧
          (map.getD c.toNat 0 = MINUS ∨ map.getD c.toNat 0 = PLUS ∨ map.getD c.toNat 0 = AT ∨
            map.getD c.toNat 0 = STAR)) := by
  refine ⟨CheckPathExists_iff_walk g map n origin destination ho0 ho1 hd0 hd1, ?_⟩
  intro cs hw c hc
  have hr := (isWalk_range g map n cs origin destination ho0 ho1 hw).2 c hc
  have hv := isWalk_valid g map n cs origin destination hw c hc
  rw [rd_eq_getD g.cell map c hr.1 (by omega)] at hv
  exact ⟨hr, (IsSymbolValid_iff _).mp hv⟩

/-- Instance of C11: on `@a-` / `---` the cell 2 behind the box is reached from
cell 0 by the walk 4, 5, 6, 2 through the second row. -/
theorem reachability_is_path_existence_witness :
    CheckPathExists quiet [64, 97, 45, 10, 45, 45, 45, 10] 8 0 2 = true ∧
      isWalk quiet [64, 97, 45, 10, 45, 45, 45, 10] 8 0 [4, 5, 6, 2] 2 ∧
      (CheckPathExists quiet [64, 97, 45, 10, 45, 45, 45, 10] 8 0 2 = true ↔
        ∃ cs, isWalk quiet [64, 97, 45, 10, 45, 45, 45, 10] 8 0 cs 2) :=
  ⟨by decide, by decide,
    (reachability_is_path_existence quiet [64, 97, 45, 10, 45, 45, 45, 10] 8 0 2 (by decide)
      (by decide) (by decide) (by decide) (by decide)).1⟩

/-! ## C12: reachability is symmetric on walkable cells -/

/-- C12: for every buffer of length `n` and every two cells `a` and `b` in
`[0, n)` that both hold walkable symbols, `CheckPathExists(map, n, a, b)` and
`CheckPathExists(map, n, b, a)` return the same value. -/
theorem reachability_symmetric (g : Stray) (map : List Int) (n a b : Int)
    (hn : n = map.length) (ha0 : 0 ≤ a) (ha1 : a < n) (hb0 : 0 ≤ b) (hb1 : b < n)
    (hva : IsSymbolValid (map.getD a.toNat 0) = true)
    (hvb : IsSymbolValid (map.getD b.toNat 0) = true) :
    CheckPathExists g map n a b = CheckPathExists g map n b a := by
  have hva2 : IsSymbolValid (rd g.cell map a) = true := by
    rw [rd_eq_getD g.cell map a ha0 (by omega)]; exact hva
  have hvb2 : IsSymbolValid (rd g.cell map b) = true := by
    rw [rd_eq_getD g.cell map b hb0 (by omega)]; exact hvb
  rw [Bool.eq_iff_iff, CheckPathExists_iff_walk g map n a b ha0 ha1 hb0 hb1,
    CheckPathExists_iff_walk g map n b a hb0 hb1 ha0 ha1]
  constructor
  · rintro ⟨cs, h⟩; exact isWalk_reverse g map n cs a b ha0 ha1 hva2 h
  · rintro ⟨cs, h⟩; exact isWalk_reverse g map n cs b a hb0 hb1 hvb2 h

/-- Instance of C12: on `@a-` / `---` the cells 0 and 2 reach each other. -/
theorem reachability_symmetric_witness :
    CheckPathExists quiet [64, 97, 45, 10, 45, 45, 45, 10] 8 2 0 = true ∧
      CheckPathExists quiet [64, 97, 45, 10, 45, 45, 45, 10] 8 0 2 =
        CheckPathExists quiet [64, 97, 45, 10, 45, 45, 45, 10] 8 2 0 :=
  ⟨by decide,
    reachability_symmetric quiet [64, 97, 45, 10, 45, 45, 45, 10] 8 0 2 (by decide) (by decide)
      (by decide) (by decide) (by decide) (by decide) (by decide)⟩

/-! ## C13: reachability is transitive -/

/-- C13: for every buffer, every `n` and every three cells `a`, `b`, `c` in
`[0, n)` (whether or not they hold walkable symbols), if
`CheckPathExists(map, n, a, b)` and `CheckPathExists(map, n, b, c)` are both
true then `CheckPathExists(map, n, a, c)` is true. -/
theorem reachability_transitive (g : Stray) (map : List Int) (n a b c : Int)
    (ha0 : 0 ≤ a) (ha1 : a < n) (hb0 : 0 ≤ b) (hb1 : b < n) (hc0 : 0 ≤ c) (hc1 : c < n)
    (hab : CheckPathExists g map n a b = true) (hbc : CheckPathExists g map n b c = true) :
    CheckPathExists g map n a c = true := by
  obtain ⟨cs, h1⟩ := (CheckPathExists_iff_walk g map n a b ha0 ha1 hb0 hb1).mp hab
  obtain ⟨ds, h2⟩ := (CheckPathExists_iff_walk g map n b c hb0 hb1 hc0 hc1).mp hbc
  exact (CheckPathExists_iff_walk g map n a c ha0 ha1 hc0 hc1).mpr
    ⟨cs ++ ds, isWalk_append g map n cs a b c ds h1 h2⟩

/-- Instance of C13: on `@a-` / `---` cell 0 reaches cell 5, cell 5 reaches
cell 2, and cell 0 reaches cell 2. -/
theorem reachability_transitive_witness :
    CheckPathExists quiet [64, 97, 45, 10, 45, 45, 45, 10] 8 0 5 = true ∧
      CheckPathExists quiet [64, 97, 45, 10, 45, 45, 45, 10] 8 5 2 = true ∧
      CheckPathExists quiet [64, 97, 45, 10, 45, 45, 45, 10] 8 0 2 = true :=
  ⟨by decide, by decide,
    reachability_transitive quiet [64, 97, 45, 10, 45, 45, 45, 10] 8 0 5 2 (by decide)
      (by decide) (by decide) (by decide) (by decide) (by decide) (by decide) (by decide)⟩

/-! ## C14: the Bottom neighbour over a ragged grid -/

/-- C14: for every buffer of length `n` and every cell `i` in `[0, n)` that is
not a row terminator, lying in row `r = rowOf map i` at column
`c = colOf map i` of the buffer split into rows at `'\n'`, `BottomElement`
returns `cellAt map (r + 1) c`: the index of the cell at column `c` of row
`r + 1` when that row exists and is long enough to have a column `c`, and `-1`
otherwise. -/
theorem bottom_neighbour_ragged (g : Stray) (map : List Int) (n i : Int) (hn : n = map.length)
    (h0 : 0 ≤ i) (h1 : i < n) (hnl : map.getD i.toNat 0 ≠ NEWLINE) :
    BottomElement g map n i = cellAt map (rowOf map i.toNat + 1) (colOf map i.toNat) := by
  obtain ⟨k, rfl⟩ := Int.eq_ofNat_of_zero_le h0
  rw [Int.toNat_ofNat] at hnl ⊢
  obtain ⟨p, m, e1, e2, hpk, hkm, hm, hin, hstart, hstop, hr, hc, hrm⟩ :=
    cell_frame g map n hn k (by omega) hnl
  unfold BottomElement
  simp only
  rw [e1, e2]
  by_cases hlast : m = map.length
  · have e3 : FindNextNewline g map n ((m : Int) + 1) = (m : Int) + 1 :=
      (FindNextNewline_spec g map n ((m : Int) + 1)).2.2.1 (by omega)
    rw [e3, if_neg (by omega)]
    symm
    apply cellAt_none
    intro j hj _ hrj
    have := rowOf_mono map j m (by omega)
    omega
  · have hmnl : map.getD m 0 = NEWLINE := by
      rcases hstop with e | e
      · exact absurd e hlast
      · exact e
    obtain ⟨m2, e3, a1, a2, a3, a4⟩ := next_frame g map n hn (m + 1) (by omega)
    have e3b : FindNextNewline g map n ((m : Int) + 1) = (m2 : Int) := by
      rw [← e3]; congr 1
    have hrow : rowOf map (m + 1) = rowOf map k + 1 := by
      rw [rowOf_nl map m hmnl]; omega
    have hcell := cellAt_frame map (m + 1) m2 a1 a2 a3 (Or.inr hmnl) a4 (colOf map k)
    rw [hrow] at hcell
    rw [e3b, hcell]
    by_cases hfit : m + 1 + colOf map k < m2
    · rw [if_pos hfit, if_pos (by omega)]; push_cast; omega
    · rw [if_neg hfit, if_neg (by omega)]

/-- Instance of C14: on the rows `ab`, `-`, `cde` the cell under `a` is cell 3,
`b` has no cell under it because the second row is too short, and the cells of
the last row have none either. -/
theorem bottom_neighbour_ragged_witness :
    BottomElement quiet [97, 98, 10, 45, 10, 99, 100, 101, 10] 9 0 = 3 ∧
      BottomElement quiet [97, 98, 10, 45, 10, 99, 100, 101, 10] 9 1 = -1 ∧
      BottomElement quiet [97, 98, 10, 45, 10, 99, 100, 101, 10] 9 6 = -1 ∧
      BottomElement quiet [97, 98, 10, 45, 10, 99, 100, 101, 10] 9 3 =
        cellAt [97, 98, 10, 45, 10, 99, 100, 101, 10]
          (rowOf [97, 98, 10, 45, 10, 99, 100, 101, 10] (3 : Int).toNat + 1)
          (colOf [97, 98, 10, 45, 10, 99, 100, 101, 10] (3 : Int).toNat) :=
  ⟨by decide, by decide, by decide,
    bottom_neighbour_ragged quiet [97, 98, 10, 45, 10, 99, 100, 101, 10] 9 3 (by decide)
      (by decide) (by decide) (by decide)⟩

/-! ## C15: the Top neighbour over a ragged grid -/

/-- C15: for every buffer of length `n` and every cell `i` in `[0, n)` that is
not a row terminator, lying in row `r = rowOf map i` at column
`c = colOf map i`, `TopElement` returns `-1` when `r = 0` and
`cellAt map (r - 1) c` when `r > 0`: the index of the cell at column `c` of
row `r - 1` when that row is long enough to have a column `c`, and `-1`
otherwise. -/
theorem top_neighbour_ragged (g : Stray) (map : List Int) (n i : Int) (hn : n = map.length)
    (h0 : 0 ≤ i) (h1 : i < n) (hnl : map.getD i.toNat 0 ≠ NEWLINE) :
    TopElement g map i =
      if rowOf map i.toNat = 0 then -1
      else cellAt map (rowOf map i.toNat - 1) (colOf map i.toNat) := by
  obtain ⟨k, rfl⟩ := Int.eq_ofNat_of_zero_le h0
  rw [Int.toNat_ofNat] at hnl ⊢
  obtain ⟨p, m, e1, _, hpk, hkm, hm, hin, hstart, _, hr, hc, _⟩ :=
    cell_frame g map n hn k (by omega) hnl
  unfold TopElement
  simp only
  rw [e1]
  by_cases hfirst : p = 0
  · have e3 : FindPrevNewline g map ((p : Int) - 1 - 1) = (p : Int) - 1 - 1 :=
      (FindPrevNewline_spec g map ((p : Int) - 1 - 1)).2.2.1 (by omega)
    have hr0 : rowOf map k = 0 := by rw [hr, hfirst]; rfl
    rw [e3, if_pos hr0, if_neg (by omega)]
  · have hpnl : map.getD (p - 1) 0 = NEWLINE := by
      rcases hstart with e | e
      · exact absurd e hfirst
      · exact e
    obtain ⟨q, e3, a1, a2, a3⟩ := prev_frame g map (p - 1) (by omega)
    have e3b : FindPrevNewline g map ((p : Int) - 1 - 1) = (q : Int) - 1 := by
      rw [← e3]; congr 1; omega
    have hp1 : rowOf map p = rowOf map (p - 1) + 1 := by
      have := rowOf_nl map (p - 1) hpnl
      have e : p - 1 + 1 = p := by omega
      rw [e] at this; exact this
    have hq : rowOf map (p - 1) = rowOf map q := (rowOf_colOf_eq map q (p - 1) a1 a2).1
    have hcell := cellAt_frame map q (p - 1) a1 (by omega) a2 a3 (Or.inr hpnl) (colOf map k)
    have hrow : rowOf map k - 1 = rowOf map q := by omega
    have hrk : ¬ rowOf map k = 0 := by omega
    rw [e3b, if_neg hrk, hrow, hcell]
    by_cases hfit : q + colOf map k < p - 1
    · rw [if_pos hfit, if_pos ⟨by omega, by omega⟩]; push_cast; omega
    · rw [if_neg hfit, if_neg (fun h => hfit (by omega))]

/-- Instance of C15: on the rows `ab`, `-`, `cde` the cell over `c` is cell 3,
`d` has no cell over it because the second row is too short, and the cells of
the first row have none either. -/
theorem top_neighbour_ragged_witness :
    TopElement quiet [97, 98, 10, 45, 10, 99, 100, 101, 10] 5 = 3 ∧
      TopElement quiet [97, 98, 10, 45, 10, 99, 100, 101, 10] 6 = -1 ∧
      TopElement quiet [97, 98, 10, 45, 10, 99, 100, 101, 10] 1 = -1 ∧
      TopElement quiet [97, 98, 10, 45, 10, 99, 100, 101, 10] 3 =
        (if rowOf [97, 98, 10, 45, 10, 99, 100, 101, 10] (3 : Int).toNat = 0 then -1
          else cellAt [97, 98, 10, 45, 10, 99, 100, 101, 10]
            (rowOf [97, 98, 10, 45, 10, 99, 100, 101, 10] (3 : Int).toNat - 1)
            (colOf [97, 98, 10, 45, 10, 99, 100, 101, 10] (3 : Int).toNat)) :=
  ⟨by decide, by decide, by decide,
    top_neighbour_ragged quiet [97, 98, 10, 45, 10, 99, 100, 101, 10] 9 3 (by decide)
      (by decide) (by decide) (by decide)⟩

/-! ## C16: horizontal neighbours -/

/-- C16: for every buffer of length `n` and every index `i` in `[0, n)`,
`RightElement` returns `i + 1` when `i + 1 < n` and `map[i + 1]` is not `'\n'`,
and `-1` otherwise; `LeftElement` returns `i - 1` when `i - 1 ≥ 0` and
`map[i - 1]` is not `'\n'`, and `-1` otherwise; and neither
result changes when the rest of the buffer, hence the length of any other row,
changes: they depend on the one cell they look at only. -/
theorem horizontal_neighbours (g : Stray) (map : List Int) (n i : Int) (hn : n = map.length)
    (h0 : 0 ≤ i) (h1 : i < n) :
    RightElement g map n i =
        (if i + 1 < n ∧ map.getD (i + 1).toNat 0 ≠ NEWLINE then i + 1 else -1) ∧
      LeftElement g map i =
        (if 0 ≤ i - 1 ∧ map.getD (i - 1).toNat 0 ≠ NEWLINE then i - 1 else -1) ∧
      (∀ (map2 : List Int) (n2 : Int), n2 = map2.length →
        (i + 1 < n ↔ i + 1 < n2) →
        (map.getD (i + 1).toNat 0 = NEWLINE ↔ map2.getD (i + 1).toNat 0 = NEWLINE) →
        RightElement g map2 n2 i = RightElement g map n i) ∧
      (∀ (map2 : List Int) (n2 : Int), n2 = map2.length → i < n2 →
        (map.getD (i - 1).toNat 0 = NEWLINE ↔ map2.getD (i - 1).toNat 0 = NEWLINE) →
        LeftElement g map2 i = LeftElement g map i) := by
  have hR : ∀ (m : List Int) (k : Int), k = m.length →
      RightElement g m k i =
        if i + 1 < k ∧ m.getD (i + 1).toNat 0 ≠ NEWLINE then i + 1 else -1 := by
    intro m k hk
    unfold RightElement
    by_cases hlt : i + 1 < k
    · rw [rd_eq_getD g.cell m (i + 1) (by omega) (by omega)]
    · rw [if_neg (fun h => hlt h.1), if_neg (fun h => hlt h.1)]
  have hL : ∀ (m : List Int) (k : Int), k = m.length → i < k →
      LeftElement g m i =
        if 0 ≤ i - 1 ∧ m.getD (i - 1).toNat 0 ≠ NEWLINE then i - 1 else -1 := by
    intro m k hk hik
    unfold LeftElement
    by_cases hge : 0 ≤ i - 1
    · rw [rd_eq_getD g.cell m (i - 1) hge (by omega)]
      have e : (i - 1 > -1) = True := by simp; omega
      simp only [e, true_and, hge]
    · rw [if_neg (fun h => hge (by omega)), if_neg (fun h => hge h.1)]
  refine ⟨hR map n hn, hL map n hn h1, ?_, ?_⟩
  · intro map2 n2 hn2 hlen hcell
    rw [hR map n hn, hR map2 n2 hn2]
    simp only [ne_eq, hlen, hcell]
  · intro map2 n2 hn2 hi2 hcell
    rw [hL map n hn h1, hL map2 n2 hn2 hi2]
    simp only [ne_eq, hcell]

/-- Instance of C16: on `ab` / `c` the right neighbour of `b` (index 1) would
be the row terminator, the left neighbour of `c` (index 3) likewise, and `a`
has the right neighbour 1. -/
theorem horizontal_neighbours_witness :
    RightElement quiet [97, 98, 10, 99, 10] 5 1 =
        (if (1 : Int) + 1 < 5 ∧ [97, 98, 10, 99, 10].getD ((1 : Int) + 1).toNat 0 ≠ NEWLINE
          then 1 + 1 else -1) ∧
      RightElement quiet [97, 98, 10, 99, 10] 5 1 = -1 ∧
      LeftElement quiet [97, 98, 10, 99, 10] 3 =
        (if (0 : Int) ≤ 3 - 1 ∧ [97, 98, 10, 99, 10].getD ((3 : Int) - 1).toNat 0 ≠ NEWLINE
          then 3 - 1 else -1) ∧
      LeftElement quiet [97, 98, 10, 99, 10] 3 = -1 :=
  ⟨(horizontal_neighbours quiet [97, 98, 10, 99, 10] 5 1 (by decide) (by decide)
      (by decide)).1, by decide,
    (horizontal_neighbours quiet [97, 98, 10, 99, 10] 5 3 (by decide) (by decide)
      (by decide)).2.1, by decide⟩

/-! ## C17: the flood fill terminates -/

/-- C17: for every buffer, every `n` and every origin and destination (in
particular `n >= 1` and both in `[0, n)`), the `while` loop of
`CheckPathExists` ends by its own test within `pathFuel n = 2 * n + 2` passes
and returns the value of `CheckPathExists`, with any larger number of passes
allowed as well; on every label array of `n` cells, a pass that leaves
`checked_all` false has turned a cell that was `UNCHECKEDAROUND` at the start
of the pass into `REACHABLE`, and a pass never changes a label `REACHABLE` or
`UNREACHABLE`. -/
theorem flood_fill_terminates (g : Stray) (map : List Int) (n origin destination : Int) :
    (∀ fuel, pathFuel n ≤ fuel →
        pathLoop g map n destination fuel
            (wr (List.replicate n.toNat 0) origin UNCHECKEDAROUND) false false =
          some (CheckPathExists g map n origin destination)) ∧
      (∀ path : List Int, path.length = n.toNat →
        ((scanPass g map n path).2 = false →
          ∃ i, 0 ≤ i ∧ i < n ∧ rd g.mark path i = UNCHECKEDAROUND ∧
            rd g.mark (scanPass g map n path).1 i = REACHABLE) ∧
        (∀ j, 0 ≤ j → j < n → rd g.mark path j = REACHABLE →
          rd g.mark (scanPass g map n path).1 j = REACHABLE) ∧
        (∀ j, 0 ≤ j → j < n → rd g.mark path j = UNREACHABLE →
          rd g.mark (scanPass g map n path).1 j = UNREACHABLE)) := by
  constructor
  · intro fuel hf
    have h := pathLoop_mono_le g map n destination (pathFuel n) (fuel - pathFuel n) _ false false
      _ (CheckPathExists_total g map n origin destination)
    rw [Nat.add_sub_cancel' hf] at h
    exact h
  · intro path hl
    obtain ⟨h2, h3, _, hf⟩ := scanPass_labels g map n path hl
    exact ⟨hf, h2, h3⟩

/-- Instance of C17: on `@-a` with origin 0 and destination 1 the loop ends
with `true` within `pathFuel 4` passes, and the first pass, which leaves
`checked_all` false, turns a cell from `UNCHECKEDAROUND` to `REACHABLE`. -/
theorem flood_fill_terminates_witness :
    pathLoop quiet [64, 45, 97, 10] 4 1 (pathFuel 4)
        (wr (List.replicate (4 : Int).toNat 0) 0 UNCHECKEDAROUND) false false = some true ∧
      ∃ i, 0 ≤ i ∧ i < 4 ∧ rd quiet.mark [1, 0, 0, 0] i = UNCHECKEDAROUND ∧
        rd quiet.mark (scanPass quiet [64, 45, 97, 10] 4 [1, 0, 0, 0]).1 i = REACHABLE :=
  ⟨((flood_fill_terminates quiet [64, 45, 97, 10] 4 0 1).1 (pathFuel 4) (le_refl _)).trans
      (by decide),
    ((flood_fill_terminates quiet [64, 45, 97, 10] 4 0 1).2 [1, 0, 0, 0] (by decide)).1
      (by decide)⟩

/-! ## C18: neighbours stay inside the buffer -/

/-- C18: for every buffer of length `n` and every index `i` in `[0, n)`, each
of `TopElement`, `RightElement`, `BottomElement` and `LeftElement` returns `-1`
or an index `j` with `0 ≤ j < n`, so that every access `path[Adjacent[j]]` and
`map[Adjacent[j]]` of `CheckPathExists`, which scans the indices `0 ≤ i < n`
and skips the value `-1`, is in bounds; and when the cell `i` is not a row
terminator, the cell returned is not a row terminator either. -/
theorem neighbours_in_bounds (g : Stray) (map : List Int) (n i : Int) (hn : n = map.length)
    (h0 : 0 ≤ i) (h1 : i < n) :
    ((TopElement g map i = -1 ∨ (0 ≤ TopElement g map i ∧ TopElement g map i < n)) ∧
      (RightElement g map n i = -1 ∨
        (0 ≤ RightElement g map n i ∧ RightElement g map n i < n)) ∧
      (BottomElement g map n i = -1 ∨
        (0 ≤ BottomElement g map n i ∧ BottomElement g map n i < n)) ∧
      (LeftElement g map i = -1 ∨ (0 ≤ LeftElement g map i ∧ LeftElement g map i < n))) ∧
    (map.getD i.toNat 0 ≠ NEWLINE →
      (TopElement g map i = -1 ∨ map.getD (TopElement g map i).toNat 0 ≠ NEWLINE) ∧
      (RightElement g map n i = -1 ∨ map.getD (RightElement g map n i).toNat 0 ≠ NEWLINE) ∧
      (BottomElement g map n i = -1 ∨
        map.getD (BottomElement g map n i).toNat 0 ≠ NEWLINE) ∧
      (LeftElement g map i = -1 ∨ map.getD (LeftElement g map i).toNat 0 ≠ NEWLINE)) := by
  have hT := TopElement_bounds g map i h0
  have hR := RightElement_bounds g map n i h0
  have hB := BottomElement_bounds g map n i h0 h1
  have hL := LeftElement_bounds g map i n h1
  refine ⟨⟨?_, hR, ?_, hL⟩, fun hnl => ?_⟩
  · rcases hT with h | h
    · left; exact h
    · right; omega
  · rcases hB with h | h
    · left; exact h
    · right; omega
  · have hnl2 : rd g.cell map i ≠ NEWLINE := by
      rw [rd_eq_getD g.cell map i h0 (by omega)]; exact hnl
    refine ⟨?_, ?_, ?_, ?_⟩
    · by_cases h : TopElement g map i = -1
      · left; exact h
      · right
        obtain ⟨a, b, c, _⟩ := TopElement_range g map n i h0 h1 hnl2 h
        rw [← rd_eq_getD g.cell map _ a (by omega)]; exact c
    · by_cases h : RightElement g map n i = -1
      · left; exact h
      · right
        obtain ⟨a, b, c⟩ := RightElement_range g map n i h
        rw [a, ← rd_eq_getD g.cell map _ (by omega) (by omega)]; exact c
    · by_cases h : BottomElement g map n i = -1
      · left; exact h
      · right
        obtain ⟨a, b, c, _⟩ := BottomElement_range g map n i h0 hnl2 h
        rw [← rd_eq_getD g.cell map _ (by omega) (by omega)]; exact c
    · by_cases h : LeftElement g map i = -1
      · left; exact h
      · right
        obtain ⟨a, b, c⟩ := LeftElement_range g map i h
        rw [a, ← rd_eq_getD g.cell map _ b (by omega)]; exact c

/-- Instance of C18: the cell `c` (index 4) of `ab` / `-c-`, whose four
neighbours are 1, 5, none and 3. -/
theorem neighbours_in_bounds_witness :
    TopElement quiet [97, 98, 10, 45, 99, 45, 10] 4 = 1 ∧
      BottomElement quiet [97, 98, 10, 45, 99, 45, 10] 7 4 = -1 ∧
      (RightElement quiet [97, 98, 10, 45, 99, 45, 10] 7 4 = -1 ∨
        (0 ≤ RightElement quiet [97, 98, 10, 45, 99, 45, 10] 7 4 ∧
          RightElement quiet [97, 98, 10, 45, 99, 45, 10] 7 4 < 7)) :=
  ⟨by decide, by decide,
    (neighbours_in_bounds quiet [97, 98, 10, 45, 99, 45, 10] 7 4 (by decide) (by decide)
      (by decide)).1.2.1⟩

/-! ## C19: the neighbours are inverse to each other -/

/-- C19: for every buffer and all cells `i` and `j` of the buffer that are not
row terminators, `BottomElement(i) = j` if and only if `TopElement(j) = i`, and
`RightElement(i) = j` if and only if `LeftElement(j) = i`; and for each of the
four direction tokens `D` and every cell `o` (in range, not a row terminator),
if `FindDestination(o, D)` is not `-1` then `FindOppositePos` of it in
direction `D` is `o`. -/
theorem neighbours_inverse (g : Stray) (map : List Int) (n : Int) (hn : n = map.length) :
    (∀ i j : Int, 0 ≤ i → i < n → 0 ≤ j → j < n →
      map.getD i.toNat 0 ≠ NEWLINE → map.getD j.toNat 0 ≠ NEWLINE →
      ((BottomElement g map n i = j ↔ TopElement g map j = i) ∧
        (RightElement g map n i = j ↔ LeftElement g map j = i))) ∧
    (∀ D o : Int, isDirection D → 0 ≤ o → o < n → map.getD o.toNat 0 ≠ NEWLINE →
      FindDestination g map n o D ≠ -1 →
      FindOppositePos g map n (FindDestination g map n o D) D = o) := by
  have hrd : ∀ k : Int, 0 ≤ k → k < n → map.getD k.toNat 0 ≠ NEWLINE →
      rd g.cell map k ≠ NEWLINE := by
    intro k k0 k1 h
    rw [rd_eq_getD g.cell map k k0 (by omega)]; exact h
  constructor
  · intro i j i0 i1 j0 j1 hi hj
    have hi2 := hrd i i0 i1 hi
    have hj2 := hrd j j0 j1 hj
    constructor
    · constructor
      · intro h
        have hne : BottomElement g map n i ≠ -1 := by rw [h]; omega
        have := (BottomElement_range g map n i i0 hi2 hne).2.2.2
        rw [h] at this; exact this
      · intro h
        have hne : TopElement g map j ≠ -1 := by rw [h]; omega
        have := (TopElement_range g map n j j0 j1 hj2 hne).2.2.2
        rw [h] at this; exact this
    · constructor
      · intro h
        have hne : RightElement g map n i ≠ -1 := by rw [h]; omega
        obtain ⟨a, _, _⟩ := RightElement_range g map n i hne
        have hji : j = i + 1 := by rw [← h, a]
        unfold LeftElement
        have e : j - 1 = i := by omega
        rw [e, if_pos ⟨by omega, hi2⟩]
      · intro h
        have hne : LeftElement g map j ≠ -1 := by rw [h]; omega
        obtain ⟨a, _, _⟩ := LeftElement_range g map j hne
        have hji : i = j - 1 := by rw [← h, a]
        unfold RightElement
        have e : i + 1 = j := by omega
        rw [e, if_pos ⟨j1, hj2⟩]
  · intro D o hD o0 o1 ho hne
    exact (FindDestination_range g map n o D o0 o1 (hrd o o0 o1 ho) hD hne).2.2.2

/-- Instance of C19: on `ab` / `-c-` the push direction `'2'` leads from cell 1
to cell 4 and the opposite position of cell 4 is cell 1 again. -/
theorem neighbours_inverse_witness :
    FindDestination quiet [97, 98, 10, 45, 99, 45, 10] 7 1 50 = 4 ∧
      FindOppositePos quiet [97, 98, 10, 45, 99, 45, 10] 7
        (FindDestination quiet [97, 98, 10, 45, 99, 45, 10] 7 1 50) 50 = 1 :=
  ⟨by decide,
    (neighbours_inverse quiet [97, 98, 10, 45, 99, 45, 10] 7 (by decide)).2 50 1 (by decide)
      (by decide) (by decide) (by decide) (by decide)⟩

/-! ## C20: a direction token that is none of the four -/

/-- C20: for every buffer, every origin and every direction value other than
`'8'`, `'2'`, `'4'`, `'6'`, `FindDestination` and `FindOppositePos` both return
`0`, not `-1`; so the push branch of `ReadMove` applies `MoveBox` with
destination `0` (and adds the record) when cell 0 holds a walkable symbol and
`CheckPathExists` reports it reachable from the player's cell, and rejects the
command, leaving buffer and undo list as they were, only otherwise. -/
theorem unknown_direction (g : Stray) (map : List Int) (n : Int) (head : List move_t)
    (c direction : Int) (hdir : ¬ isDirection direction) :
    (∀ origin, FindDestination g map n origin direction = 0 ∧
        FindOppositePos g map n origin direction = 0) ∧
      ReadMove_push g map n head c direction =
        if CheckPathExists g map n (FindPlayer g map n) 0 = true ∧
            IsSymbolValid (rd g.cell map 0) = true then
          (MoveBox g map n (pushOrigin g map n c) 0,
            { playerPos := FindPlayer g map n, boxChar := c, direction := direction } :: head)
        else (map, head) := by
  unfold isDirection at hdir
  have hD : ∀ origin, FindDestination g map n origin direction = 0 ∧
      FindOppositePos g map n origin direction = 0 := by
    intro origin
    unfold FindDestination FindOppositePos
    rw [if_neg (fun h => hdir (Or.inl h)),
      if_neg (fun h => hdir (Or.inr (Or.inr (Or.inr h)))),
      if_neg (fun h => hdir (Or.inr (Or.inr (Or.inl h)))),
      if_neg (fun h => hdir (Or.inr (Or.inl h))),
      if_neg (fun h => hdir (Or.inl h)),
      if_neg (fun h => hdir (Or.inr (Or.inr (Or.inr h)))),
      if_neg (fun h => hdir (Or.inr (Or.inr (Or.inl h)))),
      if_neg (fun h => hdir (Or.inr (Or.inl h)))]
    exact ⟨rfl, rfl⟩
  refine ⟨hD, ?_⟩
  rw [ReadMove_push_eq]
  have hiff : pushGuard g map n c direction ↔
      (CheckPathExists g map n (FindPlayer g map n) 0 = true ∧
        IsSymbolValid (rd g.cell map 0) = true) := by
    unfold pushGuard
    rw [(hD _).1, (hD _).2]
    constructor
    · rintro ⟨_, _, h3, h4⟩; exact ⟨h3, h4⟩
    · rintro ⟨h3, h4⟩; exact ⟨by decide, by decide, h3, h4⟩
  by_cases hg : pushGuard g map n c direction
  · rw [if_pos hg, if_pos (hiff.mp hg), (hD _).1]; rfl
  · rw [if_neg hg, if_neg (fun h => hg (hiff.mpr h))]

/-- Instance of C20: on `-@a` the command `a` with the direction token `x`
moves the box from cell 2 to cell 0. -/
theorem unknown_direction_witness :
    ReadMove_push quiet [45, 64, 97, 10] 4 [] 97 120 =
        ([97, 45, 64, 10], [{ playerPos := 1, boxChar := 97, direction := 120 }]) ∧
      ((∀ origin, FindDestination quiet [45, 64, 97, 10] 4 origin 120 = 0 ∧
          FindOppositePos quiet [45, 64, 97, 10] 4 origin 120 = 0) ∧
        ReadMove_push quiet [45, 64, 97, 10] 4 [] 97 120 =
          if CheckPathExists quiet [45, 64, 97, 10] 4 (FindPlayer quiet [45, 64, 97, 10] 4) 0 =
                true ∧
              IsSymbolValid (rd quiet.cell [45, 64, 97, 10] 0) = true then
            (MoveBox quiet [45, 64, 97, 10] 4 (pushOrigin quiet [45, 64, 97, 10] 4 97) 0,
              { playerPos := FindPlayer quiet [45, 64, 97, 10] 4, boxChar := 97,
                direction := 120 } :: [])
          else ([45, 64, 97, 10], [])) :=
  ⟨by decide, unknown_direction quiet [45, 64, 97, 10] 4 [] 97 120 (by decide)⟩

end Sokoban
